import Mathlib

/-! # gmpy: conversion layer and integer / rational operations

A shallow embedding of the parts of `gmpy.c` and `gmpy_mpz.c` that decide the
serialisation round trips, the division and power wrappers, `qdiv` and `divm`.

Conventions of the embedding:

* an `mpz_t` is an `Int`; an `mpq_t` is a raw pair of integers (numerator,
  denominator), because the wrappers write the two fields separately;
* a byte string is a `List Nat` of values below 256;
* a wrapper returns an `Outcome`: a value, a raised Python exception, or a
  `fault` when the C code leaves defined behaviour (a GMP kernel call with a
  zero divisor, a read outside a buffer);
* GMP kernel primitives (`mpz_export`, `mpz_fdiv_qr`, `mpz_root`, ...) are
  modelled by their documented results.
-/

namespace Gmpy

/-! ## Outcomes -/

/-- Python exception kinds set by the wrappers through `PyErr_SetString`. -/
inductive PyExc where
  | ValueError
  | ZeroDivisionError
  | TypeError
  | OverflowError
  | SystemError
  deriving DecidableEq

/-- Result of one wrapper call. -/
inductive Outcome (α : Type) where
  | ok (v : α)
  | raise (e : PyExc)
  | fault
  deriving DecidableEq

/-! ## GMP primitives on integers -/

/-- Number of binary digits of `n`, counted with `fuel` halvings at most. -/
def bitsAux : Nat → Nat → Nat
  | 0, _ => 0
  | fuel + 1, n => if n = 0 then 0 else bitsAux fuel (n / 2) + 1

/-- The call `mpz_sizeinbase(z, 2)` on the magnitude `n`: the number of binary
digits, and 1 for zero. -/
def mpz_sizeinbase2 (n : Nat) : Nat :=
  if n = 0 then 1 else bitsAux n n

/-- Little-endian base-256 digits of `n`, produced with `fuel` divisions at most. -/
def exportAux : Nat → Nat → List Nat
  | 0, _ => []
  | fuel + 1, n => if n = 0 then [] else (n % 256) :: exportAux fuel (n / 256)

/-- The bytes `mpz_export(buf, NULL, -1, 1, 0, 0, z)` writes for the magnitude
`n`: least significant byte first, no byte at all for zero. -/
def mpz_export (n : Nat) : List Nat :=
  exportAux n n

/-- The value `mpz_import(z, len, -1, 1, 0, 0, cp)` reads from the bytes. -/
def mpz_import : List Nat → Nat
  | [] => 0
  | b :: bs => b + 256 * mpz_import bs

/-- Store `bytes` into `buf` starting at offset `off` (the target of an
`mpz_export` call into a buffer that is large enough). -/
def writeAt (buf : List Nat) (off : Nat) (bytes : List Nat) : List Nat :=
  buf.take off ++ bytes ++ buf.drop (off + bytes.length)

/-- A freshly allocated buffer of `size` bytes; `junk` is whatever the allocator
left in memory. -/
def allocBuffer (junk : Nat → Nat) (size : Nat) : List Nat :=
  (List.range size).map junk

/-! ## mpz binary form -/

/-- The function `mpz2binary` of `gmpy.c`: base-256 little-endian magnitude, then one
trailing byte `0xff` for a negative value, or `0x00` when the bit count of a
non-negative value is a multiple of 8. -/
def mpz2binary (junk : Nat → Nat) (x : Int) : List Nat :=
  let negative : Bool := decide (x < 0)
  let temp : Nat := x.natAbs
  let size0 := mpz_sizeinbase2 temp
  let needtrail : Bool := size0 % 8 == 0
  let usize := (size0 + 7) / 8
  let size := if negative || needtrail then usize + 1 else usize
  let buffer := allocBuffer junk size
  let buffer := buffer.set 0 0x00
  let buffer := writeAt buffer 0 (mpz_export temp)
  if usize < size then buffer.set usize (if negative then 0xff else 0x00) else buffer

/-- The `256 == base` branch of `str2mpz`: a last byte `0xff` marks a negative value and
is dropped, the rest is the little-endian magnitude. The C code reads `cp[len-1]`
without a length test, which for an empty string lies outside the data. -/
def str2mpz (cp : List Nat) : Outcome Int :=
  match cp.getLast? with
  | none => Outcome.fault
  | some last =>
    let negative : Bool := last == 0xFF
    let len := if negative then cp.length - 1 else cp.length
    let z : Int := (mpz_import (cp.take len) : Nat)
    Outcome.ok (if negative then -z else z)

/-! ## mpq binary form -/

/-- An `mpq_t`: numerator and denominator as GMP stores them. -/
structure Mpq where
  num : Int
  den : Int
  deriving DecidableEq

/-- GMP's canonical form: positive denominator, no common factor. -/
def Mpq.canonical (q : Mpq) : Prop :=
  0 < q.den ∧ Int.gcd q.num q.den = 1

instance (q : Mpq) : Decidable q.canonical := by
  unfold Mpq.canonical
  exact inferInstance

/-- The rational number an `mpq_t` stands for. -/
def Mpq.toRat (q : Mpq) : ℚ :=
  (q.num : ℚ) / (q.den : ℚ)

/-- The call `mpq_canonicalize`: divide out the gcd and make the denominator positive. -/
def mpq_canonicalize (q : Mpq) : Mpq :=
  let g : Int := (Int.gcd q.num q.den : Nat)
  let n := q.num / g
  let d := q.den / g
  if d < 0 then ⟨-n, -d⟩ else ⟨n, d⟩

/-- The function `mpq2binary` of `gmpy.c`: four bytes holding the byte length of the
numerator (little-endian, top bit of the fourth byte set for a negative value),
then the magnitude of the numerator and the denominator as `mpz_export` writes
them. -/
def mpq2binary (junk : Nat → Nat) (x : Mpq) : List Nat :=
  let negative : Bool := decide (x.num < 0)
  let qnum : Nat := x.num.natAbs
  let qden : Nat := x.den.natAbs
  let sizenum := (mpz_sizeinbase2 qnum + 7) / 8
  let sizeden := (mpz_sizeinbase2 qden + 7) / 8
  let size := sizenum + sizeden + 4
  let buffer := allocBuffer junk size
  let buffer := buffer.set 0 (sizenum % 256)
  let buffer := buffer.set 1 (sizenum / 256 % 256)
  let buffer := buffer.set 2 (sizenum / 65536 % 256)
  let buffer := buffer.set 3 (sizenum / 16777216 % 256)
  let buffer := if negative then buffer.set 3 (buffer.getD 3 0 ||| 0x80) else buffer
  let buffer := buffer.set 4 0x00
  let buffer := writeAt buffer 4 (mpz_export qnum)
  writeAt buffer (sizenum + 4) (mpz_export qden)

/-- The `256 == base` branch of `str2mpq`: header, numerator and denominator are cut
out of the string and each part is parsed by `str2mpz`. -/
def str2mpq (cp : List Nat) : Outcome Mpq :=
  let len := cp.length
  if len < 6 then Outcome.raise PyExc.ValueError
  else
    let topper := cp.getD 3 0 &&& 0x7f
    let isnega := cp.getD 3 0 &&& 0x80
    let numlen := cp.getD 0 0 + 256 * (cp.getD 1 0 + 256 * (cp.getD 2 0 + 256 * topper))
    if len < 4 + numlen + 1 then Outcome.raise PyExc.ValueError
    else
      match str2mpz ((cp.drop 4).take numlen) with
      | Outcome.fault => Outcome.fault
      | Outcome.raise e => Outcome.raise e
      | Outcome.ok numerator0 =>
        if numerator0 < 0 then Outcome.raise PyExc.ValueError
        else
          let numerator := if isnega ≠ 0 then -numerator0 else numerator0
          match str2mpz (cp.drop (4 + numlen)) with
          | Outcome.fault => Outcome.fault
          | Outcome.raise e => Outcome.raise e
          | Outcome.ok denominator =>
            if Int.sign denominator ≠ 1 then Outcome.raise PyExc.ValueError
            else Outcome.ok (mpq_canonicalize ⟨numerator, denominator⟩)

/-! ## Module options and mpf objects -/

/-- The integer fields of the module-level `options` record. -/
structure Options where
  debug : Int
  minprec : Nat
  tagoff : Int
  zcache : Int
  minzco : Int
  maxzco : Int
  qcache : Int
  deriving DecidableEq

/-- The options once `_PyInitGMP` has run: the static initialiser
`{ 0, 0, 5, 20, -2, 11, 20, 0 }` with `minprec` set to the mantissa width of a
double, 53 bits. -/
def initOptions : Options :=
  { debug := 0, minprec := 53, tagoff := 5, zcache := 20, minzco := -2, maxzco := 11,
    qcache := 20 }

/-- A value of the C type `int` after an arithmetic step: two's-complement
wrap-around to 32 bits. -/
def wrapInt (z : Int) : Int :=
  (z + 2147483648) % 4294967296 - 2147483648

/-- An mpf object as the wrappers observe it: the result of `mpf_sgn`, the digit
string and base-16 exponent that `mpf_get_str(0, &the_exp, 16, 0, f)` reports (the
value is `± 0.d1 d2 ... × 16 ^ the_exp`, digits decoded to 0..15), and the
requested precision `rebits` kept beside the GMP value. -/
structure PympfObject where
  sign : Int
  digits : List Nat
  the_exp : Int
  rebits : Nat
  deriving DecidableEq

/-- The function `Pympf_new`: the requested precision is raised to `options.minprec` and
stored in `rebits`; the value starts at zero. -/
def Pympf_new (opts : Options) (bits : Nat) : PympfObject :=
  let bits := if bits < opts.minprec then opts.minprec % 4294967296 else bits
  { sign := 0, digits := [], the_exp := 0, rebits := bits }

/-- The helper `di256`: two hex digits (already decoded by `hof`) packed into a `char`. -/
def di256 (di1 di2 : Nat) : Nat :=
  (di2 + 16 * di1) % 256

/-- The four little-endian bytes the loops `aux[k] = v & 0xFF; v >>= 8` store. -/
def le4 (v : Nat) : List Nat :=
  [v % 256, v / 256 % 256, v / 65536 % 256, v / 16777216 % 256]

/-- The mantissa loop of `mpf2binary`: from digit index `j` on, two hex digits per
byte, a missing second digit read as `'0'`; `n` bytes are produced. -/
def packDigits (buffer : List Nat) : Nat → Nat → List Nat
  | 0, _ => []
  | n + 1, j =>
    let secdig := if j + 1 < buffer.length then buffer.getD (j + 1) 0 else 0
    di256 (buffer.getD j 0) secdig :: packDigits buffer n (j + 2)

/-- The function `mpf2binary` of `gmpy.c`: the single byte 4 for zero; otherwise a code
byte (bit 0 sign, bit 1 exponent sign, bit 3 always set: precision stored), the
precision, the base-256 exponent magnitude, and the mantissa bytes. -/
def mpf2binary (x : PympfObject) : List Nat :=
  if x.sign = 0 then [4]
  else
    let codebyte : Nat := if x.sign < 0 then 1 else 0
    let buffer := x.digits
    let hexdigs := buffer.length
    let codebyte := if x.the_exp < 0 then codebyte ||| 2 else codebyte
    let lexp0 : Nat := x.the_exp.natAbs
    let lexpodd := lexp0 &&& 1
    let lexp := lexp0 / 2 + lexpodd
    let lexp := if lexpodd ≠ 0 ∧ codebyte &&& 2 ≠ 0 then lexp - 1 else lexp
    let codebyte := codebyte ||| 8
    let size := (hexdigs + 1) / 2
    let extrabyte := if lexpodd ≠ 0 ∧ hexdigs % 2 = 0 then 1 else 0
    let first := if lexpodd ≠ 0 then [di256 0 (buffer.getD 0 0)] else []
    let rest := packDigits buffer (size + extrabyte - first.length) first.length
    codebyte :: (le4 x.rebits ++ (le4 lexp ++ (first ++ rest)))

/-- Drop leading zero digits, lowering the base-16 exponent by one for each. -/
def stripLeading : List Nat → Int → List Nat × Int
  | [], _ => ([], 0)
  | d :: ds, e => if d = 0 then stripLeading ds (e - 1) else (d :: ds, e)

/-- Drop trailing zero digits. -/
def stripTrailing (ds : List Nat) : List Nat :=
  (ds.reverse.dropWhile (fun d => d == 0)).reverse

/-- The value `(-1)^neg × 0.ds × 16 ^ e` stored into the object `ob`, in the form
`mpf_get_str` would report it. -/
def mpfSet (ob : PympfObject) (neg : Bool) (ds : List Nat) (e : Int) : PympfObject :=
  let p := stripLeading ds e
  let ds1 := stripTrailing p.1
  if ds1 = [] then { ob with sign := 0, digits := [], the_exp := 0 }
  else { ob with sign := if neg then -1 else 1, digits := ds1, the_exp := p.2 }

/-- The precision `str2mpf` settles on before allocating: the caller's `bits`, or for a
binary string the 32-bit value stored after the code byte when bit 3 of the code
byte is set, else `8 * (len - 5)`; a result that is not positive becomes 1. -/
def str2mpf_precision (cp : List Nat) (bits : Nat) : Int :=
  let len : Int := cp.length
  let precision : Int :=
    if 0 < bits then wrapInt bits
    else
      let p0 := wrapInt (8 * (len - 5))
      let p1 :=
        if 5 ≤ cp.length then
          if cp.getD 0 0 &&& 8 ≠ 0 then
            [4, 3, 2, 1].foldl (fun p i => wrapInt (p * 256 + (cp.getD i 0 : Int))) 0
          else p0
        else p0
      if p1 ≤ 0 then 1 else p1
  precision

/-- The `256 == base` path of `str2mpf` (argument `bits`, module options `opts`): the
precision is chosen, the object allocated by `Pympf_new`, and the value rebuilt
from code byte, exponent and mantissa bytes. The trailing `mpf_normalize` only
rewrites limbs of the GMP value beyond the precision and leaves `rebits` alone; the
truncation of the kernel's `mpf_add` is likewise not part of this model. -/
def str2mpf (opts : Options) (cp : List Nat) (bits : Nat) : Outcome PympfObject :=
  let len := cp.length
  let precision := str2mpf_precision cp bits
  let newob := Pympf_new opts (precision % 4294967296).toNat
  let codebyte := cp.getD 0 0
  let resusign := codebyte &&& 1
  let exposign := codebyte &&& 2
  let resuzero := codebyte &&& 4
  let precilen := if codebyte &&& 8 ≠ 0 then 4 else 0
  if resuzero ≠ 0 then Outcome.ok newob
  else if len < 6 + precilen then Outcome.raise PyExc.ValueError
  else
    let expomag : Nat :=
      [4, 3, 2, 1].foldl (fun e i => (e * 256 + cp.getD (i + precilen) 0) % 4294967296) 0
    let mant := cp.drop (5 + precilen)
    let nibbles := mant.flatMap (fun b => [b / 16, b % 16])
    let shift : Int := ((8 * expomag % 4294967296 / 4 : Nat) : Int)
    let e : Int := if exposign ≠ 0 then -shift else shift
    Outcome.ok (mpfSet newob (resusign ≠ 0) nibbles e)

/-! ## Integer division wrappers -/

/-- The call `mpz_fdiv_qr`: quotient rounded toward minus infinity and its remainder;
GMP does not define a result for a zero divisor. -/
def mpz_fdiv_qr (n d : Int) : Option (Int × Int) :=
  if d = 0 then none else some (Int.fdiv n d, Int.fmod n d)

/-- The call `mpz_cdiv_qr`: quotient rounded toward plus infinity and its remainder. -/
def mpz_cdiv_qr (n d : Int) : Option (Int × Int) :=
  if d = 0 then none
  else
    let q := -(Int.fdiv (-n) d)
    some (q, n - q * d)

/-- The call `mpz_tdiv_qr`: quotient rounded toward zero and its remainder. -/
def mpz_tdiv_qr (n d : Int) : Option (Int × Int) :=
  if d = 0 then none else some (Int.tdiv n d, Int.tmod n d)

/-- The call `mpz_fdiv_q`. -/
def mpz_fdiv_q (n d : Int) : Option Int :=
  if d = 0 then none else some (Int.fdiv n d)

/-- The call `mpz_fdiv_r`. -/
def mpz_fdiv_r (n d : Int) : Option Int :=
  if d = 0 then none else some (Int.fmod n d)

/-- The call `mpz_divexact`: the quotient when `d` divides `n`. -/
def mpz_divexact (n d : Int) : Option Int :=
  if d = 0 then none else some (n / d)

/-- A kernel result handed back as the wrapper's return value. -/
def ofKernel {α : Type} : Option α → Outcome α
  | none => Outcome.fault
  | some v => Outcome.ok v

/-- The wrapper `Pympz_cdivmod` of `gmpy_mpz.c`: both arguments parsed as mpz, then `mpz_cdiv_qr`. -/
def Pympz_cdivmod (self other : Int) : Outcome (Int × Int) :=
  ofKernel (mpz_cdiv_qr self other)

/-- The wrapper `Pympz_fdivmod` of `gmpy_mpz.c`: both arguments parsed as mpz, then `mpz_fdiv_qr`. -/
def Pympz_fdivmod (self other : Int) : Outcome (Int × Int) :=
  ofKernel (mpz_fdiv_qr self other)

/-- The wrapper `Pympz_tdivmod` of `gmpy_mpz.c`: both arguments parsed as mpz, then `mpz_tdiv_qr`. -/
def Pympz_tdivmod (self other : Int) : Outcome (Int × Int) :=
  ofKernel (mpz_tdiv_qr self other)

/-- The wrapper `Pympz_divexact` of `gmpy_mpz.c`: both arguments parsed as mpz, then `mpz_divexact`. -/
def Pympz_divexact (self other : Int) : Outcome Int :=
  ofKernel (mpz_divexact self other)

/-- The body of macro `MPZ_DIVOP(NAME, OP)` of `gmpy.c` on two mpz operands: a zero divisor
raises `ZeroDivisionError` before the kernel operation `OP` is reached. -/
def MPZ_DIVOP (OP : Int → Int → Option Int) (a b : Int) : Outcome Int :=
  if Int.sign b = 0 then Outcome.raise PyExc.ZeroDivisionError
  else ofKernel (OP a b)

/-- Operator `//` on mpz: `MPZ_DIVOP(Pympz_div, mpz_fdiv_q)`. -/
def Pympz_div (a b : Int) : Outcome Int :=
  MPZ_DIVOP mpz_fdiv_q a b

/-- Operator `%` on mpz: `MPZ_DIVOP(Pympz_rem, mpz_fdiv_r)`. -/
def Pympz_rem (a b : Int) : Outcome Int :=
  MPZ_DIVOP mpz_fdiv_r a b

/-- The operator function `Pympz_divmod` of `gmpy.c` on two mpz operands. -/
def Pympz_divmod (a b : Int) : Outcome (Int × Int) :=
  if Int.sign b = 0 then Outcome.raise PyExc.ZeroDivisionError
  else ofKernel (mpz_fdiv_qr a b)

/-! ## Powers -/

/-- The call `mpz_fits_slong_p` for a 64-bit `long`. -/
def mpz_fits_slong_p (z : Int) : Bool :=
  decide (-9223372036854775808 ≤ z) && decide (z ≤ 9223372036854775807)

/-- The test `notanint`: `!mpz_fits_slong_p(z) && mpz_size(z)`. -/
def notanint (z : Int) : Bool :=
  !mpz_fits_slong_p z && decide (z ≠ 0)

/-- The call `mpz_get_ui`: the low 64 bits of the magnitude. -/
def mpz_get_ui (z : Int) : Nat :=
  z.natAbs % 18446744073709551616

/-- The call `mpz_get_si`: the value itself when it fits a `long`, else the low 63 bits
of the magnitude with the sign of `z`. -/
def mpz_get_si (z : Int) : Int :=
  if mpz_fits_slong_p z then z else Int.sign z * ((z.natAbs % 9223372036854775808 : Nat) : Int)

/-- Conversion of a `long` expression to `unsigned long`. -/
def toULong (z : Int) : Nat :=
  (z % 18446744073709551616).toNat

/-- The call `mpz_powm(r, b, e, mm)` for `e >= 0` and `mm > 0`: the residue of `b ^ e` in
`[0, mm)`. -/
def mpz_powm (b e mm : Int) : Int :=
  (b ^ e.toNat) % mm

/-- The function `Pympz_pow` of `gmpy_mpz.c` on integer arguments; `in_m = none` is `Py_None`. -/
def Pympz_pow (in_b in_e : Int) (in_m : Option Int) : Outcome Int :=
  if Int.sign in_e < 0 then Outcome.raise PyExc.ValueError
  else
    match in_m with
    | none =>
      if !mpz_fits_slong_p in_e then Outcome.raise PyExc.ValueError
      else Outcome.ok (in_b ^ mpz_get_ui in_e)
    | some m =>
      let sign := Int.sign m
      if sign = 0 then Outcome.raise PyExc.ValueError
      else
        let mm := |m|
        let r := mpz_powm in_b in_e mm
        if sign < 0 ∧ Int.sign r > 0 then Outcome.ok (r + m) else Outcome.ok r

/-- The function `Pympz_pow` of `gmpy.c`: the same body, the exponent of the two-argument
form being tested with `notanint`. -/
def Pympz_pow_trunk (in_b in_e : Int) (in_m : Option Int) : Outcome Int :=
  if Int.sign in_e < 0 then Outcome.raise PyExc.ValueError
  else
    match in_m with
    | none =>
      if notanint in_e then Outcome.raise PyExc.ValueError
      else Outcome.ok (in_b ^ mpz_get_ui in_e)
    | some m =>
      let sign := Int.sign m
      if sign = 0 then Outcome.raise PyExc.ValueError
      else
        let mm := |m|
        let r := mpz_powm in_b in_e mm
        if sign < 0 ∧ Int.sign r > 0 then Outcome.ok (r + m) else Outcome.ok r

/-- The call `mpz_root(rop, op, n)`: the truncated integer part of the `n`-th root and
whether it is exact. GMP defines no result for `n = 0` or for an even root of a
negative operand. -/
def mpz_root (op : Int) (n : Nat) : Option (Int × Bool) :=
  if n = 0 then none
  else if op < 0 ∧ n % 2 = 0 then none
  else
    let r := Nat.findGreatest (fun r => r ^ n ≤ op.natAbs) op.natAbs
    some (if op < 0 then -(r : Int) else (r : Int), decide (r ^ n = op.natAbs))

/-- The function `Pympq_pow` of `gmpy.c` on two mpq operands; `m = none` is `Py_None`.
A negative exponent swaps numerator and denominator of the base by hand, the
numerator of the exponent drives `mpz_pow_ui`, its denominator `mpz_root`. -/
def Pympq_pow (b e : Mpq) (m : Option Int) : Outcome Mpq :=
  if m.isSome then Outcome.raise PyExc.ValueError
  else if notanint e.num then Outcome.raise PyExc.ValueError
  else if notanint e.den then Outcome.raise PyExc.ValueError
  else
    let esign := Int.sign e.num
    if esign = 0 then Outcome.ok ⟨1, 1⟩
    else if esign < 0 ∧ Int.sign b.num = 0 then Outcome.raise PyExc.ZeroDivisionError
    else
      let r : Mpq :=
        if esign < 0 then ⟨if Int.sign b.num < 0 then -b.den else b.den, |b.num|⟩ else b
      let ultem : Nat := if esign < 0 then toULong (-(mpz_get_si e.num)) else mpz_get_ui e.num
      let r : Mpq := if ultem > 1 then ⟨r.num ^ ultem, r.den ^ ultem⟩ else r
      let ultem := mpz_get_ui e.den
      if ultem > 1 then
        if Int.sign r.num < 0 then Outcome.raise PyExc.ValueError
        else
          match mpz_root r.num ultem with
          | none => Outcome.fault
          | some (temp, exact) =>
            if exact then
              match mpz_root r.den ultem with
              | none => Outcome.fault
              | some (temp2, exact2) =>
                if exact2 then Outcome.ok ⟨temp, temp2⟩ else Outcome.raise PyExc.ValueError
            else Outcome.raise PyExc.ValueError
      else Outcome.ok r

/-! ## qdiv -/

/-- The operand kinds `qdiv` is specified on. -/
inductive PyNum where
  | mpz (z : Int)
  | mpq (q : Mpq)
  deriving DecidableEq

/-- The rational value of an operand. -/
def PyNum.toRat : PyNum → ℚ
  | PyNum.mpz z => (z : ℚ)
  | PyNum.mpq q => q.toRat

/-- An operand as gmpy builds it: an mpq is kept in canonical form. -/
def PyNum.valid : PyNum → Prop
  | PyNum.mpz _ => True
  | PyNum.mpq q => q.canonical

/-- Whether a result is of type mpz. -/
def PyNum.isMpz : PyNum → Bool
  | PyNum.mpz _ => true
  | PyNum.mpq _ => false

/-- The test `isOne`: an absent argument counts as one. -/
def isOne : Option PyNum → Bool
  | none => true
  | some (PyNum.mpq q) => decide (q.den = 1) && decide (q.num = 1)
  | some (PyNum.mpz z) => decide (z = 1)

/-- The conversion `anyrational2mpq` on an mpz or mpq operand (`mpz2mpq` is `mpq_set_z`). -/
def anyrational2mpq : PyNum → Mpq
  | PyNum.mpq q => q
  | PyNum.mpz z => ⟨z, 1⟩

/-- The call `mpq_div` on canonical operands with a nonzero divisor: the canonical quotient. -/
def mpq_div (a b : Mpq) : Mpq :=
  mpq_canonicalize ⟨a.num * b.den, a.den * b.num⟩

/-- The function `Pympq_qdiv` of `gmpy.c`; `other = none` is the omitted second argument.
With `wasone` set an mpq or mpz `self` is returned at once (an mpq of denominator 1 as
an mpz), so the general path is entered by these operand kinds only with `wasone`
clear, where `other` is present (`isOne` counts an absent argument as one). -/
def Pympq_qdiv (self : PyNum) (other : Option PyNum) : Outcome PyNum :=
  let wasone := isOne other
  if wasone then
    match self with
    | PyNum.mpq q =>
      if q.den ≠ 1 then Outcome.ok (PyNum.mpq q) else Outcome.ok (PyNum.mpz q.num)
    | PyNum.mpz z => Outcome.ok (PyNum.mpz z)
  else
    let selfq := anyrational2mpq self
    match other with
    | none => Outcome.fault
    | some o =>
      let otherq := anyrational2mpq o
      if Int.sign otherq.num = 0 then Outcome.raise PyExc.ZeroDivisionError
      else
        let s := mpq_div selfq otherq
        if s.den ≠ 1 then Outcome.ok (PyNum.mpq s) else Outcome.ok (PyNum.mpz s.num)

/-! ## divm -/

/-- The call `mpz_invert(rop, op1, op2)` for `op2 ≠ 0`, as GMP documents it: when an
inverse of `op1` modulo `op2` exists, the one in `[0, |op2|)` (which is 0 in the
zero ring `|op2| = 1`); otherwise no result. -/
def mpz_invert (op1 op2 : Int) : Option Int :=
  ((List.range op2.natAbs).find? (fun (x : Nat) => decide ((op1 * (x : Int)) % op2 = 1 % op2))).map
    Int.ofNat

/-- The function `Pygmpy_divm` (the same in `gmpy.c` and `gmpy_mpz.c`): invert `b` modulo `m`;
when that fails divide `a`, `b`, `m` by their common gcd and try once more.
`mpz_invert` is undefined for a zero modulus. -/
def Pygmpy_divm (a b m : Int) : Outcome Int :=
  if m = 0 then Outcome.fault
  else
    match mpz_invert b m with
    | some res => Outcome.ok ((res * a) % m)
    | none =>
      let gcdz : Int := (Int.gcd (Int.gcd a b : Nat) m : Nat)
      match mpz_divexact a gcdz, mpz_divexact b gcdz, mpz_divexact m gcdz with
      | some numz, some denz, some modz =>
        match mpz_invert denz modz with
        | some res => Outcome.ok ((res * numz) % modz)
        | none => Outcome.raise PyExc.ZeroDivisionError
      | _, _, _ => Outcome.fault

/-! ## Bit scans -/

/-- The call `mpz_tstbit(x, i)`: bit `i` of `x` in two's complement, the sign extended without
end. -/
def mpz_tstbit (x : Int) (i : Nat) : Bool :=
  decide ((x / 2 ^ i) % 2 = 1)

/-- The largest `unsigned long`, returned by the GMP scans when no bit is found. -/
def ULONG_MAX : Nat := 18446744073709551615

/-- An `unsigned long` handed to `Py_BuildValue("l", ...)` or `Py2or3Int_FromLong`: the
same 64 bits read as a signed `long`. -/
def toLong (u : Nat) : Int :=
  ((u : Int) + 9223372036854775808) % 18446744073709551616 - 9223372036854775808

/-- The call `mpz_scan0(op, starting_bit)` as the GMP manual states it: the index of the
first 0 bit at or above `starting_bit`, and `ULONG_MAX` when there is none (past the
end of a negative number). All bits at or above the bit length of `|op|` equal the
sign, so the search stops there. -/
def mpz_scan0 (op : Int) (starting_bit : Nat) : Nat :=
  let top := max starting_bit (mpz_sizeinbase2 op.natAbs)
  match (List.range (top + 1 - starting_bit)).find?
      (fun k => !mpz_tstbit op (starting_bit + k)) with
  | some k => starting_bit + k
  | none => ULONG_MAX

/-- The call `mpz_scan1(op, starting_bit)`: the index of the first 1 bit at or above
`starting_bit`, and `ULONG_MAX` when there is none (past the end of a non-negative
number). -/
def mpz_scan1 (op : Int) (starting_bit : Nat) : Nat :=
  let top := max starting_bit (mpz_sizeinbase2 op.natAbs)
  match (List.range (top + 1 - starting_bit)).find?
      (fun k => mpz_tstbit op (starting_bit + k)) with
  | some k => starting_bit + k
  | none => ULONG_MAX

/-- The function `Pympz_scan0` (the same test and calls in `gmpy_mpz.c` and `gmpy.c`);
`starting_bit` is the parsed C `long`, the result `none` is Python's `None`. -/
def Pympz_scan0 (self : Int) (starting_bit : Int) : Outcome (Option Int) :=
  if starting_bit < 0 then Outcome.raise PyExc.ValueError
  else
    let maxbit : Int := (mpz_sizeinbase2 self.natAbs : Nat)
    if starting_bit > maxbit then
      if Int.sign self < 0 then Outcome.ok none else Outcome.ok (some starting_bit)
    else Outcome.ok (some (toLong (mpz_scan0 self starting_bit.toNat)))

/-- The function `Pympz_scan1` (the same test and calls in `gmpy_mpz.c` and `gmpy.c`). -/
def Pympz_scan1 (self : Int) (starting_bit : Int) : Outcome (Option Int) :=
  if starting_bit < 0 then Outcome.raise PyExc.ValueError
  else
    let maxbit : Int := (mpz_sizeinbase2 self.natAbs : Nat)
    if starting_bit ≥ maxbit then
      if Int.sign self ≥ 0 then Outcome.ok none else Outcome.ok (some starting_bit)
    else Outcome.ok (some (toLong (mpz_scan1 self starting_bit.toNat)))

/-! ## Shifts -/

/-- A shift count or exponent as it arrives: a Python integer, an mpz (or xmpz), or an
object of another type. -/
inductive PyArg where
  | pylong (n : Int)
  | mpzany (z : Int)
  | other
  deriving DecidableEq

/-- The call `PyLong_AsLongAndOverflow(b, &overflow)`: the value and 0 when it fits a `long`,
else -1 and the sign of the overflow. -/
def PyLong_AsLongAndOverflow (n : Int) : Int × Int :=
  if mpz_fits_slong_p n then (n, 0) else (-1, if n < 0 then -1 else 1)

/-- The call `mpz_fdiv_q_2exp`: floor division by a power of two. -/
def mpz_fdiv_q_2exp (a : Int) (count : Nat) : Int :=
  Int.fdiv a (2 ^ count)

/-- The call `mpz_mul_2exp`: multiplication by a power of two. -/
def mpz_mul_2exp (a : Int) (count : Nat) : Int :=
  a * 2 ^ count

/-- The conversion `Pympz_From_Integer` (and `anyint2mpz`) on a shift count. -/
def Pympz_From_Integer : PyArg → Option Int
  | PyArg.pylong n => some n
  | PyArg.mpzany z => some z
  | PyArg.other => none

/-- The result of a binary operator slot: a value, an exception, or `NotImplemented`. -/
inductive Slot (α : Type) where
  | value (v : α)
  | raise (e : PyExc)
  | notImplemented
  deriving DecidableEq

/-- The shared body of `Pympz_rshift` and `Pympz_lshift` of `gmpy_mpz.c` for an mpz `a`, with
`OP` the kernel call (`mpz_fdiv_q_2exp` or `mpz_mul_2exp`): a Python integer count is
converted by `PyLong_AsLongAndOverflow`, any other count by `Pympz_From_Integer`. -/
def Pympz_shift (OP : Int → Nat → Int) (a : Int) (b : PyArg) : Slot Int :=
  match b with
  | PyArg.pylong n =>
    let co := PyLong_AsLongAndOverflow n
    if co.2 ≠ 0 then Slot.raise PyExc.ValueError
    else if co.1 ≥ 0 then Slot.value (OP a co.1.toNat)
    else Slot.raise PyExc.ValueError
  | b =>
    match Pympz_From_Integer b with
    | none => Slot.notImplemented
    | some pb =>
      if Int.sign pb < 0 then Slot.raise PyExc.ValueError
      else if !mpz_fits_slong_p pb then Slot.raise PyExc.OverflowError
      else Slot.value (OP a (mpz_get_si pb).toNat)

/-- The function `Pympz_rshift` of `gmpy_mpz.c`. -/
def Pympz_rshift (a : Int) (b : PyArg) : Slot Int :=
  Pympz_shift mpz_fdiv_q_2exp a b

/-- The function `Pympz_lshift` of `gmpy_mpz.c`. -/
def Pympz_lshift (a : Int) (b : PyArg) : Slot Int :=
  Pympz_shift mpz_mul_2exp a b

/-- The body of macro `MPZ_SHIFTOP(NAME, OP)` of `gmpy.c` for an mpz `a`: a Python integer
count that `Py2or3Int_AsLong` reads as positive goes straight to `OP` (the call
returns -1 for a count that does not fit); every other count is converted by
`anyint2mpz` and tested. -/
def MPZ_SHIFTOP (OP : Int → Nat → Int) (a : Int) (b : PyArg) : Slot Int :=
  let fast : Option Int :=
    match b with
    | PyArg.pylong n =>
      let count := if mpz_fits_slong_p n then n else -1
      if count > 0 then some count else none
    | _ => none
  match fast with
  | some count => Slot.value (OP a count.toNat)
  | none =>
    match Pympz_From_Integer b with
    | none => Slot.notImplemented
    | some pb =>
      if Int.sign pb < 0 then Slot.raise PyExc.ValueError
      else if !mpz_fits_slong_p pb then Slot.raise PyExc.ValueError
      else Slot.value (OP a (mpz_get_si pb).toNat)

/-- Operator `>>` of `gmpy.c`: `MPZ_SHIFTOP(Pympz_rshift, mpz_fdiv_q_2exp)`. -/
def Pympz_rshift_trunk (a : Int) (b : PyArg) : Slot Int :=
  MPZ_SHIFTOP mpz_fdiv_q_2exp a b

/-- Operator `<<` of `gmpy.c`: `MPZ_SHIFTOP(Pympz_lshift, mpz_mul_2exp)`. -/
def Pympz_lshift_trunk (a : Int) (b : PyArg) : Slot Int :=
  MPZ_SHIFTOP mpz_mul_2exp a b

/-! ## Integer roots -/

/-- The call `mpz_rootrem(root, rem, u, n)`: the truncated root and the remainder
`u - root ^ n`. -/
def mpz_rootrem (u : Int) (n : Nat) : Option (Int × Int) :=
  match mpz_root u n with
  | none => none
  | some (root, _) => some (root, u - root ^ n)

/-- The call `mpz_sqrt`: the truncated square root; GMP has no result for a negative
operand. -/
def mpz_sqrt (op : Int) : Option Int :=
  if op < 0 then none
  else some ((Nat.findGreatest (fun r => r ^ 2 ≤ op.natAbs) op.natAbs : Nat) : Int)

/-- The call `mpz_sqrtrem`: the truncated square root and the remainder. -/
def mpz_sqrtrem (op : Int) : Option (Int × Int) :=
  match mpz_sqrt op with
  | none => none
  | some s => some (s, op - s * s)

/-- The function `Pympz_root` of `gmpy_mpz.c`: `n` is the parsed C `long`; the second
component is the Python int that is 1 for an exact root. -/
def Pympz_root (self : Int) (n : Int) : Outcome (Int × Int) :=
  if n ≤ 0 then Outcome.raise PyExc.ValueError
  else if n > 1 ∧ Int.sign self < 0 then Outcome.raise PyExc.ValueError
  else
    match mpz_root self n.toNat with
    | none => Outcome.fault
    | some (s, exact) => Outcome.ok (s, if exact then 1 else 0)

/-- The function `Pympz_rootrem` of `gmpy_mpz.c`. -/
def Pympz_rootrem (self : Int) (n : Int) : Outcome (Int × Int) :=
  if n ≤ 0 then Outcome.raise PyExc.ValueError
  else if n > 1 ∧ Int.sign self < 0 then Outcome.raise PyExc.ValueError
  else ofKernel (mpz_rootrem self n.toNat)

/-- The function `Pympz_sqrt` of `gmpy_mpz.c`. -/
def Pympz_sqrt (self : Int) : Outcome Int :=
  if Int.sign self < 0 then Outcome.raise PyExc.ValueError
  else ofKernel (mpz_sqrt self)

/-- The function `Pympz_sqrtrem` of `gmpy_mpz.c`. -/
def Pympz_sqrtrem (self : Int) : Outcome (Int × Int) :=
  if Int.sign self < 0 then Outcome.raise PyExc.ValueError
  else ofKernel (mpz_sqrtrem self)

/-! ## Native floats -/

/-- A C `double` by class: not-a-number, an infinity, or the finite value `man * 2 ^ exp`. -/
inductive PyFloat where
  | nan
  | inf (negative : Bool)
  | finite (man : Int) (exp : Int)
  deriving DecidableEq

/-- The C library test `isinf`. -/
def isinf : PyFloat → Bool
  | PyFloat.inf _ => true
  | _ => false

/-- The C library test `isnan`. -/
def isnan : PyFloat → Bool
  | PyFloat.nan => true
  | _ => false

/-- The integer part of the finite value `man * 2 ^ exp`, rounded toward zero (what
`mpz_set_d` stores). -/
def truncDyadic (man exp : Int) : Int :=
  if 0 ≤ exp then man * 2 ^ exp.toNat else Int.tdiv man (2 ^ (-exp).toNat)

/-- The call `mpz_set_d(z, d)` on a finite double. -/
def mpz_set_d (man exp : Int) : Int :=
  truncDyadic man exp

/-- The function `float2mpz` of `gmpy.c`: infinities and NaN raise `ValueError`; a finite
value below 1 in magnitude is replaced by 0.0, then `mpz_set_d` truncates. -/
def float2mpz (f : PyFloat) : Outcome Int :=
  if isinf f then Outcome.raise PyExc.ValueError
  else if isnan f then Outcome.raise PyExc.ValueError
  else
    match f with
    | PyFloat.finite man exp =>
      if truncDyadic |man| exp < 1 then Outcome.ok (mpz_set_d 0 0)
      else Outcome.ok (mpz_set_d man exp)
    | _ => Outcome.fault

/-- The value part of an mpf object: what `mpf_sgn` and `mpf_get_str` report. -/
structure MpfVal where
  sign : Int
  digits : List Nat
  the_exp : Int
  deriving DecidableEq

/-- The GMP value `x->f` of an mpf object. -/
def PympfObject.f (x : PympfObject) : MpfVal :=
  { sign := x.sign, digits := x.digits, the_exp := x.the_exp }

/-- The object `x` after a kernel call has stored `v` into `x->f`; `rebits` is not a part
of the GMP value and stays. -/
def PympfObject.setF (x : PympfObject) (v : MpfVal) : PympfObject :=
  { x with sign := v.sign, digits := v.digits, the_exp := v.the_exp }

/-- GMP's mpf kernel, taken as a parameter: each primitive gets the precision of its
destination and the operand values and gives the value it stores. The wrappers
decide which primitive is called and at which precision. -/
structure MpfKernel where
  mpf_add : Nat → MpfVal → MpfVal → MpfVal
  mpf_sub : Nat → MpfVal → MpfVal → MpfVal
  mpf_mul : Nat → MpfVal → MpfVal → MpfVal
  mpf_div : Nat → MpfVal → MpfVal → MpfVal
  mpf_set : Nat → MpfVal → MpfVal
  mpf_set_z : Nat → Int → MpfVal
  mpf_set_q : Nat → Mpq → MpfVal
  mpf_set_d : Nat → Int → Int → MpfVal

/-- The module variable `double_mantissa` once `_PyInitGMP` has run. -/
def double_mantissa : Nat := 53

/-- The function `float2mpq` of `gmpy.c`: an mpf of `double_mantissa` bits is allocated,
infinities and NaN raise `ValueError`, a finite value is stored with `mpf_set_d` and
handed to `f2q_internal(self, 0, double_mantissa, 0)`. That function is a loop of
mpf kernel arithmetic with no exception of its own; it is the parameter
`f2q_internal`, with `none` standing for a run that gives no value. -/
def float2mpq (K : MpfKernel) (f2q_internal : PympfObject → Nat → Option Mpq) (opts : Options)
    (f : PyFloat) : Outcome Mpq :=
  let self := Pympf_new opts double_mantissa
  if isinf f then Outcome.raise PyExc.ValueError
  else if isnan f then Outcome.raise PyExc.ValueError
  else
    match f with
    | PyFloat.finite man exp =>
      ofKernel (f2q_internal (self.setF (K.mpf_set_d self.rebits man exp)) double_mantissa)
    | _ => Outcome.fault

/-! ## mpf arithmetic -/

/-- The operand kinds of the mpf operators that the claims range over. -/
inductive PyReal where
  | mpf (x : PympfObject)
  | mpz (z : Int)
  | mpq (q : Mpq)
  deriving DecidableEq

/-- A value of the C type `unsigned int`. -/
def toUInt (n : Nat) : Nat :=
  n % 4294967296

/-- The function `mpf2mpf`: a new object of `bits` bits holding the value of `f`. -/
def mpf2mpf (K : MpfKernel) (opts : Options) (f : PympfObject) (bits : Nat) : PympfObject :=
  let newob := Pympf_new opts bits
  newob.setF (K.mpf_set newob.rebits f.f)

/-- The function `mpz2mpf`: with `bits = 0` the precision is the bit length of the integer
plus 2. -/
def mpz2mpf (K : MpfKernel) (opts : Options) (obj : Int) (bits : Nat) : PympfObject :=
  let bits := if bits = 0 then toUInt (mpz_sizeinbase2 obj.natAbs + 2) else bits
  let newob := Pympf_new opts bits
  newob.setF (K.mpf_set_z newob.rebits obj)

/-- The function `mpq2mpf`. -/
def mpq2mpf (K : MpfKernel) (opts : Options) (obj : Mpq) (bits : Nat) : PympfObject :=
  let newob := Pympf_new opts bits
  newob.setF (K.mpf_set_q newob.rebits obj)

/-- The conversion `anyreal2mpf(obj, bits)` on an mpf, mpz or mpq operand: an mpf is handed
back as it is when `bits` is 0 or equals its precision. -/
def anyreal2mpf (K : MpfKernel) (opts : Options) (obj : PyReal) (bits : Nat) : PympfObject :=
  match obj with
  | PyReal.mpf x => if bits = 0 ∨ x.rebits = bits then x else mpf2mpf K opts x bits
  | PyReal.mpq q => mpq2mpf K opts q bits
  | PyReal.mpz z => mpz2mpf K opts z bits

/-- The body of macro `MPF_BINOP(NAME)` of `gmpy.c`, `NAME` being the kernel call. Two mpf
operands give a result at the lower of their precisions; otherwise the precision of
the mpf operand is used for the conversions and for the result. The macro reads the
second operand as an mpf when the first is none, so it is entered with at least one
mpf operand. The closing `mpf_normalize` acts on limbs of the value only. -/
def MPF_BINOP (NAME : Nat → MpfVal → MpfVal → MpfVal) (K : MpfKernel) (opts : Options)
    (a b : PyReal) : Outcome PympfObject :=
  match a, b with
  | PyReal.mpf xa, PyReal.mpf xb =>
    let bits := xa.rebits
    let bbits := xb.rebits
    let bits := if bits > bbits then bbits else bits
    let r := Pympf_new opts bits
    Outcome.ok (r.setF (NAME r.rebits xa.f xb.f))
  | PyReal.mpf xa, b =>
    let bits := xa.rebits
    let pa := anyreal2mpf K opts (PyReal.mpf xa) bits
    let pb := anyreal2mpf K opts b bits
    let r := Pympf_new opts bits
    Outcome.ok (r.setF (NAME r.rebits pa.f pb.f))
  | a, PyReal.mpf xb =>
    let bits := xb.rebits
    let pa := anyreal2mpf K opts a bits
    let pb := anyreal2mpf K opts (PyReal.mpf xb) bits
    let r := Pympf_new opts bits
    Outcome.ok (r.setF (NAME r.rebits pa.f pb.f))
  | _, _ => Outcome.fault

/-- Operator `+` on mpf: `MPF_BINOP(mpf_add)`. -/
def Pympf_add (K : MpfKernel) (opts : Options) (a b : PyReal) : Outcome PympfObject :=
  MPF_BINOP K.mpf_add K opts a b

/-- Operator `-` on mpf: `MPF_BINOP(mpf_sub)`. -/
def Pympf_sub (K : MpfKernel) (opts : Options) (a b : PyReal) : Outcome PympfObject :=
  MPF_BINOP K.mpf_sub K opts a b

/-- Operator `*` on mpf: `MPF_BINOP(mpf_mul)`. -/
def Pympf_mul (K : MpfKernel) (opts : Options) (a b : PyReal) : Outcome PympfObject :=
  MPF_BINOP K.mpf_mul K opts a b

/-- The body of macro `MPF_DIVOP(NAME, OP)` of `gmpy.c`: both operands are converted with
`anyreal2mpf(., 0)`, a zero divisor raises `ZeroDivisionError`, and the result is
allocated at the lower of the two converted precisions. -/
def MPF_DIVOP (OP : Nat → MpfVal → MpfVal → MpfVal) (K : MpfKernel) (opts : Options)
    (a b : PyReal) : Outcome PympfObject :=
  let pa := anyreal2mpf K opts a 0
  let pb := anyreal2mpf K opts b 0
  if pb.sign = 0 then Outcome.raise PyExc.ZeroDivisionError
  else
    let bits := pa.rebits
    let bbits := pb.rebits
    let bits := if bits > bbits then bbits else bits
    let r := Pympf_new opts bits
    Outcome.ok (r.setF (OP r.rebits pa.f pb.f))

/-- Operator `/` on mpf: `MPF_DIVOP(Pympf_div, mpf_div)`. -/
def Pympf_div (K : MpfKernel) (opts : Options) (a b : PyReal) : Outcome PympfObject :=
  MPF_DIVOP K.mpf_div K opts a b

/-- A kernel instance for running the wrappers on concrete operands: every primitive
stores the sign of the exact result it stands for and no digits, which is all the
wrappers themselves look at (`mpf_sgn` in the zero-divisor test). -/
def signKernel : MpfKernel :=
  { mpf_add := fun _ a b => ⟨Int.sign (a.sign + b.sign), [], 0⟩
    mpf_sub := fun _ a b => ⟨Int.sign (a.sign - b.sign), [], 0⟩
    mpf_mul := fun _ a b => ⟨a.sign * b.sign, [], 0⟩
    mpf_div := fun _ a b => ⟨a.sign * b.sign, [], 0⟩
    mpf_set := fun _ a => ⟨a.sign, [], 0⟩
    mpf_set_z := fun _ z => ⟨Int.sign z, [], 0⟩
    mpf_set_q := fun _ q => ⟨Int.sign q.num, [], 0⟩
    mpf_set_d := fun _ man _ => ⟨Int.sign man, [], 0⟩ }

/-! ## Inverse trigonometric functions under a context -/

/-- An MPFR value by class: NaN, an infinity, or the number `man * 2 ^ exp`. -/
inductive MpfrVal where
  | nan
  | inf (negative : Bool)
  | num (man : Int) (exp : Int)
  deriving DecidableEq

/-- The call `mpfr_nan_p`. -/
def mpfr_nan_p : MpfrVal → Bool
  | MpfrVal.nan => true
  | _ => false

/-- The call `mpfr_cmp_si(x, n)`: positive, zero or negative as `x` is above, equal to or
below `n`; zero when `x` is NaN. -/
def mpfr_cmp_si (x : MpfrVal) (n : Int) : Int :=
  match x with
  | MpfrVal.nan => 0
  | MpfrVal.inf negative => if negative then -1 else 1
  | MpfrVal.num man exp =>
    if 0 ≤ exp then Int.sign (man * 2 ^ exp.toNat - n)
    else Int.sign (man - n * 2 ^ (-exp).toNat)

/-- The struct `gmpy_context` of `gmpy_context.h`. -/
structure gmpy_context where
  mpfr_prec : Int
  mpfr_round : Int
  emax : Int
  emin : Int
  subnormalize : Int
  underflow : Int
  overflow : Int
  inexact : Int
  invalid : Int
  erange : Int
  divzero : Int
  traps : Int
  real_prec : Int
  imag_prec : Int
  real_round : Int
  imag_round : Int
  allow_complex : Int
  rational_division : Int
  readonly : Int
  deriving DecidableEq

/-- What a real-argument math function hands back: the object made by the complex
implementation, or the outcome of the real path. -/
inductive MathResult (C R : Type) where
  | complex (c : C)
  | real (r : R)

/-- Whether the complex implementation made the result. -/
def MathResult.isComplex {C R : Type} : MathResult C R → Bool
  | MathResult.complex _ => true
  | MathResult.real _ => false

/-- The callees of the three functions, taken as parameters: the complex implementations
`GMPy_Complex_Acos`, `GMPy_Complex_Asin`, `GMPy_Complex_Atanh` (defined in
`gmpy2_math.c` after the real ones; they convert the operand and run the MPC kernel),
and for each real path the run `GMPy_MPFR_New`, `mpfr_clear_flags`, MPFR kernel,
`GMPY_MPFR_CLEANUP`, whose outcome (an mpfr object, or an exception when a trap is
set) has type `R`. -/
structure MathCallees (C R : Type) where
  GMPy_Complex_Acos : MpfrVal → gmpy_context → C
  GMPy_Complex_Asin : MpfrVal → gmpy_context → C
  GMPy_Complex_Atanh : MpfrVal → gmpy_context → C
  mpfr_acos : MpfrVal → gmpy_context → R
  mpfr_asin : MpfrVal → gmpy_context → R
  mpfr_atanh : MpfrVal → gmpy_context → R

/-- The function `_GMPy_MPFR_Acos` of `gmpy2_math.c`, `context` being the context after
`CHECK_CONTEXT`. -/
def _GMPy_MPFR_Acos {C R : Type} (E : MathCallees C R) (x : MpfrVal)
    (context : gmpy_context) : MathResult C R :=
  if (!mpfr_nan_p x && (decide (mpfr_cmp_si x 1 > 0) || decide (mpfr_cmp_si x (-1) < 0))
      && decide (context.allow_complex ≠ 0)) = true then
    MathResult.complex (E.GMPy_Complex_Acos x context)
  else MathResult.real (E.mpfr_acos x context)

/-- The function `_GMPy_MPFR_Asin` of `gmpy2_math.c`. -/
def _GMPy_MPFR_Asin {C R : Type} (E : MathCallees C R) (x : MpfrVal)
    (context : gmpy_context) : MathResult C R :=
  if (!mpfr_nan_p x && (decide (mpfr_cmp_si x 1 > 0) || decide (mpfr_cmp_si x (-1) < 0))
      && decide (context.allow_complex ≠ 0)) = true then
    MathResult.complex (E.GMPy_Complex_Asin x context)
  else MathResult.real (E.mpfr_asin x context)

/-- The function `_GMPy_MPFR_Atanh` of `gmpy2_math.c`. -/
def _GMPy_MPFR_Atanh {C R : Type} (E : MathCallees C R) (x : MpfrVal)
    (context : gmpy_context) : MathResult C R :=
  if (!mpfr_nan_p x && (decide (mpfr_cmp_si x 1 > 0) || decide (mpfr_cmp_si x (-1) < 0))
      && decide (context.allow_complex ≠ 0)) = true then
    MathResult.complex (E.GMPy_Complex_Atanh x context)
  else MathResult.real (E.mpfr_atanh x context)

/-- The exact value of a number `man * 2 ^ exp`. -/
def dyadic (man exp : Int) : ℚ :=
  if 0 ≤ exp then (man : ℚ) * 2 ^ exp.toNat else (man : ℚ) / 2 ^ (-exp).toNat

/-- A value is a number (neither NaN nor an infinity): `mpfr_number_p`. -/
def MpfrVal.finite : MpfrVal → Bool
  | MpfrVal.num _ _ => true
  | _ => false

/-- A value lies outside the interval [-1, 1]; an infinity does, NaN does not. -/
def MpfrVal.outside : MpfrVal → Prop
  | MpfrVal.nan => False
  | MpfrVal.inf _ => True
  | MpfrVal.num man exp => dyadic man exp > 1 ∨ dyadic man exp < -1

/-! ## In-place operations on xmpz -/

/-- What an in-place slot returns: the left operand itself, `NotImplemented`, `NULL` with
an exception set, or nothing because a GMP kernel call was undefined. -/
inductive InplaceRet where
  | self
  | notImplemented
  | error (e : PyExc)
  | fault
  deriving DecidableEq

/-- The state after an in-place slot has run: the value the xmpz operand holds and what
the slot returned. -/
structure InplaceResult where
  value : Int
  ret : InplaceRet
  deriving DecidableEq

/-- Modelled from the spec: `PyLong_AsGmp_siAndOverflow` is declared in a header that is
not part of the sources; `gmp_si` is taken as the 64-bit `long`, and the pair is the
value and the overflow flag as for `PyLong_AsLongAndOverflow`. -/
def PyLong_AsGmp_siAndOverflow (n : Int) : Int × Int :=
  PyLong_AsLongAndOverflow n

/-- Modelled from the spec: `mpz_fits_si` is declared in a header that is not part of the
sources; taken as `mpz_fits_slong_p`. -/
def mpz_fits_si (z : Int) : Bool :=
  mpz_fits_slong_p z

/-- Modelled from the spec: `mpz_fits_ui` is declared in a header that is not part of the
sources; taken as `mpz_fits_ulong_p` for a 64-bit `unsigned long`. -/
def mpz_fits_ui (z : Int) : Bool :=
  decide (0 ≤ z) && decide (z ≤ 18446744073709551615)

/-- An in-place kernel call: the operand takes the kernel's result, and the slot returns
the operand. -/
def storeKernel (a : Int) (r : Option Int) : InplaceResult :=
  match r with
  | none => ⟨a, InplaceRet.fault⟩
  | some v => ⟨v, InplaceRet.self⟩

/-- The function `Pyxmpz_inplace_floordiv`; `ZERO_ERROR` sets `ZeroDivisionError`. -/
def Pyxmpz_inplace_floordiv (a : Int) (b : PyArg) : InplaceResult :=
  match b with
  | PyArg.pylong n =>
    let co := PyLong_AsGmp_siAndOverflow n
    let temp_si := co.1
    if co.2 ≠ 0 then storeKernel a (mpz_fdiv_q a n)
    else if temp_si = 0 then ⟨a, InplaceRet.error PyExc.ZeroDivisionError⟩
    else if temp_si > 0 then storeKernel a (mpz_fdiv_q a (toULong temp_si))
    else storeKernel a ((mpz_cdiv_qr a (toULong (-temp_si))).map (fun qr => -qr.1))
  | PyArg.mpzany z =>
    if Int.sign z = 0 then ⟨a, InplaceRet.error PyExc.ZeroDivisionError⟩
    else storeKernel a (mpz_fdiv_q a z)
  | PyArg.other => ⟨a, InplaceRet.notImplemented⟩

/-- The function `Pyxmpz_inplace_rem`. -/
def Pyxmpz_inplace_rem (a : Int) (b : PyArg) : InplaceResult :=
  match b with
  | PyArg.pylong n =>
    let co := PyLong_AsGmp_siAndOverflow n
    let temp_si := co.1
    if co.2 ≠ 0 then storeKernel a (mpz_fdiv_r a n)
    else if temp_si > 0 then storeKernel a (mpz_fdiv_r a (toULong temp_si))
    else if temp_si = 0 then ⟨a, InplaceRet.error PyExc.ZeroDivisionError⟩
    else storeKernel a ((mpz_cdiv_qr a (toULong (-temp_si))).map (fun qr => qr.2))
  | PyArg.mpzany z =>
    if Int.sign z = 0 then ⟨a, InplaceRet.error PyExc.ZeroDivisionError⟩
    else storeKernel a (mpz_fdiv_r a z)
  | PyArg.other => ⟨a, InplaceRet.notImplemented⟩

/-- The function `Pyxmpz_inplace_rshift`; `OVERFLOW_ERROR` sets `OverflowError` and
`VALUE_ERROR` sets `ValueError`. -/
def Pyxmpz_inplace_rshift (a : Int) (b : PyArg) : InplaceResult :=
  match b with
  | PyArg.pylong n =>
    let co := PyLong_AsGmp_siAndOverflow n
    let temp_si := co.1
    if co.2 ≠ 0 then ⟨a, InplaceRet.error PyExc.OverflowError⟩
    else if temp_si ≥ 0 then ⟨mpz_fdiv_q_2exp a (toULong temp_si), InplaceRet.self⟩
    else ⟨a, InplaceRet.error PyExc.ValueError⟩
  | PyArg.mpzany z =>
    if Int.sign z < 0 then ⟨a, InplaceRet.error PyExc.ValueError⟩
    else if !mpz_fits_si z then ⟨a, InplaceRet.error PyExc.OverflowError⟩
    else ⟨mpz_fdiv_q_2exp a (toULong (mpz_get_si z)), InplaceRet.self⟩
  | PyArg.other => ⟨a, InplaceRet.notImplemented⟩

/-- The function `Pyxmpz_inplace_lshift`. The branch for a Python integer count that fits
and is not negative ends with the kernel call: it has no `return`, so control goes
on to the `CHECK_MPZANY(b)` test, which a Python integer fails, and to
`Py_RETURN_NOTIMPLEMENTED`. -/
def Pyxmpz_inplace_lshift (a : Int) (b : PyArg) : InplaceResult :=
  match b with
  | PyArg.pylong n =>
    let co := PyLong_AsGmp_siAndOverflow n
    let temp_si := co.1
    if co.2 ≠ 0 then ⟨a, InplaceRet.error PyExc.OverflowError⟩
    else if temp_si ≥ 0 then ⟨mpz_mul_2exp a (toULong temp_si), InplaceRet.notImplemented⟩
    else ⟨a, InplaceRet.error PyExc.ValueError⟩
  | PyArg.mpzany z =>
    if Int.sign z < 0 then ⟨a, InplaceRet.error PyExc.ValueError⟩
    else if !mpz_fits_si z then ⟨a, InplaceRet.error PyExc.OverflowError⟩
    else ⟨mpz_mul_2exp a (toULong (mpz_get_si z)), InplaceRet.self⟩
  | PyArg.other => ⟨a, InplaceRet.notImplemented⟩

/-- The call `mpz_pow_ui`. -/
def mpz_pow_ui (base : Int) (exp : Nat) : Int :=
  base ^ exp

/-- The function `Pyxmpz_inplace_pow` on an xmpz base (`Pyxmpz_Check(in_b)` holds);
`in_m = none` is `Py_None`. `SYSTEM_ERROR` sets `SystemError`, `TYPE_ERROR` sets
`TypeError`. -/
def Pyxmpz_inplace_pow (in_b : Int) (in_e : PyArg) (in_m : Option PyArg) : InplaceResult :=
  if in_m.isSome then ⟨in_b, InplaceRet.error PyExc.SystemError⟩
  else
    match Pympz_From_Integer in_e with
    | none => ⟨in_b, InplaceRet.error PyExc.TypeError⟩
    | some e =>
      if Int.sign e < 0 then ⟨in_b, InplaceRet.error PyExc.ValueError⟩
      else if !mpz_fits_ui e then ⟨in_b, InplaceRet.error PyExc.ValueError⟩
      else ⟨mpz_pow_ui in_b (mpz_get_ui e), InplaceRet.self⟩

/-- A context with `allow_complex` set: 53 bits, round to nearest, no traps, the other
fields zero. -/
def complexContext : gmpy_context :=
  { mpfr_prec := 53, mpfr_round := 0, emax := 1073741823, emin := -1073741823,
    subnormalize := 0, underflow := 0, overflow := 0, inexact := 0, invalid := 0,
    erange := 0, divzero := 0, traps := 0, real_prec := 0, imag_prec := 0,
    real_round := 0, imag_round := 0, allow_complex := 1, rational_division := 0,
    readonly := 0 }

/-- Callees for running the three functions on concrete operands: results carry no data,
only which path made them is observed. -/
def unitCallees : MathCallees Unit Unit :=
  { GMPy_Complex_Acos := fun _ _ => ()
    GMPy_Complex_Asin := fun _ _ => ()
    GMPy_Complex_Atanh := fun _ _ => ()
    mpfr_acos := fun _ _ => ()
    mpfr_asin := fun _ _ => ()
    mpfr_atanh := fun _ _ => () }

/-! ## Object caches and the table of small constants -/

/-- The macro `MAX_CACHE`. -/
def MAX_CACHE : Int := 1000

/-- The module globals behind the caches: `options`, the fill counts `in_zcache` and
`in_qcache`, and the array `zconst` (`none` for the null pointer, else the values
of the mpz objects its entries point to, entry 0 first). -/
structure Module where
  options : Options
  in_zcache : Int
  in_qcache : Int
  zconst : Option (List Int)
  deriving DecidableEq

/-- The function `set_zcache` that `DEFCACHE` expands to: cached objects above the new
size are cleared and the size is stored. -/
def set_zcache (st : Module) (new_zcache : Int) : Module :=
  let in_zcache := if st.in_zcache > new_zcache then new_zcache else st.in_zcache
  { st with in_zcache := in_zcache, options := { st.options with zcache := new_zcache } }

/-- The function `set_qcache` that `DEFCACHE` expands to. -/
def set_qcache (st : Module) (new_qcache : Int) : Module :=
  let in_qcache := if st.in_qcache > new_qcache then new_qcache else st.in_qcache
  { st with in_qcache := in_qcache, options := { st.options with qcache := new_qcache } }

/-- The function `get_zconst`: the table entry for `i` when `i` lies in the constant range,
else the null pointer (`none`). A read through a null table or past its end is a
fault. -/
def get_zconst (st : Module) (i : Int) : Outcome (Option Int) :=
  if i ≥ st.options.minzco then
    if i < st.options.maxzco then
      match st.zconst with
      | none => Outcome.fault
      | some table =>
        match table[(i - st.options.minzco).toNat]? with
        | none => Outcome.fault
        | some v => Outcome.ok (some v)
    else Outcome.ok none
  else Outcome.ok none

/-- The call `mpz_set_si`. -/
def mpz_set_si (i : Int) : Int := i

/-- The function `mpz_from_c_long`: the constant from the table, or a new object set with
`mpz_set_si`. -/
def mpz_from_c_long (st : Module) (i : Int) : Outcome Int :=
  match get_zconst st i with
  | Outcome.ok (some v) => Outcome.ok v
  | Outcome.ok none => Outcome.ok (mpz_set_si i)
  | Outcome.raise e => Outcome.raise e
  | Outcome.fault => Outcome.fault

/-- The loop `for(i=new_minzco; i<new_maxzco; ++i) new_zconst[i-new_minzco] =
mpz_from_c_long(i)` of `set_zconst`, run for `n` values from `i` on. -/
def fillZconst (st : Module) : Int → Nat → Outcome (List Int)
  | _, 0 => Outcome.ok []
  | i, n + 1 =>
    match mpz_from_c_long st i with
    | Outcome.ok v =>
      match fillZconst st (i + 1) n with
      | Outcome.ok rest => Outcome.ok (v :: rest)
      | Outcome.raise e => Outcome.raise e
      | Outcome.fault => Outcome.fault
    | Outcome.raise e => Outcome.raise e
    | Outcome.fault => Outcome.fault

/-- The function `set_zconst`. The old table is released; for a non-empty range the
bounds are zeroed while the new table is filled. The element count handed to
`malloc` is the `int` expression `new_maxzco-new_minzco`: when it wraps, the
array is not as long as the loop that fills it, and the stores are a fault. -/
def set_zconst (st : Module) (new_minzco new_maxzco : Int) : Outcome Module :=
  let st1 : Module := if st.zconst.isSome then { st with zconst := none } else st
  if new_maxzco > new_minzco then
    let st2 : Module := { st1 with options := { st1.options with minzco := 0, maxzco := 0 } }
    if wrapInt (new_maxzco - new_minzco) ≠ new_maxzco - new_minzco then Outcome.fault
    else
      match fillZconst st2 new_minzco (new_maxzco - new_minzco).toNat with
      | Outcome.ok table =>
        Outcome.ok { st2 with
          zconst := some table
          options := { st2.options with minzco := new_minzco, maxzco := new_maxzco } }
      | Outcome.raise e => Outcome.raise e
      | Outcome.fault => Outcome.fault
  else
    Outcome.ok { st1 with
      options := { st1.options with minzco := new_minzco, maxzco := new_maxzco } }

/-- The function `Pygmpy_set_zcache` on the parsed `int`: the module after the call and
what the call returned. -/
def Pygmpy_set_zcache (st : Module) (newval : Int) : Module × Outcome Unit :=
  if newval < 0 then (st, Outcome.raise PyExc.ValueError)
  else if newval > MAX_CACHE then (st, Outcome.raise PyExc.ValueError)
  else (set_zcache st newval, Outcome.ok ())

/-- The function `Pygmpy_set_qcache` on the parsed `int`. -/
def Pygmpy_set_qcache (st : Module) (newval : Int) : Module × Outcome Unit :=
  if newval < 0 then (st, Outcome.raise PyExc.ValueError)
  else if newval > MAX_CACHE then (st, Outcome.raise PyExc.ValueError)
  else (set_qcache st newval, Outcome.ok ())

/-- The function `Pygmpy_set_zconst` on the two parsed `int` arguments; the difference
`newmax-newmin` is computed in `int`. -/
def Pygmpy_set_zconst (st : Module) (newmin newmax : Int) : Module × Outcome Unit :=
  if newmin > newmax then (st, Outcome.raise PyExc.ValueError)
  else if wrapInt (newmax - newmin) > MAX_CACHE then (st, Outcome.raise PyExc.ValueError)
  else
    match set_zconst st newmin newmax with
    | Outcome.ok st' => (st', Outcome.ok ())
    | Outcome.raise e => (st, Outcome.raise e)
    | Outcome.fault => (st, Outcome.fault)

/-- The module globals as the static initialisers leave them: `options` is
`{ 0, 0, 5, 20, -2, 11, 20, 0 }`, the counts are 0 and `zconst` is null. -/
def staticModule : Module :=
  { options := { debug := 0, minprec := 0, tagoff := 5, zcache := 20, minzco := -2,
                 maxzco := 11, qcache := 20 }
    in_zcache := 0, in_qcache := 0, zconst := none }

/-- The function `_PyInitGMP` on the module globals. -/
def _PyInitGMP (st : Module) : Outcome Module :=
  let st := { st with options := { st.options with minprec := double_mantissa } }
  let st := set_zcache st st.options.zcache
  let st := set_qcache st st.options.qcache
  set_zconst st st.options.minzco st.options.maxzco

/-- The module once `_PyInitGMP` has run: the table holds -2, ..., 10. -/
def initModule : Module :=
  { options := initOptions, in_zcache := 0, in_qcache := 0,
    zconst := some [-2, -1, 0, 1, 2, 3, 4, 5, 6, 7, 8, 9, 10] }

/-- A value of the C type `int`. -/
def isCInt (n : Int) : Prop := -2147483648 ≤ n ∧ n ≤ 2147483647

instance (n : Int) : Decidable (isCInt n) := by
  unfold isCInt
  infer_instance

/-- The module states reachable from initialisation by calls of `set_zcache`,
`set_qcache` and `set_zconst` that return (with a value or an exception). -/
inductive Reachable : Module → Prop where
  | init : Reachable initModule
  | zcache (st : Module) (n : Int) : Reachable st → isCInt n →
      Reachable (Pygmpy_set_zcache st n).1
  | qcache (st : Module) (n : Int) : Reachable st → isCInt n →
      Reachable (Pygmpy_set_qcache st n).1
  | zconst (st : Module) (newmin newmax : Int) : Reachable st → isCInt newmin →
      isCInt newmax → (Pygmpy_set_zconst st newmin newmax).2 ≠ Outcome.fault →
      Reachable (Pygmpy_set_zconst st newmin newmax).1

/-- The table invariant: over a non-empty constant range the table is there and its entry
k is the value minzco + k. -/
def tableOk (st : Module) : Prop :=
  st.options.minzco < st.options.maxzco →
    st.zconst = some ((List.range (st.options.maxzco - st.options.minzco).toNat).map
      (fun (k : Nat) => st.options.minzco + (k : Int)))

/-! ## abs() and context.abs() -/

/-- An operand of `abs()` by kind: an integer, a rational that is no integer object, a real
that is no rational object, a complex that is no real object, or an object of no
numeric kind. -/
inductive Number where
  | integer (z : Int)
  | rational (q : Mpq)
  | real (x : MpfrVal)
  | complex (re im : MpfrVal)
  | other
  deriving DecidableEq

/-- Modelled from the spec: the type test `IS_INTEGER` is defined in a header that is not
part of the sources; the kinds nest as Integer, Rational, Real, Complex. -/
def IS_INTEGER : Number → Bool
  | Number.integer _ => true
  | _ => false

/-- Modelled from the spec: `IS_RATIONAL` holds of integers and rationals. -/
def IS_RATIONAL : Number → Bool
  | Number.integer _ => true
  | Number.rational _ => true
  | _ => false

/-- Modelled from the spec: `IS_RATIONAL_ONLY` holds of rationals that are no integers. -/
def IS_RATIONAL_ONLY : Number → Bool
  | Number.rational _ => true
  | _ => false

/-- Modelled from the spec: `IS_REAL` holds of integers, rationals and reals. -/
def IS_REAL : Number → Bool
  | Number.integer _ => true
  | Number.rational _ => true
  | Number.real _ => true
  | _ => false

/-- Modelled from the spec: `IS_REAL_ONLY` holds of reals that are no rationals. -/
def IS_REAL_ONLY : Number → Bool
  | Number.real _ => true
  | _ => false

/-- Modelled from the spec: `IS_COMPLEX` holds of every numeric kind. -/
def IS_COMPLEX : Number → Bool
  | Number.other => false
  | _ => true

/-- Modelled from the spec: `IS_COMPLEX_ONLY` holds of complex values that are no reals. -/
def IS_COMPLEX_ONLY : Number → Bool
  | Number.complex _ _ => true
  | _ => false

/-- The object `abs()` returns, by type. -/
inductive AbsValue where
  | mpz (z : Int)
  | mpq (q : Mpq)
  | mpfr (x : MpfrVal)
  deriving DecidableEq

/-- The context objects that exist, each at its index (the pointer to it), and the
pointer `CURRENT_CONTEXT` yields. -/
structure Contexts where
  heap : List gmpy_context
  current : Nat
  deriving DecidableEq

/-- What the steps `mpfr_clear_flags`, MPFR kernel call, `MPFR_CLEANUP_2(result, context,
...)` leave: the fields of the context once the flags are merged, and the result
object or the exception a trap raised. -/
structure MpfrRun where
  ctx : gmpy_context
  result : Outcome MpfrVal

/-- The callees of `gmpy2_abs.c` that lie outside it: the two converters, the MPFR
kernels for `abs` and `hypot` run under a context up to `MPFR_CLEANUP_2`, and
`GMPyContext_context_copy`, which gives the fields of the new context object. -/
structure AbsCallees where
  GMPy_MPFR_From_Real_Temp : Number → gmpy_context → Outcome MpfrVal
  GMPy_MPC_From_Complex_Temp : Number → gmpy_context → Outcome (MpfrVal × MpfrVal)
  mpfr_abs : MpfrVal → gmpy_context → MpfrRun
  mpfr_hypot : MpfrVal → MpfrVal → gmpy_context → MpfrRun
  GMPyContext_context_copy : gmpy_context → gmpy_context

/-- The call `mpz_abs`. -/
def mpz_abs (z : Int) : Int := |z|

/-- The function `GMPy_Integer_Abs`; `GMPy_MPZ_From_Integer` gives the value as an mpz. -/
def GMPy_Integer_Abs (x : Number) : Outcome AbsValue :=
  match x with
  | Number.integer z => Outcome.ok (AbsValue.mpz (mpz_abs z))
  | _ => Outcome.raise PyExc.TypeError

/-- The function `GMPy_Rational_Abs`; `Pympq_From_Rational` gives the value as an mpq, an
integer over the denominator 1, and `mpz_abs` is applied to the numerator. -/
def GMPy_Rational_Abs (x : Number) : Outcome AbsValue :=
  match x with
  | Number.integer z => Outcome.ok (AbsValue.mpq ⟨mpz_abs z, 1⟩)
  | Number.rational q => Outcome.ok (AbsValue.mpq ⟨mpz_abs q.num, q.den⟩)
  | _ => Outcome.raise PyExc.TypeError

/-- The end of the two MPFR paths: the context object at `context` takes the fields the
run left, and the result object or the exception is returned. -/
def finishRun (S : Contexts) (context : Nat) (run : MpfrRun) : Contexts × Outcome AbsValue :=
  ({ S with heap := S.heap.set context run.ctx },
    match run.result with
    | Outcome.ok v => Outcome.ok (AbsValue.mpfr v)
    | Outcome.raise e => Outcome.raise e
    | Outcome.fault => Outcome.fault)

/-- The function `GMPy_Real_Abs`; `context = none` is the null pointer. -/
def GMPy_Real_Abs (E : AbsCallees) (S : Contexts) (x : Number) (context : Option Nat) :
    Contexts × Outcome AbsValue :=
  let context := match context with
    | none => S.current
    | some p => p
  match S.heap[context]? with
  | none => (S, Outcome.fault)
  | some c =>
    if IS_REAL x then
      match E.GMPy_MPFR_From_Real_Temp x c with
      | Outcome.ok tempx => finishRun S context (E.mpfr_abs tempx c)
      | Outcome.raise e => (S, Outcome.raise e)
      | Outcome.fault => (S, Outcome.fault)
    else (S, Outcome.raise PyExc.TypeError)

/-- The function `GMPy_Complex_Abs`: `mpfr_hypot` on the real and imaginary part of the
converted operand. -/
def GMPy_Complex_Abs (E : AbsCallees) (S : Contexts) (x : Number) (context : Option Nat) :
    Contexts × Outcome AbsValue :=
  let context := match context with
    | none => S.current
    | some p => p
  match S.heap[context]? with
  | none => (S, Outcome.fault)
  | some c =>
    if IS_COMPLEX x then
      match E.GMPy_MPC_From_Complex_Temp x c with
      | Outcome.ok tempx => finishRun S context (E.mpfr_hypot tempx.1 tempx.2 c)
      | Outcome.raise e => (S, Outcome.raise e)
      | Outcome.fault => (S, Outcome.fault)
    else (S, Outcome.raise PyExc.TypeError)

/-- The function `GMPy_Number_Abs`. -/
def GMPy_Number_Abs (E : AbsCallees) (S : Contexts) (x : Number) (context : Option Nat) :
    Contexts × Outcome AbsValue :=
  let context := match context with
    | none => S.current
    | some p => p
  if IS_INTEGER x then (S, GMPy_Integer_Abs x)
  else if IS_RATIONAL_ONLY x then (S, GMPy_Rational_Abs x)
  else if IS_REAL_ONLY x then GMPy_Real_Abs E S x (some context)
  else if IS_COMPLEX_ONLY x then GMPy_Complex_Abs E S x (some context)
  else (S, Outcome.raise PyExc.TypeError)

/-- The function `GMPy_Context_Abs`: `self = none` is an object that is no context. For a
read-only context the operation runs under a new context object, which is released
before the function returns. -/
def GMPy_Context_Abs (E : AbsCallees) (S : Contexts) (self : Option Nat)
    (args : List Number) : Contexts × Outcome AbsValue :=
  match args with
  | [x] =>
    match self with
    | none => (S, Outcome.raise PyExc.SystemError)
    | some p =>
      match S.heap[p]? with
      | none => (S, Outcome.fault)
      | some c =>
        if c.readonly ≠ 0 then
          let context := S.heap.length
          let S1 : Contexts := { S with heap := S.heap ++ [E.GMPyContext_context_copy c] }
          let r := GMPy_Number_Abs E S1 x (some context)
          ({ r.1 with heap := r.1.heap.take S.heap.length }, r.2)
        else GMPy_Number_Abs E S x (some p)
  | _ => (S, Outcome.raise PyExc.TypeError)

/-- Callees for running `abs()` on concrete operands: the converters hand the parts on,
the kernels clear the sign of a number (`hypot` is only run with a zero imaginary
part here) and raise the `inexact` flag of the context. -/
def sampleAbsCallees : AbsCallees :=
  { GMPy_MPFR_From_Real_Temp := fun x _ =>
      match x with
      | Number.real v => Outcome.ok v
      | Number.integer z => Outcome.ok (MpfrVal.num z 0)
      | _ => Outcome.fault
    GMPy_MPC_From_Complex_Temp := fun x _ =>
      match x with
      | Number.complex re im => Outcome.ok (re, im)
      | _ => Outcome.fault
    mpfr_abs := fun v c =>
      { ctx := { c with inexact := 1 }
        result := match v with
          | MpfrVal.num man exp => Outcome.ok (MpfrVal.num |man| exp)
          | MpfrVal.inf _ => Outcome.ok (MpfrVal.inf false)
          | MpfrVal.nan => Outcome.ok MpfrVal.nan }
    mpfr_hypot := fun re _ c =>
      { ctx := { c with inexact := 1 }
        result := match re with
          | MpfrVal.num man exp => Outcome.ok (MpfrVal.num |man| exp)
          | MpfrVal.inf _ => Outcome.ok (MpfrVal.inf false)
          | MpfrVal.nan => Outcome.ok MpfrVal.nan }
    GMPyContext_context_copy := fun c => { c with readonly := 0 } }

/-- Two context objects: a read-only template at pointer 0 and the current context at
pointer 1. -/
def sampleContexts : Contexts :=
  { heap := [{ complexContext with readonly := 1 }, complexContext], current := 1 }


/-! ## Normalising the limbs of an mpf -/

/-- The struct `__mpf_struct` of GMP: precision in limbs, signed limb count, exponent in
limbs and the limb array, least significant limb first. -/
structure mpf_struct where
  _mp_prec : Int
  _mp_size : Int
  _mp_exp : Int
  _mp_d : List Nat
  deriving DecidableEq

/-- The constant `GMP_NUMB_BITS` on a 64-bit build without nails. -/
def GMP_NUMB_BITS : Int := 64

/-- The call `mpf_get_prec`: `__GMPF_PREC_TO_BITS(_mp_prec)`. -/
def mpf_get_prec (f : mpf_struct) : Int :=
  f._mp_prec * GMP_NUMB_BITS - GMP_NUMB_BITS

/-- The call `mpf_size`: the number of limbs in use. -/
def mpf_size (f : mpf_struct) : Nat :=
  f._mp_size.natAbs

/-- The call `mpn_add_1(d + off, d + off, n, c)` on the array `d`: `c` is added to the `n`
limbs from index `off` on; the array afterwards and the carry out. -/
def mpn_add_1 : List Nat → Nat → Nat → Nat → List Nat × Nat
  | [], _, _, c => ([], c)
  | x :: xs, 0, 0, c => (x :: xs, c)
  | x :: xs, 0, n + 1, c =>
    let r := mpn_add_1 xs 0 n ((x + c) / 18446744073709551616)
    (((x + c) % 18446744073709551616) :: r.1, r.2)
  | x :: xs, off + 1, n, c =>
    let r := mpn_add_1 xs off n c
    (x :: r.1, r.2)

/-- The rounding bit of `mpf_normalize`: `bit1 && ((hi & 1) || rem)`, where `bit1` is the
top bit of the limb `lo` that is dropped, `rem` tells whether any lower bit of it is
set, and `hi` is the lowest limb that is kept. -/
def roundCarry (lo hi : Nat) : Nat :=
  let bit1 : Nat := if lo / 9223372036854775808 % 2 ≠ 0 then 1 else 0
  let rem : Nat := if lo % 9223372036854775808 ≠ 0 then 1 else 0
  if bit1 ≠ 0 then (if hi % 2 ≠ 0 then 1 else if rem ≠ 0 then 1 else 0) else 0

/-- The second half of `mpf_normalize` for `toclear > 0`: the limb `toclear - 1` is
cleared and the carry is added into the limbs from `toclear` on; a carry out of the
top limb stores 1 there and raises the exponent. -/
def storeRounded (i : mpf_struct) (toclear : Nat) (carry : Nat) : mpf_struct :=
  let d := i._mp_d.set (toclear - 1) 0
  if carry ≠ 0 then
    let r := mpn_add_1 d toclear (mpf_size i - toclear) carry
    if r.2 ≠ 0 then
      { i with _mp_d := r.1.set (mpf_size i - 1) 1, _mp_exp := i._mp_exp + 1 }
    else { i with _mp_d := r.1 }
  else { i with _mp_d := d }

/-- The function `mpf_normalize` on the `mpf_t` of its argument: the limb below the
`prec/GMP_NUMB_BITS + 1` top limbs is cleared, after its top bit has been rounded
(half to even) into the limbs above. A limb index outside the array is a fault. -/
def mpf_normalize (i : mpf_struct) : Outcome mpf_struct :=
  let prec := mpf_get_prec i
  let size : Int := mpf_size i
  let toclear := size - (Int.tdiv prec GMP_NUMB_BITS + 1)
  if toclear > 0 then
    if size > (i._mp_d.length : Int) then Outcome.fault
    else
      match i._mp_d[toclear.toNat - 1]?, i._mp_d[toclear.toNat]? with
      | some lo, some hi => Outcome.ok (storeRounded i toclear.toNat (roundCarry lo hi))
      | _, _ => Outcome.fault
  else Outcome.ok i

/-! ## Formatting an mpc -/

/-- The locals of `Pympc_format`: the three buffers (what has been written to `rfmt`,
`ifmt` and `fmt` so far) and the flags. -/
structure FormatState where
  rfmt : List Char
  ifmt : List Char
  fmt : List Char
  seensign : Nat
  seenalign : Nat
  seendecimal : Nat
  seendigits : Nat
  seenround : Nat
  seenconv : Nat
  seenstyle : Nat
  mpcstyle : Nat
  deriving DecidableEq

/-- How one pass of the loop over the format code ends: `continue`, `break`, or the
`VALUE_ERROR` return. -/
inductive FormatStep where
  | next (s : FormatState)
  | stop (s : FormatState)
  | invalid
  deriving DecidableEq

/-- The C library test `isdigit`. -/
def isdigit (c : Char) : Bool :=
  decide (48 ≤ c.toNat) && decide (c.toNat ≤ 57)

/-- The C library test `isspace` in the C locale: space, tab, newline, vertical tab, form
feed, carriage return. -/
def isspace (c : Char) : Bool :=
  decide (c.toNat = 32) || (decide (9 ≤ c.toNat) && decide (c.toNat ≤ 13))

/-- The loop `while (isdigit(*(ifmtptr-1))) ifmtptr--;`: the digits at the end of the
buffer are dropped. -/
def dropTrailingDigits (buf : List Char) : List Char :=
  (buf.reverse.dropWhile isdigit).reverse

/-- The characters `*p` is written to both `rfmt` and `ifmt`. -/
def FormatState.pushBoth (s : FormatState) (p : Char) : FormatState :=
  { s with rfmt := s.rfmt ++ [p], ifmt := s.ifmt ++ [p] }

/-- The body of the loop `for (p = fmtcode; *p != 0; p++)` of `Pympc_format` for one
character. -/
def formatStep (s : FormatState) (p : Char) : FormatStep :=
  if p == '<' || p == '>' || p == '^' then
    if s.seenalign != 0 || s.seensign != 0 || s.seendecimal != 0 || s.seendigits != 0 ||
        s.seenround != 0 || s.seenstyle != 0 then FormatStep.invalid
    else FormatStep.next { s with fmt := s.fmt ++ [p], seenalign := 1 }
  else if p == '+' || p == ' ' || p == '-' then
    if s.seensign != 0 || s.seendecimal != 0 || s.seendigits != 0 || s.seenround != 0 ||
        s.seenstyle != 0 then FormatStep.invalid
    else FormatStep.next { s.pushBoth p with seensign := 1 }
  else
    let s := if s.seensign == 0 then { s.pushBoth '-' with seensign := 1 } else s
    if p == '.' then
      if s.seendecimal == 2 || s.seendigits != 0 || s.seenround != 0 || s.seenstyle != 0 then
        FormatStep.invalid
      else
        let s := if s.seendecimal == 0 then s.pushBoth p else s
        let s := { s with seendecimal := s.seendecimal + 1 }
        let s := if s.seendecimal == 2 then { s with ifmt := dropTrailingDigits s.ifmt } else s
        FormatStep.next s
    else if isdigit p then
      if s.seendigits != 0 || s.seenround != 0 || s.seenstyle != 0 then FormatStep.invalid
      else if s.seendecimal == 1 then FormatStep.next (s.pushBoth p)
      else if s.seendecimal == 2 then FormatStep.next { s with ifmt := s.ifmt ++ [p] }
      else
        let s := if s.fmt.isEmpty then { s with fmt := ['>'], seenalign := 1 } else s
        FormatStep.next { s with fmt := s.fmt ++ [p] }
    else
      let s := if s.seendigits == 0 then { s.pushBoth 'R' with seendigits := 1 } else s
      if p == 'U' || p == 'D' || p == 'Y' || p == 'Z' || p == 'N' then
        if s.seenround != 0 || s.seenstyle != 0 then FormatStep.invalid
        else FormatStep.next { s.pushBoth p with seenround := 1 }
      else if p == 'P' || p == 'M' then
        if s.seenstyle != 0 then FormatStep.invalid
        else FormatStep.next
          { s with mpcstyle := if p == 'M' then 1 else s.mpcstyle, seenstyle := 1 }
      else if p == 'a' || p == 'A' || p == 'b' || p == 'e' || p == 'E' || p == 'f' ||
          p == 'F' || p == 'g' || p == 'G' then
        FormatStep.stop { s.pushBoth p with seenconv := 1 }
      else FormatStep.invalid

/-- The loop of `Pympc_format` over the format code: the state when the code ends or a
conversion code breaks out, `none` for the `VALUE_ERROR` return. -/
def formatLoop (s : FormatState) : List Char → Option FormatState
  | [] => some s
  | p :: rest =>
    match formatStep s p with
    | FormatStep.next s' => formatLoop s' rest
    | FormatStep.stop s' => some s'
    | FormatStep.invalid => none

/-- The defaults added after the loop: sign `-`, the `R` type mark, conversion `f`. -/
def formatDefaults (s : FormatState) : FormatState :=
  let s := if s.seensign == 0 then s.pushBoth '-' else s
  let s := if s.seendigits == 0 then s.pushBoth 'R' else s
  if s.seenconv == 0 then s.pushBoth 'f' else s

/-- The callees of `Pympc_format` outside it: `mpfr_asprintf` (`none` for a negative
length) and the method `__format__` of the Python string. -/
structure FormatCallees where
  mpfr_asprintf : List Char → MpfrVal → Option (List Char)
  str_format : List Char → List Char → Outcome (List Char)

/-- The test `strlen(buf) < 50 && strlen(buf) == strspn(buf, "+- 0123456789")`. -/
def onlyDigits (buf : List Char) : Bool :=
  decide (buf.length < 50) &&
    buf.all (fun c => c == '+' || c == '-' || c == ' ' || isdigit c)

/-- The locals of `Pympc_format` when the loop starts: `%` in `rfmt` and `ifmt`, `fmt`
empty, the flags 0. -/
def formatStart : FormatState :=
  { rfmt := ['%'], ifmt := ['%'], fmt := [], seensign := 0, seenalign := 0,
    seendecimal := 0, seendigits := 0, seenround := 0, seenconv := 0, seenstyle := 0,
    mpcstyle := 0 }

/-- The function `Pympc_format` on an mpc with parts `re` and `im` and the parsed format
code (no NUL inside). The buffers `rfmt`, `ifmt`, `fmt` hold 100, 100 and 30
characters; a specification that does not fit is a fault. -/
def Pympc_format (K : FormatCallees) (re im : MpfrVal) (fmtcode : List Char) :
    Outcome (List Char) :=
  match formatLoop formatStart fmtcode with
  | none => Outcome.raise PyExc.ValueError
  | some s =>
    let s := formatDefaults s
    if s.rfmt.length ≥ 100 || s.ifmt.length ≥ 100 || s.fmt.length ≥ 30 then Outcome.fault
    else
      match K.mpfr_asprintf s.rfmt re with
      | none => Outcome.raise PyExc.SystemError
      | some realbuf =>
        let ifmt : Option (List Char) :=
          if s.mpcstyle == 0 then
            if s.ifmt[1]? == some ' ' || s.ifmt[1]? == some '-' then some (s.ifmt.set 1 '+')
            else none
          else some s.ifmt
        match ifmt with
        | none => Outcome.raise PyExc.ValueError
        | some ifmt =>
          match K.mpfr_asprintf ifmt im with
          | none => Outcome.raise PyExc.SystemError
          | some imagbuf =>
            let tempbuf := ['('] ++ realbuf ++ (if onlyDigits realbuf then ['.', '0'] else [])
              ++ (if s.mpcstyle != 0 then [' '] else []) ++ imagbuf
              ++ (if onlyDigits imagbuf then ['.', '0'] else [])
              ++ (if s.mpcstyle != 0 then [')'] else ['j', ')'])
            K.str_format tempbuf s.fmt

/-- Callees for running `Pympc_format` on concrete inputs: every part prints as the digit
1, with the sign the specification asks for in front, and `__format__` hands the
string back. -/
def sampleFormat : FormatCallees :=
  { mpfr_asprintf := fun spec _ =>
      some ((if spec[1]? == some '+' then ['+'] else if spec[1]? == some ' ' then [' ']
        else []) ++ ['1'])
    str_format := fun s _ => Outcome.ok s }

/-! ## Parsing an mpc from a string -/

/-- The NUL character that ends a C string. -/
def NUL : Char := Char.ofNat 0

/-- The locals of `PyStr2Pympc` after the parentheses have been looked at: the text from
`cp` up to the NUL, the index of `cp` in the string and the index of `lastchar`
(negative when it has been moved in front of the string). -/
structure ParenScan where
  text : List Char
  cp : Nat
  lastchar : Int
  deriving DecidableEq

/-- The first part of `PyStr2Pympc`, up to `if (firstp != lastp) goto invalid_string;`.
`s` is the character data (`len` characters, then the NUL); `front` are the bytes
of the object in front of the character data, nearest first, which the backward
scan reaches when it leaves the string; a read in front of those is a fault. -/
def PyStr2Pympc_parens (front s : List Char) : Outcome ParenScan :=
  match (s.reverse ++ front).dropWhile isspace with
  | [] => Outcome.fault
  | c0 :: r0 =>
    let lastp : Nat := if c0 == ')' then 1 else 0
    let r1 := if c0 == ')' then r0 else c0 :: r0
    match r1 with
    | [] => Outcome.fault
    | c1 :: r2 =>
      let r3 := if c1 == 'j' then r2 else c1 :: r2
      let lastchar : Int := (r3.length : Int) - (front.length : Int) - 1
      match (s ++ [NUL]).dropWhile isspace with
      | [] => Outcome.fault
      | c :: rest =>
        let firstp : Nat := if c == '(' then 1 else 0
        let text := if c == '(' then rest else c :: rest
        if firstp ≠ lastp then Outcome.raise PyExc.ValueError
        else Outcome.ok
          { text := text.dropLast, cp := s.length + 1 - text.length, lastchar := lastchar }

/-- Where the two components of a parsed mpc come from: the index at which the real part
was read (`none` when it was set to zero) and the index at which the imaginary part
was read. -/
structure MpcParse where
  real : Option Nat
  imag : Nat
  deriving DecidableEq

/-- The second part of `PyStr2Pympc`, from "Read the real component first" on.
`mpfr_strtofr` is GMP-external: given the text at a position it tells how many
characters it read. -/
def PyStr2Pympc_components (mpfr_strtofr : List Char → Nat) (p : ParenScan) :
    Outcome MpcParse :=
  let unwind := p.cp
  let n1 := mpfr_strtofr p.text
  let tempchar := p.cp + n1
  if n1 = 0 then Outcome.raise PyExc.ValueError
  else
    match (p.text ++ [NUL])[n1]? with
    | none => Outcome.fault
    | some t1 =>
      let cp := if t1 == 'j' then unwind else tempchar
      let text := if t1 == 'j' then p.text else p.text.drop n1
      let n2 := mpfr_strtofr text
      let tempchar := cp + n2
      match (text ++ [NUL])[n2]?, (text ++ [NUL])[0]? with
      | some t2, some c =>
        let parse : MpcParse := { real := if t1 == 'j' then none else some unwind, imag := cp }
        if n2 = 0 ∧ (tempchar : Int) > p.lastchar then Outcome.ok parse
        else if t2 != 'j' && c != ' ' then Outcome.raise PyExc.ValueError
        else if (tempchar : Int) ≤ p.lastchar then Outcome.raise PyExc.ValueError
        else Outcome.ok parse
      | _, _ => Outcome.fault

/-- The function `PyStr2Pympc` on the character data of an ASCII string: a NUL inside
the data raises `ValueError`, then the parentheses are looked at, then the
components are read. -/
def PyStr2Pympc (mpfr_strtofr : List Char → Nat) (front s : List Char) :
    Outcome MpcParse :=
  if s.any (fun c => c == NUL) then Outcome.raise PyExc.ValueError
  else
    match PyStr2Pympc_parens front s with
    | Outcome.ok p => PyStr2Pympc_components mpfr_strtofr p
    | Outcome.raise e => Outcome.raise e
    | Outcome.fault => Outcome.fault

/-- The string starts, after whitespace, with an opening parenthesis. -/
def leadingParen (s : List Char) : Bool :=
  (s.dropWhile isspace).head? == some '('

/-- The string ends, before whitespace, with a closing parenthesis. -/
def trailingParen (s : List Char) : Bool :=
  (s.reverse.dropWhile isspace).head? == some ')'

/-- The string has a character that is no whitespace. -/
def nonBlank (s : List Char) : Bool :=
  s.any (fun c => !isspace c)

/-- A reader for running `PyStr2Pympc` on concrete strings: it reads an optional blank,
an optional sign and the decimal digits that follow, and nothing when there is no
digit. -/
def sampleStrtofr (text : List Char) : Nat :=
  let t0 := text.dropWhile (fun c => c == ' ')
  let t1 := match t0 with
    | c :: rest => if c == '+' || c == '-' then rest else t0
    | [] => t0
  let digits := (t1.takeWhile isdigit).length
  if digits = 0 then 0 else text.length - t1.length + digits

/-! ## Normalising an mpmath mantissa -/

/-- The call `mpz_cdiv_q_2exp`: the quotient by `2 ^ b` rounded up. -/
def mpz_cdiv_q_2exp (a : Int) (b : Nat) : Int := -(Int.fdiv (-a) (2 ^ b))

/-- The call `mpz_tdiv_q_2exp`: the quotient by `2 ^ b` rounded toward zero. -/
def mpz_tdiv_q_2exp (a : Int) (b : Nat) : Int := Int.tdiv a (2 ^ b)

/-- The call `mpz_tdiv_r_2exp`: the remainder of the division by `2 ^ b` rounded toward
zero. -/
def mpz_tdiv_r_2exp (a : Int) (b : Nat) : Int := Int.tmod a (2 ^ b)

/-- The test `mpz_odd_p`. -/
def mpz_odd_p (a : Int) : Bool := decide (a % 2 = 1)

/-- The call `mpz_add_ui`. -/
def mpz_add_ui (a : Int) (b : Nat) : Int := a + b

/-- The call `mpz_cmp_ui`: the sign of `a - b`. -/
def mpz_cmp_ui (a : Int) (b : Nat) : Int := Int.sign (a - b)

/-- The function `mpmath_build_mpf`: the tuple `(sign, man, exp, bc)`; `exp = none` is the
null pointer, for which 0 is stored. -/
def mpmath_build_mpf (sign man : Int) (exp : Option Int) (bc : Int) : Int × Int × Int × Int :=
  (sign, man, match exp with
    | some e => e
    | none => 0, bc)

/-- The `case 'n': default:` branch of the rounding switch: the quotient rounded toward
zero, plus a carry when the remainder is above one half, or is one half and the
quotient is odd. -/
def roundNearest (man : Int) (shift : Int) : Int :=
  let lower := mpz_tdiv_r_2exp man shift.toNat
  let upper := mpz_tdiv_q_2exp man shift.toNat
  let carry : Int :=
    if Int.sign lower ≠ 0 then
      if ((mpz_sizeinbase2 lower.natAbs : Nat) : Int) = shift then
        if toLong (mpz_scan1 lower 0) = shift - 1 then
          if mpz_odd_p upper then 1 else 0
        else 1
      else 0
    else 0
  if carry ≠ 0 then mpz_add_ui upper 1 else upper

/-- The rounding switch of `Pympz_mpmath_normalize` (taken for `shift > 0`): the value of
`upper` it leaves. -/
def roundSwitch (sign man shift : Int) (rnd : Char) : Int :=
  if rnd == 'f' then
    if sign ≠ 0 then mpz_cdiv_q_2exp man shift.toNat else mpz_fdiv_q_2exp man shift.toNat
  else if rnd == 'c' then
    if sign ≠ 0 then mpz_fdiv_q_2exp man shift.toNat else mpz_cdiv_q_2exp man shift.toNat
  else if rnd == 'd' then mpz_fdiv_q_2exp man shift.toNat
  else if rnd == 'u' then mpz_cdiv_q_2exp man shift.toNat
  else roundNearest man shift

/-- The end of `Pympz_mpmath_normalize`, from "Strip trailing 0 bits" on. -/
def stripZeros (sign upper newexp bc : Int) : Int × Int × Int × Int :=
  let zbits := toLong (mpz_scan1 upper 0)
  let upper := if zbits ≠ 0 then mpz_tdiv_q_2exp upper (toULong zbits) else upper
  let newexp2 := newexp + zbits
  let bc := bc - zbits
  let bc := if mpz_cmp_ui upper 1 = 0 then 1 else bc
  mpmath_build_mpf sign upper (some newexp2) bc

/-- The function `Pympz_mpmath_normalize` on its six parsed arguments: `sign`, `bc` and
`prec` are the C `long` values, `man` the value of the mpz, `exp` the Python
integer, `rnd` the first character of the rounding string. -/
def Pympz_mpmath_normalize (sign man exp bc prec : Int) (rnd : Char) :
    Int × Int × Int × Int :=
  if Int.sign man = 0 then mpmath_build_mpf 0 man none 0
  else if bc ≤ prec ∧ mpz_odd_p man = true then mpmath_build_mpf sign man (some exp) bc
  else
    let shift := bc - prec
    if shift > 0 then stripZeros sign (roundSwitch sign man shift rnd) (exp + shift) prec
    else stripZeros sign man exp bc

/-! # Theorems -/

/-! ## The mpz binary form round trip -/

theorem bitsAux_zero (fuel : Nat) : bitsAux fuel 0 = 0 := by
  cases fuel <;> simp [bitsAux]

theorem bitsAux_spec : ∀ (fuel n : Nat), n ≤ fuel → n ≠ 0 →
    2 ^ (bitsAux fuel n - 1) ≤ n ∧ n < 2 ^ bitsAux fuel n ∧ 1 ≤ bitsAux fuel n := by
  intro fuel
  induction fuel with
  | zero => intro n h0 h1; omega
  | succ f ih =>
    intro n hn hne
    simp only [bitsAux, if_neg hne]
    by_cases h2 : n / 2 = 0
    · have h1 : n = 1 := by omega
      subst h1
      simp [bitsAux_zero]
    · obtain ⟨a, b, c⟩ := ih (n / 2) (by omega) h2
      refine ⟨?_, ?_, by omega⟩
      · have e : bitsAux f (n / 2) + 1 - 1 = (bitsAux f (n / 2) - 1) + 1 := by omega
        rw [e, pow_succ]
        omega
      · rw [pow_succ]
        omega

theorem exportAux_zero (fuel : Nat) : exportAux fuel 0 = [] := by
  cases fuel <;> simp [exportAux]

theorem exportAux_spec : ∀ (fuel n k : Nat), n ≤ fuel → 256 ^ k ≤ n → n < 256 ^ (k + 1) →
    (exportAux fuel n).length = k + 1 ∧ (exportAux fuel n).getLast? = some (n / 256 ^ k) := by
  intro fuel
  induction fuel with
  | zero =>
    intro n k h0 h1 _
    have : 0 < 256 ^ k := by positivity
    omega
  | succ f ih =>
    intro n k hn hlo hhi
    have hpos : 0 < 256 ^ k := by positivity
    have hne : n ≠ 0 := by omega
    simp only [exportAux, if_neg hne]
    cases k with
    | zero =>
      have hz : n / 256 = 0 := by simp at hhi; omega
      simp [hz, exportAux_zero]
      simp at hhi
      omega
    | succ k =>
      have hlo2 : 256 ^ k ≤ n / 256 := by
        rw [pow_succ] at hlo
        omega
      have hhi2 : n / 256 < 256 ^ (k + 1) := by
        rw [pow_succ] at hhi
        omega
      obtain ⟨a, b⟩ := ih (n / 256) k (by omega) hlo2 hhi2
      refine ⟨by simp [a], ?_⟩
      have hnn : exportAux f (n / 256) ≠ [] := by
        intro h
        rw [h] at a
        simp at a
      obtain ⟨c, t, ht⟩ := List.exists_cons_of_ne_nil hnn
      rw [ht] at b
      rw [ht, List.getLast?_cons_cons, b, Nat.div_div_eq_div_mul, pow_succ, Nat.mul_comm]

theorem import_exportAux : ∀ (fuel n : Nat), n ≤ fuel → mpz_import (exportAux fuel n) = n := by
  intro fuel
  induction fuel with
  | zero => intro n h; have : n = 0 := by omega
            subst this; simp [exportAux, mpz_import]
  | succ f ih =>
    intro n hn
    by_cases hne : n = 0
    · subst hne; simp [exportAux, mpz_import]
    · simp only [exportAux, if_neg hne, mpz_import]
      rw [ih (n / 256) (by omega)]
      omega

theorem import_append_zero (l : List Nat) : mpz_import (l ++ [0]) = mpz_import l := by
  induction l with
  | nil => simp [mpz_import]
  | cons a l ih => simp [mpz_import, ih]


theorem writeAt_zero (buf bytes : List Nat) :
    writeAt buf 0 bytes = bytes ++ buf.drop bytes.length := by
  simp [writeAt]

theorem allocBuffer_length (junk : Nat → Nat) (size : Nat) :
    (allocBuffer junk size).length = size := by
  simp [allocBuffer]

theorem drop_of_length_succ (l : List Nat) (k : Nat) (h : l.length = k + 1) :
    ∃ v, l.drop k = [v] := by
  refine ⟨l.get ⟨k, by omega⟩, ?_⟩
  rw [List.drop_eq_getElem_cons (by omega)]
  simp [List.drop_eq_nil_of_le, h]

theorem str2mpz_append_ff (l : List Nat) :
    str2mpz (l ++ [0xFF]) = Outcome.ok (-((mpz_import l : Nat) : Int)) := by
  simp [str2mpz]

theorem str2mpz_of_last (l : List Nat) (v : Nat) (h : l.getLast? = some v) (hv : v ≠ 0xFF) :
    str2mpz l = Outcome.ok ((mpz_import l : Nat) : Int) := by
  simp [str2mpz, h, hv]

theorem str2mpz_append_zero (l : List Nat) :
    str2mpz (l ++ [0]) = Outcome.ok ((mpz_import l : Nat) : Int) := by
  rw [str2mpz_of_last (l ++ [0]) 0 (by simp) (by decide), import_append_zero]

theorem set_append_singleton (l : List Nat) (v s : Nat) :
    (l ++ [v]).set l.length s = l ++ [s] := by
  induction l with
  | nil => simp
  | cons a l ih => simp [ih]

theorem export_length (n : Nat) (hn : n ≠ 0) :
    (mpz_export n).length = (mpz_sizeinbase2 n + 7) / 8 ∧
      ∃ v, (mpz_export n).getLast? = some v ∧ (mpz_sizeinbase2 n % 8 ≠ 0 → v < 128) := by
  obtain ⟨h1, h2, h3⟩ := bitsAux_spec n n le_rfl hn
  simp only [mpz_sizeinbase2, if_neg hn, mpz_export]
  generalize bitsAux n n = L at h1 h2 h3
  have hk : ∃ k, (L + 7) / 8 = k + 1 := ⟨(L + 7) / 8 - 1, by omega⟩
  obtain ⟨k, hk⟩ := hk
  have e256 : ∀ j : Nat, (256 : Nat) ^ j = 2 ^ (8 * j) := by
    intro j
    rw [pow_mul]
    norm_num
  have hlo : 256 ^ k ≤ n := by
    rw [e256]
    exact le_trans (Nat.pow_le_pow_right (by norm_num) (by omega)) h1
  have hhi : n < 256 ^ (k + 1) := by
    rw [e256]
    exact lt_of_lt_of_le h2 (Nat.pow_le_pow_right (by norm_num) (by omega))
  obtain ⟨a, b⟩ := exportAux_spec n n k le_rfl hlo hhi
  refine ⟨by rw [a, hk], n / 256 ^ k, b, ?_⟩
  intro hmod
  have hL : L ≤ 8 * k + 7 := by omega
  have : n < 256 ^ k * 128 := by
    have h128 : (128 : Nat) = 2 ^ 7 := by norm_num
    rw [e256, h128, ← pow_add]
    exact lt_of_lt_of_le h2 (Nat.pow_le_pow_right (by norm_num) hL)
  rw [Nat.div_lt_iff_lt_mul (by positivity)]
  rw [Nat.mul_comm]
  exact this

/-- The bytes `mpz2binary` produces, spelled out: the exported magnitude followed by the
sign byte when one is needed. -/
theorem mpz2binary_eq (junk : Nat → Nat) (x : Int) (hx : x ≠ 0) :
    mpz2binary junk x =
      mpz_export x.natAbs ++
        (if x < 0 then [0xff] else if mpz_sizeinbase2 x.natAbs % 8 = 0 then [0x00] else []) := by
  have hn : x.natAbs ≠ 0 := by omega
  obtain ⟨hlen, -⟩ := export_length x.natAbs hn
  have hpos : 0 < (mpz_export x.natAbs).length := by
    have := (bitsAux_spec x.natAbs x.natAbs le_rfl hn).2.2
    simp only [mpz_sizeinbase2, if_neg hn] at hlen
    omega
  simp only [mpz2binary, writeAt_zero]
  rw [← hlen]
  by_cases hneg : x < 0
  · simp only [hneg, decide_True, Bool.true_or, if_true]
    obtain ⟨v, hv⟩ := drop_of_length_succ ((allocBuffer junk ((mpz_export x.natAbs).length + 1)).set 0 0)
      (mpz_export x.natAbs).length (by simp [allocBuffer_length])
    rw [hv, if_pos (Nat.lt_succ_self _), set_append_singleton]
  · by_cases hz : mpz_sizeinbase2 x.natAbs % 8 = 0
    · simp only [hneg, decide_False, Bool.false_or, hz, beq_self_eq_true, if_true, if_false]
      obtain ⟨v, hv⟩ := drop_of_length_succ ((allocBuffer junk ((mpz_export x.natAbs).length + 1)).set 0 0)
        (mpz_export x.natAbs).length (by simp [allocBuffer_length])
      rw [hv, if_pos (Nat.lt_succ_self _), set_append_singleton]
      simp
    · have hb : (mpz_sizeinbase2 x.natAbs % 8 == 0) = false := by simpa using hz
      simp only [hneg, decide_False, Bool.false_or, hb, hz, if_false, lt_irrefl]
      rw [List.drop_eq_nil_of_le (by simp [allocBuffer_length])]
      simp

/-- C1. Parsing the base-256 binary string that `mpz2binary` builds for an integer `x`
(zero, positive or negative, whatever the allocator left in the buffer) with the
base-256 branch of `str2mpz` gives back `x`. -/
theorem mpz_binary_roundtrip (junk : Nat → Nat) (x : Int) :
    str2mpz (mpz2binary junk x) = Outcome.ok x := by
  by_cases hx : x = 0
  · subst hx
    simp [mpz2binary, mpz_sizeinbase2, allocBuffer, writeAt, mpz_export, exportAux, str2mpz,
      mpz_import, List.range_succ]
  · have hn : x.natAbs ≠ 0 := by omega
    obtain ⟨-, v, hv, hv128⟩ := export_length x.natAbs hn
    have himp : mpz_import (mpz_export x.natAbs) = x.natAbs := import_exportAux _ _ le_rfl
    rw [mpz2binary_eq junk x hx]
    by_cases hneg : x < 0
    · rw [if_pos hneg, str2mpz_append_ff, himp]
      congr 1
      omega
    · rw [if_neg hneg]
      by_cases hz : mpz_sizeinbase2 x.natAbs % 8 = 0
      · rw [if_pos hz, str2mpz_append_zero, himp]
        congr 1
        omega
      · rw [if_neg hz, List.append_nil, str2mpz_of_last _ v hv (by have := hv128 hz; omega), himp]
        congr 1
        omega

/-! ## The mpq binary form -/

/-- C2 (failing input). The canonical rational 255/1 does not survive the round trip:
`mpq2binary` writes the numerator as the single byte `0xff` with no sign byte after
it, `str2mpz` reads that byte as the sign marker of an empty magnitude, and
`str2mpq` returns 0/1. -/
theorem mpq_binary_roundtrip_255 :
    (⟨255, 1⟩ : Mpq).canonical ∧
      ∀ junk : Nat → Nat, mpq2binary junk ⟨255, 1⟩ = [1, 0, 0, 0, 255, 1] ∧
        str2mpq (mpq2binary junk ⟨255, 1⟩) = Outcome.ok ⟨0, 1⟩ := by
  refine ⟨by decide, fun junk => ?_⟩
  have h : mpq2binary junk ⟨255, 1⟩ = [1, 0, 0, 0, 255, 1] := by
    rfl
  rw [h]
  exact ⟨rfl, by decide⟩

/-! ## The mpf binary form -/

theorem wrapInt_id (z : Int) (h0 : 0 ≤ z) (h1 : z < 2147483648) : wrapInt z = z := by
  unfold wrapInt
  omega

theorem fetch_le4 (v : Nat) (hv : v < 2147483648) :
    wrapInt (wrapInt (wrapInt (wrapInt (0 * 256 + ((v / 16777216 % 256 : Nat) : Int)) * 256 +
      ((v / 65536 % 256 : Nat) : Int)) * 256 + ((v / 256 % 256 : Nat) : Int)) * 256 +
      ((v % 256 : Nat) : Int)) = (v : Int) := by
  have e1 : (0 : Int) * 256 + ((v / 16777216 % 256 : Nat) : Int) = ((v / 16777216 : Nat) : Int) := by
    omega
  have e2 : ((v / 16777216 : Nat) : Int) * 256 + ((v / 65536 % 256 : Nat) : Int)
      = ((v / 65536 : Nat) : Int) := by
    omega
  have e3 : ((v / 65536 : Nat) : Int) * 256 + ((v / 256 % 256 : Nat) : Int)
      = ((v / 256 : Nat) : Int) := by
    omega
  have e4 : ((v / 256 : Nat) : Int) * 256 + ((v % 256 : Nat) : Int) = (v : Int) := by
    omega
  rw [e1, wrapInt_id ((v / 16777216 : Nat) : Int) (by omega) (by omega), e2,
    wrapInt_id ((v / 65536 : Nat) : Int) (by omega) (by omega), e3,
    wrapInt_id ((v / 256 : Nat) : Int) (by omega) (by omega), e4,
    wrapInt_id (v : Int) (by omega) (by omega)]

theorem foldl_four {α : Type} (f : α → Nat → α) (a : α) (i j k l : Nat) :
    List.foldl f a [i, j, k, l] = f (f (f (f a i) j) k) l := rfl

theorem mpfSet_rebits (ob : PympfObject) (neg : Bool) (ds : List Nat) (e : Int) :
    (mpfSet ob neg ds e).rebits = ob.rebits := by
  simp only [mpfSet]
  split <;> rfl

theorem packDigits_succ (buffer : List Nat) (n j : Nat) :
    ∃ b tl, packDigits buffer (n + 1) j = b :: tl :=
  ⟨_, _, rfl⟩

/-- Shape of the output of `mpf2binary` for a nonzero value: code byte 8..11, precision,
exponent, and at least one mantissa byte. -/
theorem mpf2binary_nonzero (x : PympfObject) (hs : x.sign ≠ 0) (hd : x.digits ≠ []) :
    ∃ (c : Nat) (e : Nat) (m : List Nat), (c = 8 ∨ c = 9 ∨ c = 10 ∨ c = 11) ∧
      mpf2binary x = c :: (le4 x.rebits ++ (le4 e ++ m)) ∧ 1 ≤ m.length := by
  have hlen : 1 ≤ x.digits.length := by
    cases h : x.digits with
    | nil => exact absurd h hd
    | cons a l => simp
  have hc : ∃ c : Nat, (c = 8 ∨ c = 9 ∨ c = 10 ∨ c = 11) ∧
      (if x.the_exp < 0 then (if x.sign < 0 then 1 else 0) ||| 2 else (if x.sign < 0 then 1 else 0))
        ||| 8 = c := by
    by_cases h1 : x.sign < 0 <;> by_cases h2 : x.the_exp < 0 <;> simp [h1, h2]
  obtain ⟨c, hc8, hc⟩ := hc
  simp only [mpf2binary, if_neg hs, hc]
  refine ⟨c, _, _, hc8, rfl, ?_⟩
  by_cases hodd : x.the_exp.natAbs &&& 1 ≠ 0
  · have h2 : x.the_exp.natAbs % 2 = 1 := by
      have := Nat.and_one_is_mod x.the_exp.natAbs
      omega
    simp [h2]
  · simp only [hodd, false_and, if_false, List.length_nil, Nat.sub_zero, Nat.add_zero,
      List.nil_append]
    obtain ⟨n, hn⟩ : ∃ n, (x.digits.length + 1) / 2 = n + 1 :=
      ⟨(x.digits.length + 1) / 2 - 1, by omega⟩
    rw [hn]
    simp [packDigits]

/-- C3 (amended). Re-parsing the binary form of a nonzero mpf whose stored precision `p`
satisfies `max(1, minprec) ≤ p < 2^31` gives a value with stored precision `p`; the
one-byte form of zero carries no precision and re-parses with precision
`max(1, minprec)`. The option `minprec` is below `2^31`, being set from an `int`. -/
theorem mpf_binary_precision_roundtrip (opts : Options) (x : PympfObject)
    (hopt : opts.minprec < 2147483648)
    (hx : x.sign ≠ 0 →
      x.digits ≠ [] ∧ 1 ≤ x.rebits ∧ opts.minprec ≤ x.rebits ∧ x.rebits < 2147483648) :
    ∃ v, str2mpf opts (mpf2binary x) 0 = Outcome.ok v ∧
      v.rebits = if x.sign = 0 then max 1 opts.minprec else x.rebits := by
  by_cases hs : x.sign = 0
  · have hb : mpf2binary x = [4] := by simp [mpf2binary, hs]
    rw [hb, if_pos hs]
    refine ⟨Pympf_new opts 1, ?_, ?_⟩
    · simp [str2mpf, str2mpf_precision, wrapInt]
    · simp only [Pympf_new]
      split <;> omega
  · obtain ⟨hd, h1, hmin, hmax⟩ := hx hs
    obtain ⟨c, e, m, hc, hb, hm⟩ := mpf2binary_nonzero x hs hd
    rw [hb, if_neg hs]
    have hc4 : c &&& 4 = 0 := by
      rcases hc with h | h | h | h <;> subst h <;> decide
    have hc8 : c &&& 8 ≠ 0 := by
      rcases hc with h | h | h | h <;> subst h <;> decide
    have hprec : str2mpf_precision (c :: (le4 x.rebits ++ (le4 e ++ m))) 0 = (x.rebits : Int) := by
      simp only [str2mpf_precision, le4, List.cons_append, List.nil_append, lt_irrefl, if_false,
        List.length_cons, List.getD_cons_zero, hc8, ne_eq, not_false_eq_true, if_true]
      rw [foldl_four]
      simp only [List.getD_cons_succ, List.getD_cons_zero]
      rw [fetch_le4 x.rebits hmax]
      split_ifs <;> first | rfl | omega
    have hnew : Pympf_new opts (((x.rebits : Int) % 4294967296).toNat) =
        { sign := 0, digits := [], the_exp := 0, rebits := x.rebits } := by
      have : ((x.rebits : Int) % 4294967296).toNat = x.rebits := by omega
      rw [this]
      simp only [Pympf_new]
      rw [if_neg (by omega)]
    simp only [str2mpf, hprec, hnew]
    simp only [List.cons_append, List.getD_cons_zero, hc4, hc8, ne_eq,
      not_true_eq_false, not_false_eq_true, if_true, if_false, le4, List.length_cons,
      List.nil_append]
    rw [if_neg (by omega)]
    exact ⟨_, rfl, mpfSet_rebits _ _ _ _⟩

/-- C3 (witness). The amended round trip at the value `-0x0.123 × 16^-3` with 100 bits. -/
theorem mpf_binary_precision_roundtrip_witness :
    ∃ v, str2mpf initOptions (mpf2binary ⟨-1, [1, 2, 3], -3, 100⟩) 0 = Outcome.ok v ∧
      v.rebits = if (⟨-1, [1, 2, 3], -3, 100⟩ : PympfObject).sign = 0 then max 1 initOptions.minprec
        else (⟨-1, [1, 2, 3], -3, 100⟩ : PympfObject).rebits :=
  mpf_binary_precision_roundtrip initOptions ⟨-1, [1, 2, 3], -3, 100⟩ (by decide)
    (fun _ => by decide)

/-- C3 (counterexample). A zero mpf created with 100 bits of precision is serialised as the
single byte 4, and under the initial options the re-parsed value has precision 53,
not 100. -/
theorem mpf_binary_precision_zero_lost :
    mpf2binary ⟨0, [], 0, 100⟩ = [4] ∧
      str2mpf initOptions (mpf2binary ⟨0, [], 0, 100⟩) 0 = Outcome.ok ⟨0, [], 0, 53⟩ ∧
      ¬ ∃ v, str2mpf initOptions (mpf2binary ⟨0, [], 0, 100⟩) 0 = Outcome.ok v ∧ v.rebits = 100 := by
  have h : str2mpf initOptions (mpf2binary ⟨0, [], 0, 100⟩) 0 = Outcome.ok ⟨0, [], 0, 53⟩ := by
    decide
  refine ⟨by decide, h, ?_⟩
  rintro ⟨v, hv, hr⟩
  rw [h] at hv
  injection hv with hv
  subst hv
  exact absurd hr (by decide)

/-! ## Integer division wrappers -/

theorem fmod_bounds (a b : Int) :
    (0 < b → 0 ≤ Int.fmod a b ∧ Int.fmod a b < b) ∧ (b < 0 → b < Int.fmod a b ∧ Int.fmod a b ≤ 0) := by
  refine ⟨fun hb => ⟨Int.fmod_nonneg' a hb, Int.fmod_lt_of_pos a hb⟩, fun hb => ?_⟩
  rcases b with n | n
  · exfalso
    have : (0 : Int) ≤ Int.ofNat n := Int.ofNat_nonneg n
    omega
  · rcases a with m | m
    · rcases m with _ | m
      · simp only [Int.fmod, Int.negSucc_eq]
        omega
      · have h := Nat.mod_lt m (Nat.succ_pos n)
        simp only [Int.fmod, Int.subNatNat_eq_coe, Int.negSucc_eq]
        generalize m % n.succ = r at h ⊢
        omega
    · have h := Nat.mod_lt m.succ (Nat.succ_pos n)
      simp only [Int.fmod, Int.negSucc_eq, Int.ofNat_eq_coe]
      generalize m.succ % n.succ = r at h ⊢
      omega

theorem tmod_bounds (a b : Int) (hb : b ≠ 0) :
    -|b| < Int.tmod a b ∧ Int.tmod a b < |b| ∧ (0 ≤ a → 0 ≤ Int.tmod a b) ∧
      (a < 0 → Int.tmod a b ≤ 0) := by
  rcases b with n | n <;> rcases a with m | m
  · have hn : 0 < n := by
      rcases n with _ | n
      · exact absurd rfl hb
      · exact Nat.succ_pos n
    have h := Nat.mod_lt m hn
    have e : |Int.ofNat n| = (n : Int) := abs_of_nonneg (Int.ofNat_nonneg n)
    simp only [Int.tmod, Int.ofNat_eq_coe] at e ⊢
    rw [e]
    generalize m % n = r at h ⊢
    omega
  · have hn : 0 < n := by
      rcases n with _ | n
      · exact absurd rfl hb
      · exact Nat.succ_pos n
    have h := Nat.mod_lt m.succ hn
    have e : |Int.ofNat n| = (n : Int) := abs_of_nonneg (Int.ofNat_nonneg n)
    simp only [Int.tmod, Int.ofNat_eq_coe, Int.negSucc_eq] at e ⊢
    rw [e]
    generalize m.succ % n = r at h ⊢
    omega
  · have h := Nat.mod_lt m (Nat.succ_pos n)
    have e : |Int.negSucc n| = (n : Int) + 1 := by
      rw [abs_of_neg (Int.negSucc_lt_zero n), Int.negSucc_eq]
      omega
    simp only [Int.tmod, Int.ofNat_eq_coe] at e ⊢
    rw [e]
    generalize m % n.succ = r at h ⊢
    omega
  · have h := Nat.mod_lt m.succ (Nat.succ_pos n)
    have e : |Int.negSucc n| = (n : Int) + 1 := by
      rw [abs_of_neg (Int.negSucc_lt_zero n), Int.negSucc_eq]
      omega
    simp only [Int.tmod, Int.ofNat_eq_coe, Int.negSucc_eq] at e ⊢
    generalize m.succ % n.succ = r at h ⊢
    omega

theorem sign_eq_of_pos {r b : Int} (h0 : 0 < r) (hb : 0 < b) : Int.sign r = Int.sign b := by
  rw [Int.sign_eq_one_of_pos h0, Int.sign_eq_one_of_pos hb]

theorem sign_eq_of_neg {r b : Int} (h0 : r < 0) (hb : b < 0) : Int.sign r = Int.sign b := by
  rw [Int.sign_eq_neg_one_of_neg h0, Int.sign_eq_neg_one_of_neg hb]

theorem sign_eq_neg_of_pos_neg {r b : Int} (h0 : 0 < r) (hb : b < 0) :
    Int.sign r = -Int.sign b := by
  rw [Int.sign_eq_one_of_pos h0, Int.sign_eq_neg_one_of_neg hb]
  rfl

theorem sign_eq_neg_of_neg_pos {r b : Int} (h0 : r < 0) (hb : 0 < b) :
    Int.sign r = -Int.sign b := by
  rw [Int.sign_eq_neg_one_of_neg h0, Int.sign_eq_one_of_pos hb]

/-- C4. For a nonzero divisor each of `fdivmod`, `cdivmod` and `tdivmod` returns `(q, r)` with
`q * b + r = a` and `|r| < |b|`; the remainder is zero or has the sign of `b` (floor),
the opposite sign of `b` (ceiling), the sign of `a` (truncate); `fdivmod(10, -3)` is
`(-4, -2)`. -/
theorem divmod_conventions (a b : Int) (hb : b ≠ 0) :
    (∃ q r, Pympz_fdivmod a b = Outcome.ok (q, r) ∧ q * b + r = a ∧ |r| < |b| ∧
        (r = 0 ∨ Int.sign r = Int.sign b)) ∧
      (∃ q r, Pympz_cdivmod a b = Outcome.ok (q, r) ∧ q * b + r = a ∧ |r| < |b| ∧
        (r = 0 ∨ Int.sign r = -Int.sign b)) ∧
      (∃ q r, Pympz_tdivmod a b = Outcome.ok (q, r) ∧ q * b + r = a ∧ |r| < |b| ∧
        (r = 0 ∨ Int.sign r = Int.sign a)) ∧
      Pympz_fdivmod 10 (-3) = Outcome.ok (-4, -2) := by
  refine ⟨?_, ?_, ?_, by decide⟩
  · refine ⟨Int.fdiv a b, Int.fmod a b, by simp [Pympz_fdivmod, mpz_fdiv_qr, hb, ofKernel], ?_, ?_, ?_⟩
    · have := Int.fmod_add_fdiv a b
      linarith [mul_comm b (Int.fdiv a b)]
    · obtain ⟨h1, h2⟩ := fmod_bounds a b
      rcases lt_or_gt_of_ne hb with h | h
      · have := h2 h
        rw [abs_lt, abs_of_neg h]
        omega
      · have := h1 h
        rw [abs_lt, abs_of_pos h]
        omega
    · obtain ⟨h1, h2⟩ := fmod_bounds a b
      by_cases hr : Int.fmod a b = 0
      · exact Or.inl hr
      · right
        rcases lt_or_gt_of_ne hb with h | h
        · exact sign_eq_of_neg (by have := h2 h; omega) h
        · exact sign_eq_of_pos (by have := h1 h; omega) h
  · have hr : a - -(Int.fdiv (-a) b) * b = -(Int.fmod (-a) b) := by
      have := Int.fmod_add_fdiv (-a) b
      linarith [mul_comm b (Int.fdiv (-a) b)]
    refine ⟨-(Int.fdiv (-a) b), -(Int.fmod (-a) b), ?_, ?_, ?_, ?_⟩
    · simp only [Pympz_cdivmod, mpz_cdiv_qr, if_neg hb, ofKernel, hr]
    · rw [← hr]
      ring
    · obtain ⟨h1, h2⟩ := fmod_bounds (-a) b
      rcases lt_or_gt_of_ne hb with h | h
      · have := h2 h
        rw [abs_lt, abs_of_neg h]
        omega
      · have := h1 h
        rw [abs_lt, abs_of_pos h]
        omega
    · obtain ⟨h1, h2⟩ := fmod_bounds (-a) b
      by_cases hz : -(Int.fmod (-a) b) = 0
      · exact Or.inl hz
      · right
        rcases lt_or_gt_of_ne hb with h | h
        · exact sign_eq_neg_of_pos_neg (by have := h2 h; omega) h
        · exact sign_eq_neg_of_neg_pos (by have := h1 h; omega) h
  · obtain ⟨h1, h2, h3, h4⟩ := tmod_bounds a b hb
    refine ⟨Int.tdiv a b, Int.tmod a b, by simp [Pympz_tdivmod, mpz_tdiv_qr, hb, ofKernel], ?_, ?_, ?_⟩
    · have := Int.tmod_add_tdiv a b
      linarith [mul_comm b (Int.tdiv a b)]
    · rw [abs_lt]
      exact ⟨h1, h2⟩
    · by_cases hz : Int.tmod a b = 0
      · exact Or.inl hz
      · right
        rcases lt_trichotomy a 0 with h | h | h
        · exact sign_eq_of_neg (by have := h4 h; omega) h
        · subst h
          simp at hz
        · exact sign_eq_of_pos (by have := h3 (le_of_lt h); omega) h

/-- C4 (witness). The three conventions at `a = -7`, `b = 2`. -/
theorem divmod_conventions_witness :
    (∃ q r, Pympz_fdivmod (-7) 2 = Outcome.ok (q, r) ∧ q * 2 + r = -7 ∧ |r| < |(2 : Int)| ∧
        (r = 0 ∨ Int.sign r = Int.sign 2)) ∧
      (∃ q r, Pympz_cdivmod (-7) 2 = Outcome.ok (q, r) ∧ q * 2 + r = -7 ∧ |r| < |(2 : Int)| ∧
        (r = 0 ∨ Int.sign r = -Int.sign 2)) ∧
      (∃ q r, Pympz_tdivmod (-7) 2 = Outcome.ok (q, r) ∧ q * 2 + r = -7 ∧ |r| < |(2 : Int)| ∧
        (r = 0 ∨ Int.sign r = Int.sign (-7))) ∧
      Pympz_fdivmod 10 (-3) = Outcome.ok (-4, -2) :=
  divmod_conventions (-7) 2 (by decide)

/-- C5 (failing input). With a zero divisor the four functions of `gmpy_mpz.c` reach the GMP
kernel, which has no result for it, and raise nothing; the operators `//`, `%` and
`divmod` test the divisor first and raise `ZeroDivisionError`. -/
theorem divmod_by_zero (a : Int) :
    Pympz_cdivmod a 0 = Outcome.fault ∧ Pympz_fdivmod a 0 = Outcome.fault ∧
      Pympz_tdivmod a 0 = Outcome.fault ∧ Pympz_divexact a 0 = Outcome.fault ∧
      Pympz_div a 0 = Outcome.raise PyExc.ZeroDivisionError ∧
      Pympz_rem a 0 = Outcome.raise PyExc.ZeroDivisionError ∧
      Pympz_divmod a 0 = Outcome.raise PyExc.ZeroDivisionError := by
  simp [Pympz_cdivmod, Pympz_fdivmod, Pympz_tdivmod, Pympz_divexact, Pympz_div, Pympz_rem,
    Pympz_divmod, MPZ_DIVOP, mpz_cdiv_qr, mpz_fdiv_qr, mpz_tdiv_qr, mpz_divexact, ofKernel]

/-! ## Rational powers -/

theorem canonical_pow (r : Mpq) (k : Nat) (hc : r.canonical) :
    (⟨r.num ^ k, r.den ^ k⟩ : Mpq).canonical := by
  obtain ⟨hd, hg⟩ := hc
  refine ⟨pow_pos hd k, ?_⟩
  show Int.gcd (r.num ^ k) (r.den ^ k) = 1
  rw [Int.gcd_eq_natAbs, Int.natAbs_pow, Int.natAbs_pow]
  rw [Int.gcd_eq_natAbs] at hg
  exact Nat.Coprime.pow k k hg

theorem canonical_swap (b : Mpq) (hc : b.canonical) (hn : b.num ≠ 0) :
    (⟨if Int.sign b.num < 0 then -b.den else b.den, |b.num|⟩ : Mpq).canonical := by
  obtain ⟨hd, hg⟩ := hc
  refine ⟨abs_pos.mpr hn, ?_⟩
  show Int.gcd (if Int.sign b.num < 0 then -b.den else b.den) |b.num| = 1
  rw [Int.gcd_eq_natAbs] at hg ⊢
  rw [Int.natAbs_abs, Nat.gcd_comm]
  split_ifs
  · rw [Int.natAbs_neg]
    exact hg
  · exact hg

/-- What `mpz_root` returns on a non-negative operand for a positive root index: the greatest
natural number whose power does not exceed the operand, and whether the power is equal to it. -/
theorem mpz_root_nonneg (op : Int) (n : Nat) (hop : 0 ≤ op) (hn : n ≠ 0) :
    ∃ t : Nat, mpz_root op n = some ((t : Int), decide (t ^ n = op.natAbs)) ∧
      t ^ n ≤ op.natAbs ∧ ∀ s : Nat, s ^ n ≤ op.natAbs → s ≤ t := by
  refine ⟨Nat.findGreatest (fun r => r ^ n ≤ op.natAbs) op.natAbs, ?_, ?_, ?_⟩
  · simp only [mpz_root, if_neg hn]
    rw [if_neg (by omega), if_neg (by omega)]
  · have h0 : (fun r => r ^ n ≤ op.natAbs) 0 := by
      show 0 ^ n ≤ op.natAbs
      rw [zero_pow hn]
      exact Nat.zero_le _
    exact Nat.findGreatest_spec (P := fun r => r ^ n ≤ op.natAbs) (Nat.zero_le _) h0
  · intro s hs
    have hle : s ≤ op.natAbs := le_trans (Nat.le_self_pow hn s) hs
    exact Nat.le_findGreatest hle hs

theorem root_stage_canonical (r2 : Mpq) (k : Nat) (hk : 1 < k) (hc : r2.canonical) (res : Mpq)
    (h : (if Int.sign r2.num < 0 then Outcome.raise PyExc.ValueError
          else
            match mpz_root r2.num k with
            | none => Outcome.fault
            | some (temp, exact) =>
              if exact then
                match mpz_root r2.den k with
                | none => Outcome.fault
                | some (temp2, exact2) =>
                  if exact2 then Outcome.ok ⟨temp, temp2⟩ else Outcome.raise PyExc.ValueError
              else Outcome.raise PyExc.ValueError) = Outcome.ok res) :
    res.canonical := by
  obtain ⟨hd, hg⟩ := hc
  split_ifs at h with hs
  have hnum : 0 ≤ r2.num := by
    by_contra hneg
    exact hs (by rw [Int.sign_eq_neg_one_of_neg (by omega)]; decide)
  obtain ⟨t1, e1, p1, -⟩ := mpz_root_nonneg r2.num k hnum (by omega)
  obtain ⟨t2, e2, p2, -⟩ := mpz_root_nonneg r2.den k (le_of_lt hd) (by omega)
  rw [e1] at h
  simp only at h
  split_ifs at h with hx1
  rw [e2] at h
  simp only at h
  split_ifs at h with hx2
  injection h with h
  subst h
  have q1 : t1 ^ k = r2.num.natAbs := by simpa using hx1
  have q2 : t2 ^ k = r2.den.natAbs := by simpa using hx2
  have hden : r2.den.natAbs ≠ 0 := by omega
  refine ⟨?_, ?_⟩
  · show (0 : Int) < (t2 : Int)
    have : t2 ≠ 0 := by
      intro h0
      rw [h0, zero_pow (by omega)] at q2
      exact hden q2.symm
    omega
  · show Int.gcd (t1 : Int) (t2 : Int) = 1
    rw [Int.gcd_eq_natAbs] at hg ⊢
    rw [Int.natAbs_ofNat, Int.natAbs_ofNat]
    rw [← q1, ← q2] at hg
    exact (Nat.coprime_pow_left_iff (by omega) _ _).mp
      ((Nat.coprime_pow_right_iff (by omega) _ _).mp hg)

/-- C6. Whenever `Pympq_pow` returns a value for a canonical base, the value is canonical: its
denominator is positive and coprime to its numerator, also for a negative exponent
(numerator and denominator swapped by hand) and after the root step. -/
theorem mpq_pow_canonical (b e : Mpq) (m : Option Int) (r : Mpq) (hb : b.canonical)
    (h : Pympq_pow b e m = Outcome.ok r) : r.canonical := by
  unfold Pympq_pow at h
  by_cases h1 : m.isSome = true
  · rw [if_pos h1] at h
    cases h
  rw [if_neg h1] at h
  by_cases h2 : notanint e.num = true
  · rw [if_pos h2] at h
    cases h
  rw [if_neg h2] at h
  by_cases h3 : notanint e.den = true
  · rw [if_pos h3] at h
    cases h
  rw [if_neg h3] at h
  dsimp only at h
  by_cases h4 : Int.sign e.num = 0
  · rw [if_pos h4] at h
    injection h with h
    subst h
    decide
  rw [if_neg h4] at h
  by_cases h5 : Int.sign e.num < 0 ∧ Int.sign b.num = 0
  · rw [if_pos h5] at h
    cases h
  rw [if_neg h5] at h
  have hr0 : (if Int.sign e.num < 0 then
      (⟨if Int.sign b.num < 0 then -b.den else b.den, |b.num|⟩ : Mpq) else b).canonical := by
    by_cases hneg : Int.sign e.num < 0
    · rw [if_pos hneg]
      refine canonical_swap b hb ?_
      intro h0
      exact h5 ⟨hneg, by rw [h0]; rfl⟩
    · rw [if_neg hneg]
      exact hb
  generalize (if Int.sign e.num < 0 then
      (⟨if Int.sign b.num < 0 then -b.den else b.den, |b.num|⟩ : Mpq) else b) = r0 at h hr0
  generalize (if Int.sign e.num < 0 then toULong (-mpz_get_si e.num) else mpz_get_ui e.num) = u at h
  have hr2 : (if u > 1 then (⟨r0.num ^ u, r0.den ^ u⟩ : Mpq) else r0).canonical := by
    split_ifs
    · exact canonical_pow r0 u hr0
    · exact hr0
  generalize (if u > 1 then (⟨r0.num ^ u, r0.den ^ u⟩ : Mpq) else r0) = r2 at h hr2
  by_cases h6 : mpz_get_ui e.den > 1
  · rw [if_pos h6] at h
    exact root_stage_canonical r2 _ h6 hr2 r h
  · rw [if_neg h6] at h
    injection h with h
    subst h
    exact hr2

/-- C6 (witness). The base 4/9 raised to -1/2: the result 3/2 is canonical. -/
theorem mpq_pow_canonical_witness :
    (⟨4, 9⟩ : Mpq).canonical ∧ Pympq_pow ⟨4, 9⟩ ⟨-1, 2⟩ none = Outcome.ok ⟨3, 2⟩ ∧
      (⟨3, 2⟩ : Mpq).canonical :=
  ⟨by decide, by decide, mpq_pow_canonical ⟨4, 9⟩ ⟨-1, 2⟩ none ⟨3, 2⟩ (by decide) (by decide)⟩

theorem toRat_pow (r : Mpq) (k : Nat) :
    (⟨r.num ^ k, r.den ^ k⟩ : Mpq).toRat = r.toRat ^ k := by
  simp only [Mpq.toRat]
  push_cast
  rw [div_pow]

theorem toRat_swap (b : Mpq) (hn : b.num ≠ 0) :
    (⟨if Int.sign b.num < 0 then -b.den else b.den, |b.num|⟩ : Mpq).toRat = (b.toRat)⁻¹ := by
  simp only [Mpq.toRat]
  rw [inv_div]
  rcases lt_or_gt_of_ne hn with h | h
  · rw [if_pos (by rw [Int.sign_eq_neg_one_of_neg h]; decide), abs_of_neg h]
    push_cast
    rw [neg_div_neg_eq]
  · rw [if_neg (by rw [Int.sign_eq_one_of_pos h]; decide), abs_of_pos h]

theorem fits_slong_iff (z : Int) :
    mpz_fits_slong_p z = true ↔ -9223372036854775808 ≤ z ∧ z ≤ 9223372036854775807 := by
  simp [mpz_fits_slong_p]

/-- The exponent count `ultem` that drives `mpz_pow_ui` is the magnitude of the exponent's numerator. -/
theorem ultem_eq (p : Int) (hp : mpz_fits_slong_p p = true) :
    (if Int.sign p < 0 then toULong (-mpz_get_si p) else mpz_get_ui p) = p.natAbs := by
  have hf := (fits_slong_iff p).mp hp
  by_cases hneg : Int.sign p < 0
  · rw [if_pos hneg]
    have hp0 : p < 0 := by
      by_contra hge
      have := Int.sign_nonneg.mpr (not_lt.mp hge)
      omega
    simp only [toULong, mpz_get_si, if_pos hp]
    omega
  · rw [if_neg hneg]
    simp only [mpz_get_ui]
    omega

/-- The base after the swap for a negative exponent and after `mpz_pow_ui`: canonical, and
equal to the base raised to the numerator of the exponent. -/
theorem pow_stage (b e : Mpq) (hb : b.canonical)
    (hne : e.num ≠ 0) (h0 : e.num < 0 → b.num ≠ 0) (r0 r2 : Mpq)
    (hr0 : r0 = if Int.sign e.num < 0 then
      (⟨if Int.sign b.num < 0 then -b.den else b.den, |b.num|⟩ : Mpq) else b)
    (hr2 : r2 = if e.num.natAbs > 1 then (⟨r0.num ^ e.num.natAbs, r0.den ^ e.num.natAbs⟩ : Mpq)
      else r0) :
    r2.canonical ∧ r2.toRat = b.toRat ^ e.num := by
  have hpos : 1 ≤ e.num.natAbs := by omega
  have hc0 : r0.canonical ∧ r0.toRat ^ e.num.natAbs = b.toRat ^ e.num := by
    rcases lt_or_gt_of_ne hne with h | h
    · have hs : Int.sign e.num < 0 := by rw [Int.sign_eq_neg_one_of_neg h]; decide
      rw [if_pos hs] at hr0
      subst hr0
      refine ⟨canonical_swap b hb (h0 h), ?_⟩
      rw [toRat_swap b (h0 h)]
      have : e.num = -((e.num.natAbs : Nat) : Int) := by omega
      conv_rhs => rw [this]
      rw [zpow_neg, zpow_natCast, inv_pow]
    · have hs : ¬ Int.sign e.num < 0 := by rw [Int.sign_eq_one_of_pos h]; decide
      rw [if_neg hs] at hr0
      subst hr0
      refine ⟨hb, ?_⟩
      have : e.num = ((e.num.natAbs : Nat) : Int) := by omega
      conv_rhs => rw [this]
      rw [zpow_natCast]
  obtain ⟨hc, ht⟩ := hc0
  by_cases hu : e.num.natAbs > 1
  · rw [if_pos hu] at hr2
    subst hr2
    exact ⟨canonical_pow r0 _ hc, by rw [toRat_pow, ht]⟩
  · rw [if_neg hu] at hr2
    subst hr2
    have h1 : e.num.natAbs = 1 := by omega
    rw [h1, pow_one] at ht
    exact ⟨hc, ht⟩

theorem canonical_num_den (r : Mpq) (hc : r.canonical) :
    r.toRat.num = r.num ∧ (r.toRat.den : Int) = r.den := by
  obtain ⟨hd, hg⟩ := hc
  rw [Int.gcd_eq_natAbs] at hg
  simp only [Mpq.toRat]
  exact ⟨Rat.num_div_eq_of_coprime hd hg, Rat.den_div_eq_of_coprime hd hg⟩

theorem root_exact_iff (N k t : Nat) (hk : k ≠ 0) (ht : t ^ k ≤ N)
    (hmax : ∀ s : Nat, s ^ k ≤ N → s ≤ t) : (∃ s : Nat, s ^ k = N) ↔ t ^ k = N := by
  constructor
  · rintro ⟨s, hs⟩
    have h1 : s ≤ t := hmax s (le_of_eq hs)
    have h2 : t ≤ s := by
      rw [← hs] at ht
      exact (Nat.pow_le_pow_iff_left hk).mp ht
    have : t = s := le_antisymm h2 h1
    rw [this, hs]
  · intro h
    exact ⟨t, h⟩

theorem natCast_pow_eq_iff (s k : Nat) (z : Int) (hz : 0 ≤ z) :
    ((s : Int) ^ k = z) ↔ s ^ k = z.natAbs := by
  constructor
  · intro h
    have : ((s ^ k : Nat) : Int) = z := by push_cast; exact h
    omega
  · intro h
    have : ((s ^ k : Nat) : Int) = z := by omega
    rw [← this]
    push_cast
    rfl

/-- The root step of `Pympq_pow` on a value `r2` with positive denominator: it returns the
pair of exact roots when `r2` is not negative and both roots exist, and raises `ValueError`
in every other case. -/
theorem root_stage_spec (r2 : Mpq) (k : Nat) (hk : 1 < k) (hd : 0 < r2.den) :
    ((0 ≤ r2.num ∧ ∃ s t : Nat, (s : Int) ^ k = r2.num ∧ (t : Int) ^ k = r2.den) →
      ∃ s t : Nat, ((s : Int) ^ k = r2.num ∧ (t : Int) ^ k = r2.den) ∧
        (if Int.sign r2.num < 0 then Outcome.raise PyExc.ValueError
          else
            match mpz_root r2.num k with
            | none => Outcome.fault
            | some (temp, exact) =>
              if exact then
                match mpz_root r2.den k with
                | none => Outcome.fault
                | some (temp2, exact2) =>
                  if exact2 then Outcome.ok (⟨temp, temp2⟩ : Mpq) else Outcome.raise PyExc.ValueError
              else Outcome.raise PyExc.ValueError) = Outcome.ok ⟨(s : Int), (t : Int)⟩) ∧
    (¬ (0 ≤ r2.num ∧ ∃ s t : Nat, (s : Int) ^ k = r2.num ∧ (t : Int) ^ k = r2.den) →
        (if Int.sign r2.num < 0 then Outcome.raise PyExc.ValueError
          else
            match mpz_root r2.num k with
            | none => Outcome.fault
            | some (temp, exact) =>
              if exact then
                match mpz_root r2.den k with
                | none => Outcome.fault
                | some (temp2, exact2) =>
                  if exact2 then Outcome.ok (⟨temp, temp2⟩ : Mpq) else Outcome.raise PyExc.ValueError
              else Outcome.raise PyExc.ValueError) = Outcome.raise PyExc.ValueError) := by
  by_cases hneg : Int.sign r2.num < 0
  · have hlt : r2.num < 0 := by
      by_contra hge
      have := Int.sign_nonneg.mpr (not_lt.mp hge)
      omega
    rw [if_pos hneg]
    exact ⟨fun h => absurd h.1 (by omega), fun _ => rfl⟩
  · have hnum : 0 ≤ r2.num := by
      by_contra hlt
      exact hneg (by rw [Int.sign_eq_neg_one_of_neg (by omega)]; decide)
    rw [if_neg hneg]
    obtain ⟨t1, e1, p1, m1⟩ := mpz_root_nonneg r2.num k hnum (by omega)
    obtain ⟨t2, e2, p2, m2⟩ := mpz_root_nonneg r2.den k (le_of_lt hd) (by omega)
    have i1 := root_exact_iff r2.num.natAbs k t1 (by omega) p1 m1
    have i2 := root_exact_iff r2.den.natAbs k t2 (by omega) p2 m2
    rw [e1, e2]
    simp only
    by_cases hx1 : t1 ^ k = r2.num.natAbs
    · by_cases hx2 : t2 ^ k = r2.den.natAbs
      · simp only [hx1, hx2, decide_True, if_true]
        refine ⟨fun _ => ⟨t1, t2, ⟨?_, ?_⟩, rfl⟩, fun hno => ?_⟩
        · exact (natCast_pow_eq_iff t1 k r2.num hnum).mpr hx1
        · exact (natCast_pow_eq_iff t2 k r2.den (le_of_lt hd)).mpr hx2
        · exfalso
          exact hno ⟨hnum, t1, t2, (natCast_pow_eq_iff t1 k r2.num hnum).mpr hx1,
            (natCast_pow_eq_iff t2 k r2.den (le_of_lt hd)).mpr hx2⟩
      · simp only [hx1, hx2, decide_True, decide_False, if_true, if_false]
        refine ⟨fun h => ?_, fun _ => by simp⟩
        obtain ⟨-, s, t, -, ht⟩ := h
        exact absurd (i2.mp ⟨t, (natCast_pow_eq_iff t k r2.den (le_of_lt hd)).mp ht⟩) hx2
    · simp only [hx1, decide_False, if_false]
      refine ⟨fun h => ?_, fun _ => by simp⟩
      obtain ⟨-, s, t, hs, -⟩ := h
      exact absurd (i1.mp ⟨s, (natCast_pow_eq_iff s k r2.num hnum).mp hs⟩) hx1

/-- C7 (counterexample). The base -8 and the exponent 1/3: numerator -8 = (-2)^3 and denominator
1 = 1^3 of b^p both have exact integer cube roots, yet `Pympq_pow` raises `ValueError`. -/
theorem mpq_pow_negative_base_rejected :
    (⟨-8, 1⟩ : Mpq).canonical ∧ (⟨1, 3⟩ : Mpq).canonical ∧
      ((-2 : Int) ^ 3 = -8 ∧ (1 : Int) ^ 3 = 1) ∧
      Pympq_pow ⟨-8, 1⟩ ⟨1, 3⟩ none = Outcome.raise PyExc.ValueError := by
  decide

/-- C7 (amended). For a canonical base `b` and a canonical exponent `p/q` with `q > 1`, `p` and
`q` fitting a `long`, and `b ≠ 0` when `p < 0`: `Pympq_pow` returns a value exactly when
`b^p` is not negative and both its numerator and its denominator have exact integer
`q`-th roots, the value being the pair of non-negative roots; in every other case,
a negative `b^p` included, it raises `ValueError`. -/
theorem mpq_pow_fractional (b e : Mpq) (hb : b.canonical) (he : e.canonical) (hq : 1 < e.den)
    (hp : mpz_fits_slong_p e.num = true) (hqf : mpz_fits_slong_p e.den = true)
    (h0 : e.num < 0 → b.num ≠ 0) :
    ((0 ≤ b.toRat ^ e.num ∧ ∃ s t : Nat, (s : Int) ^ e.den.toNat = (b.toRat ^ e.num).num ∧
          (t : Int) ^ e.den.toNat = ((b.toRat ^ e.num).den : Int)) →
        ∃ s t : Nat, ((s : Int) ^ e.den.toNat = (b.toRat ^ e.num).num ∧
          (t : Int) ^ e.den.toNat = ((b.toRat ^ e.num).den : Int)) ∧
          Pympq_pow b e none = Outcome.ok ⟨(s : Int), (t : Int)⟩) ∧
      (¬ (0 ≤ b.toRat ^ e.num ∧ ∃ s t : Nat, (s : Int) ^ e.den.toNat = (b.toRat ^ e.num).num ∧
          (t : Int) ^ e.den.toNat = ((b.toRat ^ e.num).den : Int)) →
        Pympq_pow b e none = Outcome.raise PyExc.ValueError) := by
  have hne : e.num ≠ 0 := by
    intro hz
    have hg := he.2
    rw [hz, Int.gcd_zero_left] at hg
    omega
  have hsign : ¬ Int.sign e.num = 0 := by
    intro hs
    exact hne (Int.sign_eq_zero_iff_zero.mp hs)
  have hfq := (fits_slong_iff e.den).mp hqf
  have hk : mpz_get_ui e.den = e.den.toNat := by
    simp only [mpz_get_ui]
    omega
  have hk1 : 1 < e.den.toNat := by omega
  have h5 : ¬ (Int.sign e.num < 0 ∧ Int.sign b.num = 0) := by
    rintro ⟨h1, h2⟩
    have hlt : e.num < 0 := by
      by_contra hge
      have := Int.sign_nonneg.mpr (not_lt.mp hge)
      omega
    exact h0 hlt (Int.sign_eq_zero_iff_zero.mp h2)
  have hn1 : notanint e.num = false := by simp [notanint, hp]
  have hn2 : notanint e.den = false := by simp [notanint, hqf]
  obtain ⟨hc2, ht2⟩ := pow_stage b e hb hne h0 _ _ rfl rfl
  obtain ⟨en, ed⟩ := canonical_num_den _ hc2
  rw [ht2] at en ed
  have hnn : (0 ≤ b.toRat ^ e.num) ↔ 0 ≤ (b.toRat ^ e.num).num := Rat.num_nonneg.symm
  rw [hnn, en, ed]
  unfold Pympq_pow
  simp only [Option.isSome_none, hn1, hn2, Bool.false_eq_true, if_false]
  rw [if_neg hsign, if_neg h5, ultem_eq e.num hp, hk, if_pos hk1]
  exact root_stage_spec _ e.den.toNat hk1 hc2.1

/-- C7 (witness). The base 4/9 and the exponent -1/2: `b^p = 9/4` has the exact square roots 3
and 2. -/
theorem mpq_pow_fractional_witness :
    ((0 ≤ (⟨4, 9⟩ : Mpq).toRat ^ (-1 : Int) ∧ ∃ s t : Nat,
          (s : Int) ^ (2 : Int).toNat = ((⟨4, 9⟩ : Mpq).toRat ^ (-1 : Int)).num ∧
          (t : Int) ^ (2 : Int).toNat = ((((⟨4, 9⟩ : Mpq).toRat ^ (-1 : Int)).den : Nat) : Int)) →
        ∃ s t : Nat, ((s : Int) ^ (2 : Int).toNat = ((⟨4, 9⟩ : Mpq).toRat ^ (-1 : Int)).num ∧
          (t : Int) ^ (2 : Int).toNat = ((((⟨4, 9⟩ : Mpq).toRat ^ (-1 : Int)).den : Nat) : Int)) ∧
          Pympq_pow ⟨4, 9⟩ ⟨-1, 2⟩ none = Outcome.ok ⟨(s : Int), (t : Int)⟩) ∧
      (¬ (0 ≤ (⟨4, 9⟩ : Mpq).toRat ^ (-1 : Int) ∧ ∃ s t : Nat,
          (s : Int) ^ (2 : Int).toNat = ((⟨4, 9⟩ : Mpq).toRat ^ (-1 : Int)).num ∧
          (t : Int) ^ (2 : Int).toNat = ((((⟨4, 9⟩ : Mpq).toRat ^ (-1 : Int)).den : Nat) : Int)) →
        Pympq_pow ⟨4, 9⟩ ⟨-1, 2⟩ none = Outcome.raise PyExc.ValueError) :=
  mpq_pow_fractional ⟨4, 9⟩ ⟨-1, 2⟩ (by decide) (by decide) (by decide) (by decide) (by decide)
    (by decide)

/-! ## qdiv -/

theorem canonicalize_spec (q : Mpq) (hd : q.den ≠ 0) :
    (mpq_canonicalize q).canonical ∧ (mpq_canonicalize q).toRat = q.toRat := by
  have hg0 : Int.gcd q.num q.den ≠ 0 := by
    intro h
    exact hd (Int.gcd_eq_zero_iff.mp h).2
  have hgpos : 0 < Int.gcd q.num q.den := Nat.pos_of_ne_zero hg0
  obtain ⟨n', hn'⟩ := Int.gcd_dvd_left (a := q.num) (b := q.den)
  obtain ⟨d', hd'⟩ := Int.gcd_dvd_right (a := q.num) (b := q.den)
  have hcop0 := Int.gcd_div_gcd_div_gcd (i := q.num) (j := q.den) hgpos
  have hdef : mpq_canonicalize q =
      if q.den / ((Int.gcd q.num q.den : Nat) : Int) < 0 then
        ⟨-(q.num / ((Int.gcd q.num q.den : Nat) : Int)), -(q.den / ((Int.gcd q.num q.den : Nat) : Int))⟩
      else ⟨q.num / ((Int.gcd q.num q.den : Nat) : Int), q.den / ((Int.gcd q.num q.den : Nat) : Int)⟩ :=
    rfl
  rw [hdef]
  generalize Int.gcd q.num q.den = g at hg0 hgpos hn' hd' hcop0 ⊢
  have hgz : (g : Int) ≠ 0 := by omega
  have e1 : q.num / (g : Int) = n' := by
    rw [hn']
    exact Int.mul_ediv_cancel_left _ hgz
  have e2 : q.den / (g : Int) = d' := by
    rw [hd']
    exact Int.mul_ediv_cancel_left _ hgz
  rw [e1, e2] at hcop0
  have hcop : Int.gcd n' d' = 1 := hcop0
  have hd'0 : d' ≠ 0 := by
    intro h
    rw [h, mul_zero] at hd'
    exact hd hd'
  have hrat : q.toRat = (n' : ℚ) / (d' : ℚ) := by
    simp only [Mpq.toRat]
    rw [hn', hd']
    push_cast
    have hgq : (g : ℚ) ≠ 0 := by exact_mod_cast hg0
    rw [mul_div_mul_left _ _ hgq]
  rw [e1, e2]
  by_cases hneg : d' < 0
  · rw [if_pos hneg]
    refine ⟨⟨by show (0 : Int) < -d'; omega, ?_⟩, ?_⟩
    · show Int.gcd (-n') (-d') = 1
      rw [Int.gcd_neg, Int.neg_gcd]
      exact hcop
    · rw [hrat]
      simp only [Mpq.toRat]
      push_cast
      rw [neg_div_neg_eq]
  · rw [if_neg hneg]
    refine ⟨⟨by show (0 : Int) < d'; omega, hcop⟩, ?_⟩
    rw [hrat]
    rfl

theorem anyrational2mpq_spec (x : PyNum) (hx : x.valid) :
    (anyrational2mpq x).canonical ∧ (anyrational2mpq x).toRat = x.toRat := by
  cases x with
  | mpz z =>
    refine ⟨⟨by show (0 : Int) < 1; decide, ?_⟩, ?_⟩
    · show Int.gcd z 1 = 1
      simp
    · simp [anyrational2mpq, Mpq.toRat, PyNum.toRat]
  | mpq q => exact ⟨hx, rfl⟩

/-- The last step of `qdiv`: a canonical quotient is handed back as an mpz exactly when its
denominator is 1. -/
theorem demote_spec (s : Mpq) (hs : s.canonical) :
    (if s.den ≠ 1 then PyNum.mpq s else PyNum.mpz s.num).toRat = s.toRat ∧
      ((if s.den ≠ 1 then PyNum.mpq s else PyNum.mpz s.num).isMpz = true ↔ s.toRat.den = 1) := by
  obtain ⟨-, hden⟩ := canonical_num_den s hs
  by_cases h : s.den = 1
  · rw [if_neg (by simpa using h)]
    refine ⟨?_, ?_⟩
    · simp [PyNum.toRat, Mpq.toRat, h]
    · simp only [PyNum.isMpz, true_iff]
      omega
  · rw [if_pos h]
    refine ⟨rfl, ?_⟩
    simp only [PyNum.isMpz, Bool.false_eq_true, false_iff]
    omega

theorem isOne_toRat (y : PyNum) (h : isOne (some y) = true) : y.toRat = 1 := by
  cases y with
  | mpz z =>
    have : z = 1 := by simpa [isOne] using h
    simp [PyNum.toRat, this]
  | mpq q =>
    have : q.den = 1 ∧ q.num = 1 := by simpa [isOne] using h
    simp [PyNum.toRat, Mpq.toRat, this.1, this.2]

theorem qdiv_one (x : PyNum) (hx : x.valid) (other : Option PyNum) (h1 : isOne other = true) :
    ∃ r, Pympq_qdiv x other = Outcome.ok r ∧ r.toRat = x.toRat ∧
      (r.isMpz = true ↔ x.toRat.den = 1) := by
  cases x with
  | mpz z =>
    refine ⟨PyNum.mpz z, by simp [Pympq_qdiv, h1], rfl, ?_⟩
    simp [PyNum.isMpz, PyNum.toRat]
  | mpq q =>
    have hd := demote_spec q hx
    refine ⟨if q.den ≠ 1 then PyNum.mpq q else PyNum.mpz q.num, ?_, hd.1, hd.2⟩
    simp only [Pympq_qdiv, h1, if_true]
    split_ifs <;> rfl

/-- C8. For operands that are each an mpz or a canonical mpq: with a nonzero divisor `qdiv`
returns a number equal to `x / y`, an mpz exactly when the reduced denominator of
`x / y` is 1 and an mpq otherwise; an omitted divisor counts as 1; a zero divisor
raises `ZeroDivisionError`. -/
theorem qdiv_spec (x y : PyNum) (hx : x.valid) (hy : y.valid) :
    (y.toRat ≠ 0 → ∃ r, Pympq_qdiv x (some y) = Outcome.ok r ∧ r.toRat = x.toRat / y.toRat ∧
        (r.isMpz = true ↔ (x.toRat / y.toRat).den = 1)) ∧
      (∃ r, Pympq_qdiv x none = Outcome.ok r ∧ r.toRat = x.toRat / 1 ∧
        (r.isMpz = true ↔ (x.toRat / 1).den = 1)) ∧
      (y.toRat = 0 → Pympq_qdiv x (some y) = Outcome.raise PyExc.ZeroDivisionError) := by
  obtain ⟨hxc, hxr⟩ := anyrational2mpq_spec x hx
  obtain ⟨hyc, hyr⟩ := anyrational2mpq_spec y hy
  have hynum : y.toRat = 0 ↔ (anyrational2mpq y).num = 0 := by
    rw [← hyr]
    simp only [Mpq.toRat]
    have hd : ((anyrational2mpq y).den : ℚ) ≠ 0 := by
      have := hyc.1
      exact_mod_cast (ne_of_gt this)
    rw [div_eq_zero_iff]
    constructor
    · rintro (h | h)
      · exact_mod_cast h
      · exact absurd h hd
    · intro h
      left
      exact_mod_cast h
  refine ⟨fun hy0 => ?_, ?_, fun hy0 => ?_⟩
  · by_cases h1 : isOne (some y) = true
    · rw [isOne_toRat y h1, div_one]
      exact qdiv_one x hx (some y) h1
    · have h1f : isOne (some y) = false := by simpa using h1
      have hnum : (anyrational2mpq y).num ≠ 0 := fun h => hy0 (hynum.mpr h)
      have hsign : ¬ Int.sign (anyrational2mpq y).num = 0 := fun h =>
        hnum (Int.sign_eq_zero_iff_zero.mp h)
      have hden : (anyrational2mpq x).den * (anyrational2mpq y).num ≠ 0 :=
        mul_ne_zero (ne_of_gt hxc.1) hnum
      obtain ⟨hsc, hsr⟩ := canonicalize_spec
        ⟨(anyrational2mpq x).num * (anyrational2mpq y).den,
          (anyrational2mpq x).den * (anyrational2mpq y).num⟩ hden
      have hval : (mpq_div (anyrational2mpq x) (anyrational2mpq y)).toRat = x.toRat / y.toRat := by
        rw [mpq_div, hsr, ← hxr, ← hyr]
        simp only [Mpq.toRat]
        push_cast
        have hxd : ((anyrational2mpq x).den : ℚ) ≠ 0 := by exact_mod_cast (ne_of_gt hxc.1)
        have hyd : ((anyrational2mpq y).den : ℚ) ≠ 0 := by exact_mod_cast (ne_of_gt hyc.1)
        have hyn : ((anyrational2mpq y).num : ℚ) ≠ 0 := by exact_mod_cast hnum
        field_simp
      have hd := demote_spec (mpq_div (anyrational2mpq x) (anyrational2mpq y)) hsc
      rw [hval] at hd
      refine ⟨_, ?_, hd.1, hd.2⟩
      simp only [Pympq_qdiv, h1f, Bool.false_eq_true, if_false, if_neg hsign]
      split_ifs <;> rfl
  · rw [div_one]
    exact qdiv_one x hx none rfl
  · have hnum : (anyrational2mpq y).num = 0 := hynum.mp hy0
    have h1f : isOne (some y) = false := by
      cases y with
      | mpz z =>
        have : z = 0 := hnum
        simp [isOne, this]
      | mpq q =>
        have : q.num = 0 := hnum
        simp [isOne, this]
    simp [Pympq_qdiv, h1f, hnum]

/-- C8 (witness). The operands 6 and 4: `qdiv` returns the mpq 3/2. -/
theorem qdiv_spec_witness :
    (PyNum.mpz 4).toRat ≠ 0 ∧
      ∃ r, Pympq_qdiv (PyNum.mpz 6) (some (PyNum.mpz 4)) = Outcome.ok r ∧
        r.toRat = (PyNum.mpz 6).toRat / (PyNum.mpz 4).toRat ∧
        (r.isMpz = true ↔ ((PyNum.mpz 6).toRat / (PyNum.mpz 4).toRat).den = 1) :=
  ⟨by simp [PyNum.toRat],
    (qdiv_spec (PyNum.mpz 6) (PyNum.mpz 4) trivial trivial).1 (by simp [PyNum.toRat])⟩

/-! ## Modular power -/

/-- C9. For `e ≥ 0` and `m ≠ 0` the three-argument power (either copy of `Pympz_pow`) returns
`r` congruent to `b ^ e` modulo `|m|`, with `0 ≤ r < m` for a positive modulus and
`m < r ≤ 0` for a negative one. -/
theorem powmod_spec (b e m : Int) (he : 0 ≤ e) (hm : m ≠ 0) :
    ∃ r, Pympz_pow b e (some m) = Outcome.ok r ∧ Pympz_pow_trunk b e (some m) = Outcome.ok r ∧
      r ≡ b ^ e.toNat [ZMOD |m|] ∧ (0 < m → 0 ≤ r ∧ r < m) ∧ (m < 0 → m < r ∧ r ≤ 0) := by
  have hse : ¬ Int.sign e < 0 := by
    have := Int.sign_nonneg.mpr he
    omega
  have hsm : ¬ Int.sign m = 0 := fun h => hm (Int.sign_eq_zero_iff_zero.mp h)
  have habs : 0 < |m| := abs_pos.mpr hm
  have hr0 : 0 ≤ b ^ e.toNat % |m| := Int.emod_nonneg _ (ne_of_gt habs)
  have hr1 : b ^ e.toNat % |m| < |m| := Int.emod_lt_of_pos _ habs
  have hcong : b ^ e.toNat % |m| ≡ b ^ e.toNat [ZMOD |m|] := Int.mod_modEq _ _
  simp only [Pympz_pow, Pympz_pow_trunk, if_neg hse, if_neg hsm, mpz_powm]
  generalize b ^ e.toNat % |m| = r0 at hr0 hr1 hcong
  rcases lt_or_gt_of_ne hm with hneg | hpos
  · have hsign : Int.sign m < 0 := by rw [Int.sign_eq_neg_one_of_neg hneg]; decide
    have hav : |m| = -m := abs_of_neg hneg
    by_cases hz : r0 = 0
    · subst hz
      refine ⟨0, ?_, ?_, hcong, fun h => by omega, fun _ => ⟨hneg, le_refl _⟩⟩ <;>
        simp [Int.sign_zero]
    · have hrs : Int.sign r0 > 0 := by
        rw [Int.sign_eq_one_of_pos (by omega)]
        decide
      refine ⟨r0 + m, ?_, ?_, ?_, fun h => by omega, fun _ => by omega⟩
      · rw [if_pos ⟨hsign, hrs⟩]
      · rw [if_pos ⟨hsign, hrs⟩]
      · refine Int.ModEq.trans ?_ hcong
        rw [Int.modEq_iff_dvd]
        have : r0 - (r0 + m) = -m := by ring
        rw [this, abs_dvd]
        exact dvd_neg.mpr (dvd_refl m)
  · have hsign : ¬ Int.sign m < 0 := by rw [Int.sign_eq_one_of_pos hpos]; decide
    have hav : |m| = m := abs_of_pos hpos
    refine ⟨r0, ?_, ?_, hcong, fun _ => by omega, fun h => by omega⟩
    · rw [if_neg (fun h => hsign h.1)]
    · rw [if_neg (fun h => hsign h.1)]

/-- C9 (witness). The power `3 ^ 3` modulo `-5` is `-3`. -/
theorem powmod_spec_witness :
    ∃ r, Pympz_pow 3 3 (some (-5)) = Outcome.ok r ∧
      Pympz_pow_trunk 3 3 (some (-5)) = Outcome.ok r ∧
      r ≡ 3 ^ (3 : Int).toNat [ZMOD |(-5 : Int)|] ∧ (0 < (-5 : Int) → 0 ≤ r ∧ r < -5) ∧
      ((-5 : Int) < 0 → -5 < r ∧ r ≤ 0) :=
  powmod_spec 3 3 (-5) (by decide) (by decide)

/-! ## divm -/

theorem mpz_invert_some (b m r : Int) (h : mpz_invert b m = some r) : m ∣ b * r - 1 := by
  simp only [mpz_invert, Option.map_eq_some'] at h
  obtain ⟨x, hx, rfl⟩ := h
  have hp := List.find?_some hx
  have hp' : (b * (x : Int)) % m = 1 % m := by simpa using hp
  have hmod : b * (x : Int) ≡ 1 [ZMOD m] := hp'
  have := (Int.modEq_iff_dvd.mp hmod.symm)
  exact this

theorem mpz_invert_none (b m : Int) (hm : m ≠ 0) (h : mpz_invert b m = none) :
    ¬ ∃ u : Int, m ∣ b * u - 1 := by
  rintro ⟨u, hu⟩
  simp only [mpz_invert, Option.map_eq_none', List.find?_eq_none] at h
  have h0 : 0 ≤ u % m := Int.emod_nonneg u hm
  have h1 : u % m < |m| := Int.emod_lt u hm
  have hmem : (u % m).toNat ∈ List.range m.natAbs := by
    rw [List.mem_range]
    have : |m| = (m.natAbs : Int) := Int.abs_eq_natAbs m
    omega
  have hcast : (((u % m).toNat : Nat) : Int) = u % m := Int.toNat_of_nonneg h0
  have := h _ hmem
  apply this
  simp only [decide_eq_true_eq, hcast]
  have e1 : b * (u % m) ≡ b * u [ZMOD m] := Int.ModEq.mul_left b (Int.mod_modEq u m)
  have e2 : b * u ≡ 1 [ZMOD m] := (Int.modEq_iff_dvd.mpr hu).symm
  exact e1.trans e2

theorem invert_solves (b a m res : Int) (h : m ∣ b * res - 1) : m ∣ b * ((res * a) % m) - a := by
  have e1 : (res * a) % m ≡ res * a [ZMOD m] := Int.mod_modEq _ _
  have e2 : b * ((res * a) % m) ≡ b * (res * a) [ZMOD m] := Int.ModEq.mul_left b e1
  have e3 : b * (res * a) ≡ a [ZMOD m] := by
    rw [Int.modEq_iff_dvd]
    have : a - b * (res * a) = -((b * res - 1) * a) := by ring
    rw [this]
    exact dvd_neg.mpr (Dvd.dvd.mul_right h a)
  have := (Int.modEq_iff_dvd.mp (e2.trans e3).symm)
  exact this

/-- C10. For a nonzero modulus, `divm(a, b, m)` returns an `x` with `m ∣ b * x - a` whenever
one exists, and raises `ZeroDivisionError` when none exists. -/
theorem divm_spec (a b m : Int) (hm : m ≠ 0) :
    ((∃ x : Int, m ∣ b * x - a) → ∃ r, Pygmpy_divm a b m = Outcome.ok r ∧ m ∣ b * r - a) ∧
      ((¬ ∃ x : Int, m ∣ b * x - a) → Pygmpy_divm a b m = Outcome.raise PyExc.ZeroDivisionError) := by
  simp only [Pygmpy_divm, if_neg hm]
  cases hinv : mpz_invert b m with
  | some res =>
    have hs := invert_solves b a m res (mpz_invert_some b m res hinv)
    exact ⟨fun _ => ⟨_, rfl, hs⟩, fun hno => absurd ⟨_, hs⟩ hno⟩
  | none =>
    simp only
    obtain ⟨g, hg⟩ : ∃ g : Nat, g = Int.gcd (Int.gcd a b : Nat) m := ⟨_, rfl⟩
    have hg0 : g ≠ 0 := by
      rw [hg]
      intro h
      exact hm (Int.gcd_eq_zero_iff.mp h).2
    have hgz : (g : Int) ≠ 0 := by omega
    have hgm : (g : Int) ∣ m := by
      rw [hg]
      exact Int.gcd_dvd_right
    have hga : (g : Int) ∣ a := by
      rw [hg]
      exact dvd_trans Int.gcd_dvd_left Int.gcd_dvd_left
    have hgb : (g : Int) ∣ b := by
      rw [hg]
      exact dvd_trans Int.gcd_dvd_left Int.gcd_dvd_right
    have hmax : ∀ k : Int, k ∣ a → k ∣ b → k ∣ m → k ∣ (g : Int) := by
      intro k ka kb km
      rw [hg]
      exact Int.dvd_gcd (Int.dvd_gcd ka kb) km
    rw [← hg]
    obtain ⟨m', hm'⟩ := hgm
    obtain ⟨a', ha'⟩ := hga
    obtain ⟨b', hb'⟩ := hgb
    have ea : a / (g : Int) = a' := by
      rw [ha']
      exact Int.mul_ediv_cancel_left _ hgz
    have eb : b / (g : Int) = b' := by
      rw [hb']
      exact Int.mul_ediv_cancel_left _ hgz
    have em : m / (g : Int) = m' := by
      rw [hm']
      exact Int.mul_ediv_cancel_left _ hgz
    have hm'0 : m' ≠ 0 := by
      intro h
      rw [h, mul_zero] at hm'
      exact hm hm'
    simp only [mpz_divexact, if_neg hgz, ea, eb, em]
    cases hinv2 : mpz_invert b' m' with
    | some res =>
      have hs := invert_solves b' a' m' res (mpz_invert_some b' m' res hinv2)
      have hs2 : m ∣ b * ((res * a') % m') - a := by
        have : b * ((res * a') % m') - a = (g : Int) * (b' * ((res * a') % m') - a') := by
          rw [hb', ha']
          ring
        rw [this, hm']
        exact mul_dvd_mul_left _ hs
      exact ⟨fun _ => ⟨_, rfl, hs2⟩, fun hno => absurd ⟨_, hs2⟩ hno⟩
    | none =>
      refine ⟨fun hsol => ?_, fun _ => rfl⟩
      exfalso
      obtain ⟨x, hx⟩ := hsol
      apply mpz_invert_none b' m' hm'0 hinv2
      have hcm : ((Int.gcd b' m' : Nat) : Int) ∣ m' := Int.gcd_dvd_right
      have hcb : ((Int.gcd b' m' : Nat) : Int) ∣ b' := Int.gcd_dvd_left
      have kb : (g : Int) * ((Int.gcd b' m' : Nat) : Int) ∣ b := by
        rw [hb']
        exact mul_dvd_mul_left _ hcb
      have km : (g : Int) * ((Int.gcd b' m' : Nat) : Int) ∣ m := by
        rw [hm']
        exact mul_dvd_mul_left _ hcm
      have ka : (g : Int) * ((Int.gcd b' m' : Nat) : Int) ∣ a := by
        have h1 : (g : Int) * ((Int.gcd b' m' : Nat) : Int) ∣ b * x - a := dvd_trans km hx
        have h2 : (g : Int) * ((Int.gcd b' m' : Nat) : Int) ∣ b * x := Dvd.dvd.mul_right kb x
        have := dvd_sub h2 h1
        simpa using this
      have hk := hmax _ ka kb km
      have hone : ((Int.gcd b' m' : Nat) : Int) ∣ 1 := by
        have : (g : Int) * ((Int.gcd b' m' : Nat) : Int) ∣ (g : Int) * 1 := by simpa using hk
        exact Int.dvd_of_mul_dvd_mul_left hgz this
      have hcop : Int.gcd b' m' = 1 := by
        have : (Int.gcd b' m' : Nat) ∣ 1 := by exact_mod_cast hone
        exact Nat.dvd_one.mp this
      refine ⟨Int.gcdA b' m', ?_⟩
      have hbez := Int.gcd_eq_gcd_ab b' m'
      rw [hcop] at hbez
      refine ⟨-Int.gcdB b' m', ?_⟩
      have h1 : (1 : Int) = b' * Int.gcdA b' m' + m' * Int.gcdB b' m' := by exact_mod_cast hbez
      linarith

/-- C10 (witness). The call `divm(4, 6, 8)`: 6 is not invertible modulo 8, the common factor 2 is
divided out, and the result solves `6 * x ≡ 4 (mod 8)`. -/
theorem divm_spec_witness :
    ((∃ x : Int, (8 : Int) ∣ 6 * x - 4) → ∃ r, Pygmpy_divm 4 6 8 = Outcome.ok r ∧ (8 : Int) ∣ 6 * r - 4) ∧
      ((¬ ∃ x : Int, (8 : Int) ∣ 6 * x - 4) →
        Pygmpy_divm 4 6 8 = Outcome.raise PyExc.ZeroDivisionError) :=
  divm_spec 4 6 8 (by decide)

/-! ## Bit scans (C11) -/

theorem tstbit_neg_one (i : Nat) : mpz_tstbit (-1) i = true := by
  have hpos : (0 : Int) < 2 ^ i := by positivity
  have h : (-1 : Int) / 2 ^ i = -1 :=
    ((Int.ediv_emod_unique hpos).mpr
      (⟨by ring, by omega, by omega⟩ : (2 ^ i - 1) + 2 ^ i * (-1) = (-1 : Int) ∧
        (0 : Int) ≤ 2 ^ i - 1 ∧ (2 ^ i - 1 : Int) < 2 ^ i)).1
  simp [mpz_tstbit, h]

theorem tstbit_zero (i : Nat) : mpz_tstbit 0 i = false := by
  simp [mpz_tstbit]

/-- C11. Every bit of -1 is 1 and every bit of 0 is 0, so no index answers `scan0(-1, 0)`,
`scan0(-1, 1)` or `scan1(0, 0)`; the wrappers still return the integer -1 there (the
kernel's "not found" value read as a `long`) instead of `None`, which the docstrings
promise and which the same calls give from start index 2 respectively 1 on. -/
theorem scan_not_found_returns_minus_one :
    (∀ i, mpz_tstbit (-1) i = true) ∧
    Pympz_scan0 (-1) 0 = Outcome.ok (some (-1)) ∧
    Pympz_scan0 (-1) 1 = Outcome.ok (some (-1)) ∧
    Pympz_scan0 (-1) 2 = Outcome.ok none ∧
    (∀ i, mpz_tstbit 0 i = false) ∧
    Pympz_scan1 0 0 = Outcome.ok (some (-1)) ∧
    Pympz_scan1 0 1 = Outcome.ok none :=
  ⟨tstbit_neg_one, by decide, by decide, by decide, tstbit_zero, by decide, by decide⟩

/-! ## Shift counts (C12) -/

theorem not_fits_slong_of_big (n : Int) (h : 9223372036854775808 ≤ n) :
    mpz_fits_slong_p n = false := by
  cases hf : mpz_fits_slong_p n with
  | false => rfl
  | true =>
    have := (fits_slong_iff n).mp hf
    omega

/-- C12. A shift count of 2 ^ 63 or more does not fit a `long`. Given as a Python integer
it makes `<<` and `>>` of `gmpy_mpz.c` raise `ValueError`; only the same count given
as an mpz raises `OverflowError`. The operators of `gmpy.c` raise `ValueError` on
both paths. -/
theorem shift_oversized_count (a n : Int) :
    9223372036854775808 ≤ n →
    Pympz_lshift a (PyArg.pylong n) = Slot.raise PyExc.ValueError ∧
    Pympz_rshift a (PyArg.pylong n) = Slot.raise PyExc.ValueError ∧
    Pympz_lshift a (PyArg.mpzany n) = Slot.raise PyExc.OverflowError ∧
    Pympz_rshift a (PyArg.mpzany n) = Slot.raise PyExc.OverflowError ∧
    Pympz_lshift_trunk a (PyArg.pylong n) = Slot.raise PyExc.ValueError ∧
    Pympz_rshift_trunk a (PyArg.pylong n) = Slot.raise PyExc.ValueError ∧
    Pympz_lshift_trunk a (PyArg.mpzany n) = Slot.raise PyExc.ValueError ∧
    Pympz_rshift_trunk a (PyArg.mpzany n) = Slot.raise PyExc.ValueError := by
  intro h
  have hf := not_fits_slong_of_big n h
  have hs : ¬ Int.sign n < 0 := by
    have := Int.sign_eq_one_of_pos (show 0 < n by omega)
    omega
  have hn : ¬ n < 0 := by omega
  simp [Pympz_lshift, Pympz_rshift, Pympz_shift, Pympz_lshift_trunk, Pympz_rshift_trunk,
    MPZ_SHIFTOP, PyLong_AsLongAndOverflow, Pympz_From_Integer, hf, hs, hn]

theorem shift_oversized_count_witness :
    Pympz_lshift 1 (PyArg.pylong 9223372036854775808) = Slot.raise PyExc.ValueError ∧
    Pympz_lshift 1 (PyArg.mpzany 9223372036854775808) = Slot.raise PyExc.OverflowError :=
  have h := shift_oversized_count 1 9223372036854775808 (by decide)
  ⟨h.1, h.2.2.1⟩

/-! ## Roots of negative operands (C13) -/

theorem findGreatest_pow_one (N : Nat) : Nat.findGreatest (fun r => r ^ 1 ≤ N) N = N :=
  Nat.findGreatest_eq (by simp)

theorem mpz_root_one_neg (x : Int) (hx : x < 0) : mpz_root x 1 = some (x, true) := by
  have habs : -|x| = x := by rw [abs_of_neg hx]; omega
  simp [mpz_root, findGreatest_pow_one, hx, habs]

theorem sign_neg_of_neg (x : Int) (hx : x < 0) : Int.sign x < 0 := by
  rw [Int.sign_eq_neg_one_of_neg hx]; decide

/-- C13 (counterexample). The first root of -5 is handed back as an integer result:
`root(-5, 1)` gives `(-5, 1)` and `rootrem(-5, 1)` gives `(-5, 0)`. -/
theorem root_negative_first_root :
    Pympz_root (-5) 1 = Outcome.ok (-5, 1) ∧ Pympz_rootrem (-5) 1 = Outcome.ok (-5, 0) := by
  decide

/-- C13 (amended). For every integer x < 0, `sqrt(x)` and `sqrtrem(x)` raise `ValueError`,
and `root(x, n)` and `rootrem(x, n)` raise `ValueError` for every n ≥ 2 (and for
n ≤ 0); for n = 1 the sign test is skipped and the operand itself comes back, as
`(x, 1)` from `root` and `(x, 0)` from `rootrem`. -/
theorem root_negative_operand (x n : Int) (hx : x < 0) :
    Pympz_sqrt x = Outcome.raise PyExc.ValueError ∧
    Pympz_sqrtrem x = Outcome.raise PyExc.ValueError ∧
    (n ≠ 1 → Pympz_root x n = Outcome.raise PyExc.ValueError ∧
      Pympz_rootrem x n = Outcome.raise PyExc.ValueError) ∧
    Pympz_root x 1 = Outcome.ok (x, 1) ∧
    Pympz_rootrem x 1 = Outcome.ok (x, 0) := by
  have hs := sign_neg_of_neg x hx
  refine ⟨by simp [Pympz_sqrt, hs], by simp [Pympz_sqrtrem, hs], ?_, ?_, ?_⟩
  · intro hn
    by_cases h0 : n ≤ 0
    · simp [Pympz_root, Pympz_rootrem, h0]
    · have h1 : n > 1 := by omega
      simp [Pympz_root, Pympz_rootrem, h0, h1, hs]
  · simp [Pympz_root, mpz_root_one_neg x hx]
  · simp [Pympz_rootrem, mpz_rootrem, ofKernel, mpz_root_one_neg x hx]

theorem root_negative_operand_witness :
    Pympz_sqrt (-4) = Outcome.raise PyExc.ValueError ∧
    Pympz_sqrtrem (-4) = Outcome.raise PyExc.ValueError ∧
    ((3 : Int) ≠ 1 → Pympz_root (-4) 3 = Outcome.raise PyExc.ValueError ∧
      Pympz_rootrem (-4) 3 = Outcome.raise PyExc.ValueError) ∧
    Pympz_root (-4) 1 = Outcome.ok (-4, 1) ∧
    Pympz_rootrem (-4) 1 = Outcome.ok (-4, 0) :=
  root_negative_operand (-4) 3 (by decide)

/-! ## Native floats that are not numbers (C14) -/

/-- C14. `float2mpz` and `float2mpq` raise `ValueError` on NaN and on both infinities.
A finite float passes both guards: `float2mpz` returns its integer part (0 when the
magnitude is below 1) and `float2mpq` returns whatever `f2q_internal` makes of the
53-bit mpf holding the value. -/
theorem float_conversion_guards (K : MpfKernel)
    (f2q_internal : PympfObject → Nat → Option Mpq) (opts : Options) :
    float2mpz PyFloat.nan = Outcome.raise PyExc.ValueError ∧
    float2mpq K f2q_internal opts PyFloat.nan = Outcome.raise PyExc.ValueError ∧
    (∀ s, float2mpz (PyFloat.inf s) = Outcome.raise PyExc.ValueError ∧
      float2mpq K f2q_internal opts (PyFloat.inf s) = Outcome.raise PyExc.ValueError) ∧
    (∀ man exp,
      float2mpz (PyFloat.finite man exp) =
        Outcome.ok (if truncDyadic |man| exp < 1 then 0 else truncDyadic man exp) ∧
      float2mpq K f2q_internal opts (PyFloat.finite man exp) =
        ofKernel (f2q_internal
          ((Pympf_new opts double_mantissa).setF
            (K.mpf_set_d (Pympf_new opts double_mantissa).rebits man exp))
          double_mantissa) ∧
      ∀ e, float2mpz (PyFloat.finite man exp) ≠ Outcome.raise e ∧
        float2mpq K f2q_internal opts (PyFloat.finite man exp) ≠ Outcome.raise e) := by
  refine ⟨rfl, rfl, fun s => ⟨rfl, rfl⟩, fun man exp => ?_⟩
  have hz : float2mpz (PyFloat.finite man exp) =
      Outcome.ok (if truncDyadic |man| exp < 1 then 0 else truncDyadic man exp) := by
    simp only [float2mpz, isinf, isnan, mpz_set_d, truncDyadic]
    split_ifs <;> simp_all
  have hq : float2mpq K f2q_internal opts (PyFloat.finite man exp) =
      ofKernel (f2q_internal
        ((Pympf_new opts double_mantissa).setF
          (K.mpf_set_d (Pympf_new opts double_mantissa).rebits man exp))
        double_mantissa) := by
    simp [float2mpq, isinf, isnan]
  refine ⟨hz, hq, fun e => ⟨?_, ?_⟩⟩
  · rw [hz]; simp
  · rw [hq]
    cases f2q_internal _ _ <;> simp [ofKernel]

/-! ## Precision of mpf arithmetic (C15, C16, C17) -/

theorem Pympf_new_rebits (opts : Options) (bits : Nat) (h : opts.minprec < 4294967296) :
    (Pympf_new opts bits).rebits = max bits opts.minprec := by
  unfold Pympf_new
  by_cases hb : bits < opts.minprec
  · simp only [hb, if_true, Nat.mod_eq_of_lt h]; omega
  · simp only [hb, if_false]; omega

theorem setF_rebits (x : PympfObject) (v : MpfVal) : (x.setF v).rebits = x.rebits := rfl

theorem MPF_BINOP_mpf_mpf (NAME : Nat → MpfVal → MpfVal → MpfVal) (K : MpfKernel)
    (opts : Options) (a b : PympfObject) (h : opts.minprec < 4294967296) :
    ∃ r, MPF_BINOP NAME K opts (PyReal.mpf a) (PyReal.mpf b) = Outcome.ok r ∧
      r.rebits = max (min a.rebits b.rebits) opts.minprec := by
  refine ⟨_, rfl, ?_⟩
  rw [setF_rebits, Pympf_new_rebits _ _ h]
  by_cases hab : a.rebits > b.rebits
  · simp only [hab, if_true]; omega
  · simp only [hab, if_false]; omega

theorem MPF_DIVOP_mpf_mpf (OP : Nat → MpfVal → MpfVal → MpfVal) (K : MpfKernel)
    (opts : Options) (a b : PympfObject) (h : opts.minprec < 4294967296)
    (hb : b.sign ≠ 0) :
    ∃ r, MPF_DIVOP OP K opts (PyReal.mpf a) (PyReal.mpf b) = Outcome.ok r ∧
      r.rebits = max (min a.rebits b.rebits) opts.minprec := by
  simp only [MPF_DIVOP, anyreal2mpf, true_or, if_true, hb, if_false]
  refine ⟨_, rfl, ?_⟩
  rw [setF_rebits, Pympf_new_rebits _ _ h]
  by_cases hab : a.rebits > b.rebits
  · simp only [hab, if_true]; omega
  · simp only [hab, if_false]; omega

/-- C15 (counterexample). After `set_minprec(100)`, adding two mpf values of 53 bits each
gives a result of 100 bits, above the lower (and the higher) operand precision. -/
theorem mpf_add_precision_raised :
    ∃ r, Pympf_add signKernel { initOptions with minprec := 100 }
        (PyReal.mpf ⟨1, [1], 1, 53⟩) (PyReal.mpf ⟨1, [1], 1, 53⟩) = Outcome.ok r ∧
      r.rebits = 100 ∧ min 53 53 < r.rebits :=
  ⟨⟨1, [], 0, 100⟩, by decide, by decide, by decide⟩

/-- C15 (amended). For all mpf values a and b (b nonzero for division) the result of
`a + b`, `a - b`, `a * b` and `a / b` has stored precision
max(min(precision a, precision b), options.minprec): the lower operand precision,
raised to the module minimum when that is higher. -/
theorem mpf_arith_precision (K : MpfKernel) (opts : Options) (a b : PympfObject)
    (h : opts.minprec < 4294967296) :
    (∃ r, Pympf_add K opts (PyReal.mpf a) (PyReal.mpf b) = Outcome.ok r ∧
      r.rebits = max (min a.rebits b.rebits) opts.minprec) ∧
    (∃ r, Pympf_sub K opts (PyReal.mpf a) (PyReal.mpf b) = Outcome.ok r ∧
      r.rebits = max (min a.rebits b.rebits) opts.minprec) ∧
    (∃ r, Pympf_mul K opts (PyReal.mpf a) (PyReal.mpf b) = Outcome.ok r ∧
      r.rebits = max (min a.rebits b.rebits) opts.minprec) ∧
    (b.sign ≠ 0 → ∃ r, Pympf_div K opts (PyReal.mpf a) (PyReal.mpf b) = Outcome.ok r ∧
      r.rebits = max (min a.rebits b.rebits) opts.minprec) :=
  ⟨MPF_BINOP_mpf_mpf _ K opts a b h, MPF_BINOP_mpf_mpf _ K opts a b h,
    MPF_BINOP_mpf_mpf _ K opts a b h, fun hb => MPF_DIVOP_mpf_mpf _ K opts a b h hb⟩

theorem mpf_arith_precision_witness :
    (∃ r, Pympf_add signKernel initOptions (PyReal.mpf ⟨1, [1], 1, 100⟩)
        (PyReal.mpf ⟨1, [1], 1, 80⟩) = Outcome.ok r ∧ r.rebits = max (min 100 80) 53) ∧
    (∃ r, Pympf_div signKernel initOptions (PyReal.mpf ⟨1, [1], 1, 100⟩)
        (PyReal.mpf ⟨1, [1], 1, 80⟩) = Outcome.ok r ∧ r.rebits = max (min 100 80) 53) :=
  have h := mpf_arith_precision signKernel initOptions ⟨1, [1], 1, 100⟩ ⟨1, [1], 1, 80⟩
    (by decide)
  ⟨h.1, h.2.2.2 (by decide)⟩

theorem MPF_BINOP_mixed (NAME : Nat → MpfVal → MpfVal → MpfVal) (K : MpfKernel)
    (opts : Options) (f : PympfObject) (v : PyReal) (h : opts.minprec < 4294967296)
    (hv : ∀ x, v ≠ PyReal.mpf x) :
    (∃ r, MPF_BINOP NAME K opts (PyReal.mpf f) v = Outcome.ok r ∧
      r.rebits = max f.rebits opts.minprec) ∧
    (∃ r, MPF_BINOP NAME K opts v (PyReal.mpf f) = Outcome.ok r ∧
      r.rebits = max f.rebits opts.minprec) := by
  cases v with
  | mpf x => exact absurd rfl (hv x)
  | mpz z =>
    exact ⟨⟨_, rfl, by rw [setF_rebits, Pympf_new_rebits _ _ h]⟩,
      ⟨_, rfl, by rw [setF_rebits, Pympf_new_rebits _ _ h]⟩⟩
  | mpq q =>
    exact ⟨⟨_, rfl, by rw [setF_rebits, Pympf_new_rebits _ _ h]⟩,
      ⟨_, rfl, by rw [setF_rebits, Pympf_new_rebits _ _ h]⟩⟩

/-- C16 (counterexample). After `set_minprec(100)`, an mpf of 53 bits times the mpz 3 is
an mpf of 100 bits, not of 53. -/
theorem mpf_mul_mixed_precision_raised :
    ∃ r, Pympf_mul signKernel { initOptions with minprec := 100 }
        (PyReal.mpf ⟨1, [1], 1, 53⟩) (PyReal.mpz 3) = Outcome.ok r ∧
      r.rebits = 100 ∧ (⟨1, [1], 1, 53⟩ : PympfObject).rebits = 53 :=
  ⟨⟨1, [], 0, 100⟩, by decide, by decide, by decide⟩

/-- C16 (amended). For every mpf f and every mpz or mpq v, in either operand order,
`f + v`, `f - v` and `f * v` are mpf values of stored precision
max(precision f, options.minprec): the precision of f whenever that is at least the
module minimum. -/
theorem mpf_mixed_arith_precision (K : MpfKernel) (opts : Options) (f : PympfObject)
    (v : PyReal) (h : opts.minprec < 4294967296) (hv : ∀ x, v ≠ PyReal.mpf x) :
    ((∃ r, Pympf_add K opts (PyReal.mpf f) v = Outcome.ok r ∧
        r.rebits = max f.rebits opts.minprec) ∧
      (∃ r, Pympf_add K opts v (PyReal.mpf f) = Outcome.ok r ∧
        r.rebits = max f.rebits opts.minprec)) ∧
    ((∃ r, Pympf_sub K opts (PyReal.mpf f) v = Outcome.ok r ∧
        r.rebits = max f.rebits opts.minprec) ∧
      (∃ r, Pympf_sub K opts v (PyReal.mpf f) = Outcome.ok r ∧
        r.rebits = max f.rebits opts.minprec)) ∧
    ((∃ r, Pympf_mul K opts (PyReal.mpf f) v = Outcome.ok r ∧
        r.rebits = max f.rebits opts.minprec) ∧
      (∃ r, Pympf_mul K opts v (PyReal.mpf f) = Outcome.ok r ∧
        r.rebits = max f.rebits opts.minprec)) :=
  ⟨MPF_BINOP_mixed _ K opts f v h hv, MPF_BINOP_mixed _ K opts f v h hv,
    MPF_BINOP_mixed _ K opts f v h hv⟩

theorem mpf_mixed_arith_precision_witness :
    (∃ r, Pympf_mul signKernel initOptions (PyReal.mpf ⟨1, [1], 1, 100⟩) (PyReal.mpz 3) =
        Outcome.ok r ∧ r.rebits = max 100 53) ∧
    (∃ r, Pympf_mul signKernel initOptions (PyReal.mpz 3) (PyReal.mpf ⟨1, [1], 1, 100⟩) =
        Outcome.ok r ∧ r.rebits = max 100 53) :=
  (mpf_mixed_arith_precision signKernel initOptions ⟨1, [1], 1, 100⟩ (PyReal.mpz 3)
    (by decide) (by intro x; simp)).2.2

theorem mpz2mpf_default (K : MpfKernel) (opts : Options) (z : Int)
    (h : opts.minprec < 4294967296) :
    (mpz2mpf K opts z 0).rebits = max (toUInt (mpz_sizeinbase2 z.natAbs + 2)) opts.minprec ∧
    (mpz2mpf K opts z 0).sign =
      (K.mpf_set_z (max (toUInt (mpz_sizeinbase2 z.natAbs + 2)) opts.minprec) z).sign := by
  have hr := Pympf_new_rebits opts (toUInt (mpz_sizeinbase2 z.natAbs + 2)) h
  constructor
  · simpa [mpz2mpf, setF_rebits] using hr
  · simp only [mpz2mpf, if_true, PympfObject.setF]
    rw [hr]

theorem mpq2mpf_default (K : MpfKernel) (opts : Options) (q : Mpq)
    (h : opts.minprec < 4294967296) :
    (mpq2mpf K opts q 0).rebits = opts.minprec ∧
    (mpq2mpf K opts q 0).sign = (K.mpf_set_q opts.minprec q).sign := by
  have hr : (Pympf_new opts 0).rebits = opts.minprec := by
    rw [Pympf_new_rebits opts 0 h]; omega
  constructor
  · simpa [mpq2mpf, setF_rebits] using hr
  · simp only [mpq2mpf, PympfObject.setF]
    rw [hr]

theorem MPF_DIVOP_rebits (OP : Nat → MpfVal → MpfVal → MpfVal) (K : MpfKernel)
    (opts : Options) (f pb : PympfObject) (v : PyReal) (h : opts.minprec < 4294967296)
    (hpb : anyreal2mpf K opts v 0 = pb) (hs : pb.sign ≠ 0) :
    ∃ r, MPF_DIVOP OP K opts (PyReal.mpf f) v = Outcome.ok r ∧
      r.rebits = max (min f.rebits pb.rebits) opts.minprec := by
  simp only [MPF_DIVOP, hpb, hs, if_false]
  simp only [anyreal2mpf, true_or, if_true]
  refine ⟨_, rfl, ?_⟩
  rw [setF_rebits, Pympf_new_rebits _ _ h]
  by_cases hab : f.rebits > pb.rebits
  · simp only [hab, if_true]; omega
  · simp only [hab, if_false]; omega

/-- The quotient of an mpf by an mpz has the precision
max(min(precision f, max(bit length of z + 2, minprec)), minprec): the divisor is
converted at its default precision, not at the precision of f. -/
theorem Pympf_div_mpz_rebits (K : MpfKernel) (opts : Options) (f : PympfObject) (z : Int)
    (h : opts.minprec < 4294967296)
    (hs : (K.mpf_set_z (max (toUInt (mpz_sizeinbase2 z.natAbs + 2)) opts.minprec) z).sign
      ≠ 0) :
    ∃ r, Pympf_div K opts (PyReal.mpf f) (PyReal.mpz z) = Outcome.ok r ∧
      r.rebits = max (min f.rebits
        (max (toUInt (mpz_sizeinbase2 z.natAbs + 2)) opts.minprec)) opts.minprec := by
  have hd := mpz2mpf_default K opts z h
  have := MPF_DIVOP_rebits K.mpf_div K opts f (mpz2mpf K opts z 0) (PyReal.mpz z) h rfl
    (show (mpz2mpf K opts z 0).sign ≠ 0 by rw [hd.2]; exact hs)
  rw [hd.1] at this
  exact this

/-- The quotient of an mpf by an mpq has the precision `options.minprec`, whatever the
precision of the mpf. -/
theorem Pympf_div_mpq_rebits (K : MpfKernel) (opts : Options) (f : PympfObject) (q : Mpq)
    (h : opts.minprec < 4294967296) (hs : (K.mpf_set_q opts.minprec q).sign ≠ 0) :
    ∃ r, Pympf_div K opts (PyReal.mpf f) (PyReal.mpq q) = Outcome.ok r ∧
      r.rebits = opts.minprec := by
  have hd := mpq2mpf_default K opts q h
  have := MPF_DIVOP_rebits K.mpf_div K opts f (mpq2mpf K opts q 0) (PyReal.mpq q) h rfl
    (show (mpq2mpf K opts q 0).sign ≠ 0 by rw [hd.2]; exact hs)
  rw [hd.1] at this
  obtain ⟨r, hr, hb⟩ := this
  exact ⟨r, hr, by rw [hb]; omega⟩

/-- Under the initial options an mpf of 100 bits divided by the mpz 3 or by the mpq 1/3
has 53 bits, while its product with the same operand has 100 bits. -/
theorem Pympf_div_sibling_mul :
    (∃ r, Pympf_div signKernel initOptions (PyReal.mpf ⟨1, [1], 1, 100⟩) (PyReal.mpz 3) =
      Outcome.ok r ∧ r.rebits = 53) ∧
    (∃ r, Pympf_div signKernel initOptions (PyReal.mpf ⟨1, [1], 1, 100⟩)
      (PyReal.mpq ⟨1, 3⟩) = Outcome.ok r ∧ r.rebits = 53) ∧
    (∃ r, Pympf_mul signKernel initOptions (PyReal.mpf ⟨1, [1], 1, 100⟩) (PyReal.mpz 3) =
      Outcome.ok r ∧ r.rebits = 100) :=
  ⟨⟨⟨1, [], 0, 53⟩, by decide, by decide⟩, ⟨⟨1, [], 0, 53⟩, by decide, by decide⟩,
    ⟨⟨1, [], 0, 100⟩, by decide, by decide⟩⟩

/-- After `set_minprec(100)`, an mpf of 53 bits divided by the mpz 3 is an mpf of 100
bits: `Pympf_new` raises every result to `options.minprec`. -/
theorem Pympf_div_minprec_raised :
    ∃ r, Pympf_div signKernel { initOptions with minprec := 100 }
        (PyReal.mpf ⟨1, [1], 1, 53⟩) (PyReal.mpz 3) = Outcome.ok r ∧
      r.rebits = 100 ∧ (⟨1, [1], 1, 53⟩ : PympfObject).rebits = 53 :=
  ⟨⟨1, [], 0, 100⟩, by decide, by decide, by decide⟩

/-- C17. The quotient of an mpf f by a nonzero mpz or mpq v does not keep the stored
precision of f. `MPF_DIVOP` converts both operands with `anyreal2mpf(., 0)` and takes
the lower of the two precisions: for an mpz z the quotient has
`max (min f.rebits p_z) minprec` bits, where `p_z` is the bit length of z plus 2 raised
to `options.minprec`, and for an mpq it has `options.minprec` bits whatever the
precision of f. The sibling `MPF_BINOP` converts at the precision of f, so the product
of the same operands has `max f.rebits minprec` bits. -/
theorem mpf_div_converts_at_default (K : MpfKernel) (opts : Options) (f : PympfObject)
    (z : Int) (q : Mpq) (h : opts.minprec < 4294967296) :
    ((K.mpf_set_z (max (toUInt (mpz_sizeinbase2 z.natAbs + 2)) opts.minprec) z).sign ≠ 0 →
      ∃ r, Pympf_div K opts (PyReal.mpf f) (PyReal.mpz z) = Outcome.ok r ∧
        r.rebits = max (min f.rebits
          (max (toUInt (mpz_sizeinbase2 z.natAbs + 2)) opts.minprec)) opts.minprec) ∧
    ((K.mpf_set_q opts.minprec q).sign ≠ 0 →
      ∃ r, Pympf_div K opts (PyReal.mpf f) (PyReal.mpq q) = Outcome.ok r ∧
        r.rebits = opts.minprec) ∧
    (∃ r, Pympf_mul K opts (PyReal.mpf f) (PyReal.mpz z) = Outcome.ok r ∧
      r.rebits = max f.rebits opts.minprec) ∧
    (∃ r, Pympf_mul K opts (PyReal.mpf f) (PyReal.mpq q) = Outcome.ok r ∧
      r.rebits = max f.rebits opts.minprec) :=
  ⟨Pympf_div_mpz_rebits K opts f z h, Pympf_div_mpq_rebits K opts f q h,
    (MPF_BINOP_mixed K.mpf_mul K opts f (PyReal.mpz z) h (by intro x hx; cases hx)).1,
    (MPF_BINOP_mixed K.mpf_mul K opts f (PyReal.mpq q) h (by intro x hx; cases hx)).1⟩

theorem mpf_div_converts_at_default_witness :
    (⟨1, [1], 1, 100⟩ : PympfObject).rebits = 100 ∧ initOptions.minprec = 53 ∧
    (∃ r, Pympf_div signKernel initOptions (PyReal.mpf ⟨1, [1], 1, 100⟩) (PyReal.mpz 3) =
        Outcome.ok r ∧ r.rebits = 53) ∧
    (∃ r, Pympf_div signKernel initOptions (PyReal.mpf ⟨1, [1], 1, 100⟩)
        (PyReal.mpq ⟨1, 3⟩) = Outcome.ok r ∧ r.rebits = 53) ∧
    (∃ r, Pympf_mul signKernel initOptions (PyReal.mpf ⟨1, [1], 1, 100⟩) (PyReal.mpz 3) =
        Outcome.ok r ∧ r.rebits = 100) ∧
    (∃ r, Pympf_mul signKernel initOptions (PyReal.mpf ⟨1, [1], 1, 100⟩)
        (PyReal.mpq ⟨1, 3⟩) = Outcome.ok r ∧ r.rebits = 100) :=
  have h := mpf_div_converts_at_default signKernel initOptions ⟨1, [1], 1, 100⟩ 3 ⟨1, 3⟩
    (by decide)
  ⟨rfl, rfl, h.1 (by decide), h.2.1 (by decide), h.2.2.1, h.2.2.2⟩

/-! ## Re-dispatch to the complex implementation (C18) -/

theorem two_pow_pos_rat (k : Nat) : (0 : ℚ) < 2 ^ k := by positivity

theorem sign_pos_iff_pos (a : Int) : 0 < Int.sign a ↔ 0 < a := by
  rcases lt_trichotomy a 0 with h | h | h
  · rw [Int.sign_eq_neg_one_of_neg h]; omega
  · subst h; simp
  · rw [Int.sign_eq_one_of_pos h]; omega

theorem sign_neg_iff_neg (a : Int) : Int.sign a < 0 ↔ a < 0 := by
  rcases lt_trichotomy a 0 with h | h | h
  · rw [Int.sign_eq_neg_one_of_neg h]; omega
  · subst h; simp
  · rw [Int.sign_eq_one_of_pos h]; omega

theorem cmp_si_one_pos (man exp : Int) :
    mpfr_cmp_si (MpfrVal.num man exp) 1 > 0 ↔ dyadic man exp > 1 := by
  unfold mpfr_cmp_si dyadic
  by_cases h : 0 ≤ exp
  · simp only [h, if_true, gt_iff_lt, sign_pos_iff_pos]
    constructor
    · intro hlt
      have : (1 : Int) < man * 2 ^ exp.toNat := by omega
      exact_mod_cast this
    · intro hlt
      have : (1 : Int) < man * 2 ^ exp.toNat := by exact_mod_cast hlt
      omega
  · simp only [h, if_false, gt_iff_lt, sign_pos_iff_pos]
    rw [lt_div_iff₀ (two_pow_pos_rat _)]
    constructor
    · intro hlt
      have : (1 : Int) * 2 ^ (-exp).toNat < man := by omega
      exact_mod_cast this
    · intro hlt
      have : (1 : Int) * 2 ^ (-exp).toNat < man := by exact_mod_cast hlt
      omega

theorem cmp_si_neg_one_neg (man exp : Int) :
    mpfr_cmp_si (MpfrVal.num man exp) (-1) < 0 ↔ dyadic man exp < -1 := by
  unfold mpfr_cmp_si dyadic
  by_cases h : 0 ≤ exp
  · simp only [h, if_true, sign_neg_iff_neg]
    constructor
    · intro hlt
      have : man * 2 ^ exp.toNat < (-1 : Int) := by omega
      exact_mod_cast this
    · intro hlt
      have : man * 2 ^ exp.toNat < (-1 : Int) := by exact_mod_cast hlt
      omega
  · simp only [h, if_false, sign_neg_iff_neg]
    rw [div_lt_iff₀ (two_pow_pos_rat _)]
    constructor
    · intro hlt
      have : man < (-1 : Int) * 2 ^ (-exp).toNat := by omega
      exact_mod_cast this
    · intro hlt
      have : man < (-1 : Int) * 2 ^ (-exp).toNat := by exact_mod_cast hlt
      omega

theorem dispatch_test (x : MpfrVal) (c : gmpy_context) :
    (!mpfr_nan_p x && (decide (mpfr_cmp_si x 1 > 0) || decide (mpfr_cmp_si x (-1) < 0))
      && decide (c.allow_complex ≠ 0)) = true ↔ x.outside ∧ c.allow_complex ≠ 0 := by
  cases x with
  | nan => simp [mpfr_nan_p, MpfrVal.outside]
  | inf s => cases s <;> simp [mpfr_nan_p, mpfr_cmp_si, MpfrVal.outside]
  | num man exp =>
    have h1 := cmp_si_one_pos man exp
    have h2 := cmp_si_neg_one_neg man exp
    simp only [mpfr_nan_p, MpfrVal.outside, Bool.not_false, Bool.true_and, Bool.and_eq_true,
      Bool.or_eq_true, decide_eq_true_eq, h1, h2]

/-- C18 (counterexample). Under a context with `allow_complex` set, plus infinity, which
is not finite, is handed to the complex implementation by acos, asin and atanh. -/
theorem inverse_trig_infinity_goes_complex :
    MpfrVal.finite (MpfrVal.inf false) = false ∧
    _GMPy_MPFR_Acos unitCallees (MpfrVal.inf false) complexContext =
      MathResult.complex () ∧
    _GMPy_MPFR_Asin unitCallees (MpfrVal.inf false) complexContext =
      MathResult.complex () ∧
    _GMPy_MPFR_Atanh unitCallees (MpfrVal.inf false) complexContext =
      MathResult.complex () :=
  ⟨rfl, rfl, rfl, rfl⟩

/-- C18 (amended). acos, asin and atanh of a real operand x under a context c hand the
call to the complex implementation exactly when x is not NaN, x lies outside [-1, 1]
(the two infinities included) and `c.allow_complex` is set; in every other case the
real kernel is run and its outcome returned. -/
theorem inverse_trig_dispatch {C R : Type} (E : MathCallees C R) (x : MpfrVal)
    (c : gmpy_context) :
    (x.outside ∧ c.allow_complex ≠ 0 →
      _GMPy_MPFR_Acos E x c = MathResult.complex (E.GMPy_Complex_Acos x c) ∧
      _GMPy_MPFR_Asin E x c = MathResult.complex (E.GMPy_Complex_Asin x c) ∧
      _GMPy_MPFR_Atanh E x c = MathResult.complex (E.GMPy_Complex_Atanh x c)) ∧
    (¬ (x.outside ∧ c.allow_complex ≠ 0) →
      _GMPy_MPFR_Acos E x c = MathResult.real (E.mpfr_acos x c) ∧
      _GMPy_MPFR_Asin E x c = MathResult.real (E.mpfr_asin x c) ∧
      _GMPy_MPFR_Atanh E x c = MathResult.real (E.mpfr_atanh x c)) := by
  have ht := dispatch_test x c
  constructor
  · intro h
    have hc := ht.mpr h
    simp only [_GMPy_MPFR_Acos, _GMPy_MPFR_Asin, _GMPy_MPFR_Atanh]
    rw [if_pos hc, if_pos hc, if_pos hc]
    exact ⟨rfl, rfl, rfl⟩
  · intro h
    have hc : ¬ ((!mpfr_nan_p x &&
        (decide (mpfr_cmp_si x 1 > 0) || decide (mpfr_cmp_si x (-1) < 0))
        && decide (c.allow_complex ≠ 0)) = true) := fun hh => h (ht.mp hh)
    simp only [_GMPy_MPFR_Acos, _GMPy_MPFR_Asin, _GMPy_MPFR_Atanh]
    rw [if_neg hc, if_neg hc, if_neg hc]
    exact ⟨rfl, rfl, rfl⟩

theorem inverse_trig_dispatch_witness :
    _GMPy_MPFR_Acos unitCallees (MpfrVal.num 3 (-1)) complexContext =
      MathResult.complex () ∧
    _GMPy_MPFR_Acos unitCallees (MpfrVal.num 1 (-1)) complexContext =
      MathResult.real () :=
  ⟨((inverse_trig_dispatch unitCallees (MpfrVal.num 3 (-1)) complexContext).1
      ⟨Or.inl (by norm_num [dyadic]), by decide⟩).1,
    ((inverse_trig_dispatch unitCallees (MpfrVal.num 1 (-1)) complexContext).2
      (fun h => by
        have := h.1
        norm_num [MpfrVal.outside, dyadic] at this)).1⟩

/-! ## In-place shifts of xmpz (C19) -/

theorem toULong_of_long (n : Int) (h0 : 0 ≤ n) (h1 : n < 9223372036854775808) :
    toULong n = n.toNat := by
  unfold toULong
  rw [Int.emod_eq_of_lt h0 (by omega)]

theorem gmp_si_of_fits (n : Int) (h0 : 0 ≤ n) (h1 : n < 9223372036854775808) :
    PyLong_AsGmp_siAndOverflow n = (n, 0) := by
  have : mpz_fits_slong_p n = true := (fits_slong_iff n).mpr (by omega)
  simp [PyLong_AsGmp_siAndOverflow, PyLong_AsLongAndOverflow, this]

/-- C19. For a Python integer count n with 0 ≤ n < 2 ^ 63, `Pyxmpz_inplace_lshift(a, n)`
replaces the value of a by a * 2 ^ n and then returns `NotImplemented`, not a, while
`Pyxmpz_inplace_rshift(a, n)` stores floor(a / 2 ^ n) and returns a. -/
theorem inplace_lshift_returns_notimplemented (a n : Int) (h0 : 0 ≤ n)
    (h1 : n < 9223372036854775808) :
    Pyxmpz_inplace_lshift a (PyArg.pylong n) =
      ⟨a * 2 ^ n.toNat, InplaceRet.notImplemented⟩ ∧
    Pyxmpz_inplace_rshift a (PyArg.pylong n) =
      ⟨Int.fdiv a (2 ^ n.toNat), InplaceRet.self⟩ := by
  have hc := gmp_si_of_fits n h0 h1
  have hu := toULong_of_long n h0 h1
  simp [Pyxmpz_inplace_lshift, Pyxmpz_inplace_rshift, hc, hu, h0, mpz_mul_2exp,
    mpz_fdiv_q_2exp]

theorem inplace_lshift_returns_notimplemented_witness :
    Pyxmpz_inplace_lshift 1 (PyArg.pylong 3) = ⟨1 * 2 ^ (3 : Int).toNat,
      InplaceRet.notImplemented⟩ ∧
    Pyxmpz_inplace_rshift 1 (PyArg.pylong 3) = ⟨Int.fdiv 1 (2 ^ (3 : Int).toNat),
      InplaceRet.self⟩ :=
  inplace_lshift_returns_notimplemented 1 3 (by decide) (by decide)

/-! ## Failing in-place operations leave the operand alone (C20) -/

theorem storeKernel_not_error (a : Int) (r : Option Int) (e : PyExc) :
    (storeKernel a r).ret ≠ InplaceRet.error e := by
  cases r <;> simp [storeKernel]

theorem inplace_floordiv_error (a : Int) (b : PyArg) (e : PyExc)
    (h : (Pyxmpz_inplace_floordiv a b).ret = InplaceRet.error e) :
    (Pyxmpz_inplace_floordiv a b).value = a := by
  cases b with
  | pylong n =>
    simp only [Pyxmpz_inplace_floordiv] at h ⊢
    split_ifs at h ⊢
    all_goals first
      | rfl
      | exact absurd h (storeKernel_not_error _ _ _)
  | mpzany z =>
    simp only [Pyxmpz_inplace_floordiv] at h ⊢
    split_ifs at h ⊢
    all_goals first
      | rfl
      | exact absurd h (storeKernel_not_error _ _ _)
  | other => rfl

theorem inplace_rem_error (a : Int) (b : PyArg) (e : PyExc)
    (h : (Pyxmpz_inplace_rem a b).ret = InplaceRet.error e) :
    (Pyxmpz_inplace_rem a b).value = a := by
  cases b with
  | pylong n =>
    simp only [Pyxmpz_inplace_rem] at h ⊢
    split_ifs at h ⊢
    all_goals first
      | rfl
      | exact absurd h (storeKernel_not_error _ _ _)
  | mpzany z =>
    simp only [Pyxmpz_inplace_rem] at h ⊢
    split_ifs at h ⊢
    all_goals first
      | rfl
      | exact absurd h (storeKernel_not_error _ _ _)
  | other => rfl

theorem inplace_rshift_error (a : Int) (b : PyArg) (e : PyExc)
    (h : (Pyxmpz_inplace_rshift a b).ret = InplaceRet.error e) :
    (Pyxmpz_inplace_rshift a b).value = a := by
  cases b with
  | pylong n =>
    simp only [Pyxmpz_inplace_rshift] at h ⊢
    split_ifs at h ⊢
    all_goals rfl
  | mpzany z =>
    simp only [Pyxmpz_inplace_rshift] at h ⊢
    split_ifs at h ⊢
    all_goals rfl
  | other => rfl

theorem inplace_lshift_error (a : Int) (b : PyArg) (e : PyExc)
    (h : (Pyxmpz_inplace_lshift a b).ret = InplaceRet.error e) :
    (Pyxmpz_inplace_lshift a b).value = a := by
  cases b with
  | pylong n =>
    simp only [Pyxmpz_inplace_lshift] at h ⊢
    split_ifs at h ⊢
    all_goals rfl
  | mpzany z =>
    simp only [Pyxmpz_inplace_lshift] at h ⊢
    split_ifs at h ⊢
    all_goals rfl
  | other => rfl

theorem inplace_pow_error (a : Int) (b : PyArg) (m : Option PyArg) (e : PyExc)
    (h : (Pyxmpz_inplace_pow a b m).ret = InplaceRet.error e) :
    (Pyxmpz_inplace_pow a b m).value = a := by
  unfold Pyxmpz_inplace_pow at h ⊢
  by_cases hm : m.isSome = true
  · rw [if_pos hm]
  · rw [if_neg hm] at h ⊢
    cases hb : Pympz_From_Integer b with
    | none => rfl
    | some ex =>
      rw [hb] at h
      simp only at h ⊢
      split_ifs at h ⊢
      all_goals rfl

/-- The errors of the in-place operations: a zero divisor raises `ZeroDivisionError`, a
negative shift count `ValueError`, an oversized shift count `OverflowError`, a
negative or oversized exponent `ValueError`, a non-integer exponent `TypeError`, a
modulus `SystemError`; the operand keeps its value each time. -/
theorem inplace_error_cases (a : Int) :
    Pyxmpz_inplace_floordiv a (PyArg.pylong 0) = ⟨a, InplaceRet.error PyExc.ZeroDivisionError⟩ ∧
    Pyxmpz_inplace_floordiv a (PyArg.mpzany 0) = ⟨a, InplaceRet.error PyExc.ZeroDivisionError⟩ ∧
    Pyxmpz_inplace_rem a (PyArg.pylong 0) = ⟨a, InplaceRet.error PyExc.ZeroDivisionError⟩ ∧
    Pyxmpz_inplace_rem a (PyArg.mpzany 0) = ⟨a, InplaceRet.error PyExc.ZeroDivisionError⟩ ∧
    Pyxmpz_inplace_rshift a (PyArg.pylong (-1)) = ⟨a, InplaceRet.error PyExc.ValueError⟩ ∧
    Pyxmpz_inplace_lshift a (PyArg.pylong (-1)) = ⟨a, InplaceRet.error PyExc.ValueError⟩ ∧
    Pyxmpz_inplace_rshift a (PyArg.pylong 9223372036854775808) =
      ⟨a, InplaceRet.error PyExc.OverflowError⟩ ∧
    Pyxmpz_inplace_lshift a (PyArg.mpzany 9223372036854775808) =
      ⟨a, InplaceRet.error PyExc.OverflowError⟩ ∧
    Pyxmpz_inplace_pow a (PyArg.pylong (-1)) none = ⟨a, InplaceRet.error PyExc.ValueError⟩ ∧
    Pyxmpz_inplace_pow a (PyArg.pylong 18446744073709551616) none =
      ⟨a, InplaceRet.error PyExc.ValueError⟩ ∧
    Pyxmpz_inplace_pow a PyArg.other none = ⟨a, InplaceRet.error PyExc.TypeError⟩ ∧
    Pyxmpz_inplace_pow a (PyArg.pylong 2) (some (PyArg.pylong 5)) =
      ⟨a, InplaceRet.error PyExc.SystemError⟩ :=
  ⟨rfl, rfl, rfl, rfl, rfl, rfl, rfl, rfl, rfl, rfl, rfl, rfl⟩

/-- C20. Whenever an in-place operation on an xmpz (floordiv, rem, rshift, lshift, pow)
returns with an exception set, the xmpz operand holds the value it held before the
call. -/
theorem inplace_error_keeps_value (a : Int) (b : PyArg) (m : Option PyArg) (e : PyExc) :
    ((Pyxmpz_inplace_floordiv a b).ret = InplaceRet.error e →
      (Pyxmpz_inplace_floordiv a b).value = a) ∧
    ((Pyxmpz_inplace_rem a b).ret = InplaceRet.error e →
      (Pyxmpz_inplace_rem a b).value = a) ∧
    ((Pyxmpz_inplace_rshift a b).ret = InplaceRet.error e →
      (Pyxmpz_inplace_rshift a b).value = a) ∧
    ((Pyxmpz_inplace_lshift a b).ret = InplaceRet.error e →
      (Pyxmpz_inplace_lshift a b).value = a) ∧
    ((Pyxmpz_inplace_pow a b m).ret = InplaceRet.error e →
      (Pyxmpz_inplace_pow a b m).value = a) :=
  ⟨inplace_floordiv_error a b e, inplace_rem_error a b e, inplace_rshift_error a b e,
    inplace_lshift_error a b e, inplace_pow_error a b m e⟩

theorem inplace_error_keeps_value_witness :
    (Pyxmpz_inplace_floordiv 7 (PyArg.pylong 0)).value = 7 ∧
    (Pyxmpz_inplace_rem 7 (PyArg.mpzany 0)).value = 7 ∧
    (Pyxmpz_inplace_rshift 7 (PyArg.pylong (-1))).value = 7 ∧
    (Pyxmpz_inplace_lshift 7 (PyArg.mpzany 9223372036854775808)).value = 7 ∧
    (Pyxmpz_inplace_pow 7 PyArg.other none).value = 7 :=
  ⟨(inplace_error_keeps_value 7 (PyArg.pylong 0) none PyExc.ZeroDivisionError).1
      (by decide),
    (inplace_error_keeps_value 7 (PyArg.mpzany 0) none PyExc.ZeroDivisionError).2.1
      (by decide),
    (inplace_error_keeps_value 7 (PyArg.pylong (-1)) none PyExc.ValueError).2.2.1
      (by decide),
    (inplace_error_keeps_value 7 (PyArg.mpzany 9223372036854775808) none
      PyExc.OverflowError).2.2.2.1 (by decide),
    (inplace_error_keeps_value 7 PyArg.other none PyExc.TypeError).2.2.2.2 (by decide)⟩

/-! ## context.abs() on a read-only context (C21) -/

theorem take_set_length {α : Type} (l : List α) (a b : α) :
    ((l ++ [a]).set l.length b).take l.length = l := by
  rw [List.set_append_right _ _ (le_refl _)]
  exact List.take_left _ _

theorem finishRun_frame (S : Contexts) (k : Nat) (run : MpfrRun) :
    (finishRun S k run).1.current = S.current ∧
      (finishRun S k run).1.heap = S.heap.set k run.ctx :=
  ⟨rfl, rfl⟩

/-- The operation writes to no context but the one it is given: the heap afterwards is
the heap before, or the heap before with that one object changed. -/
theorem number_abs_frame (E : AbsCallees) (S : Contexts) (x : Number) (k : Nat) :
    (GMPy_Number_Abs E S x (some k)).1.current = S.current ∧
      ((GMPy_Number_Abs E S x (some k)).1.heap = S.heap ∨
        ∃ c, (GMPy_Number_Abs E S x (some k)).1.heap = S.heap.set k c) := by
  cases x with
  | integer z => exact ⟨rfl, Or.inl rfl⟩
  | rational q => exact ⟨rfl, Or.inl rfl⟩
  | other => exact ⟨rfl, Or.inl rfl⟩
  | real v =>
    simp only [GMPy_Number_Abs, IS_INTEGER, IS_RATIONAL_ONLY, IS_REAL_ONLY, GMPy_Real_Abs,
      IS_REAL, Bool.false_eq_true, if_false, if_true]
    cases S.heap[k]? with
    | none => exact ⟨rfl, Or.inl rfl⟩
    | some c =>
      simp only []
      cases E.GMPy_MPFR_From_Real_Temp (Number.real v) c with
      | ok t => exact ⟨rfl, Or.inr ⟨_, rfl⟩⟩
      | raise e => exact ⟨rfl, Or.inl rfl⟩
      | fault => exact ⟨rfl, Or.inl rfl⟩
  | complex re im =>
    simp only [GMPy_Number_Abs, IS_INTEGER, IS_RATIONAL_ONLY, IS_REAL_ONLY, IS_COMPLEX_ONLY,
      GMPy_Complex_Abs, IS_COMPLEX, Bool.false_eq_true, if_false, if_true]
    cases S.heap[k]? with
    | none => exact ⟨rfl, Or.inl rfl⟩
    | some c =>
      simp only []
      cases E.GMPy_MPC_From_Complex_Temp (Number.complex re im) c with
      | ok t => exact ⟨rfl, Or.inr ⟨_, rfl⟩⟩
      | raise e => exact ⟨rfl, Or.inl rfl⟩
      | fault => exact ⟨rfl, Or.inl rfl⟩

/-- The result of the operation under a context pointer depends on the heap only through
the object at that pointer. -/
theorem number_abs_result (E : AbsCallees) (S T : Contexts) (x : Number) (k m : Nat)
    (h : S.heap[k]? = T.heap[m]?) :
    (GMPy_Number_Abs E S x (some k)).2 = (GMPy_Number_Abs E T x (some m)).2 := by
  cases x with
  | integer z => rfl
  | rational q => rfl
  | other => rfl
  | real v =>
    simp only [GMPy_Number_Abs, IS_INTEGER, IS_RATIONAL_ONLY, IS_REAL_ONLY, GMPy_Real_Abs,
      IS_REAL, Bool.false_eq_true, if_false, if_true, h]
    cases T.heap[m]? with
    | none => rfl
    | some c =>
      simp only []
      cases E.GMPy_MPFR_From_Real_Temp (Number.real v) c with
      | ok t => rfl
      | raise e => rfl
      | fault => rfl
  | complex re im =>
    simp only [GMPy_Number_Abs, IS_INTEGER, IS_RATIONAL_ONLY, IS_REAL_ONLY, IS_COMPLEX_ONLY,
      GMPy_Complex_Abs, IS_COMPLEX, Bool.false_eq_true, if_false, if_true, h]
    cases T.heap[m]? with
    | none => rfl
    | some c =>
      simp only []
      cases E.GMPy_MPC_From_Complex_Temp (Number.complex re im) c with
      | ok t => rfl
      | raise e => rfl
      | fault => rfl

/-- C21. `context.abs(x)` on a read-only context performs the operation on a new copy:
every context object, the read-only one among them, is left with the fields it had,
for every argument list and whether the call returns a value or an exception, and
the value or exception returned for an argument x is the one `GMPy_Number_Abs` gives
for x under a context object whose fields are those of `GMPyContext_context_copy` of
the read-only context (an argument list that does not hold one argument raises
`TypeError`). On a context that is not read-only the operation is `GMPy_Number_Abs`
under that context itself. -/
theorem context_abs_readonly (E : AbsCallees) (S : Contexts) (p : Nat) (c : gmpy_context)
    (hp : S.heap[p]? = some c) :
    (c.readonly ≠ 0 → ∀ args,
      (GMPy_Context_Abs E S (some p) args).1 = S ∧
      (GMPy_Context_Abs E S (some p) args).1.heap[p]? = some c) ∧
    (c.readonly ≠ 0 →
      (∀ x, (GMPy_Context_Abs E S (some p) [x]).2 =
        (GMPy_Number_Abs E { heap := [E.GMPyContext_context_copy c], current := 0 } x
          (some 0)).2) ∧
      (∀ args, args.length ≠ 1 →
        (GMPy_Context_Abs E S (some p) args).2 = Outcome.raise PyExc.TypeError)) ∧
    (c.readonly = 0 → ∀ x,
      GMPy_Context_Abs E S (some p) [x] = GMPy_Number_Abs E S x (some p)) := by
  refine ⟨?_, ?_, ?_⟩
  · intro hro args
    have key : (GMPy_Context_Abs E S (some p) args).1 = S := by
      match args with
      | [] => rfl
      | _ :: _ :: _ => rfl
      | [x] =>
        simp only [GMPy_Context_Abs, hp, hro, ne_eq, not_false_eq_true, if_true]
        obtain ⟨hc, hh⟩ := number_abs_frame E
          { S with heap := S.heap ++ [E.GMPyContext_context_copy c] } x S.heap.length
        have hheap : ((GMPy_Number_Abs E
            { S with heap := S.heap ++ [E.GMPyContext_context_copy c] } x
            (some S.heap.length)).1.heap).take S.heap.length = S.heap := by
          rcases hh with h | ⟨c', h⟩
          · rw [h]; exact List.take_left _ _
          · rw [h]; exact take_set_length _ _ _
        rw [hheap]
        cases S with
        | mk heap current =>
          simp only at hc ⊢
          rw [hc]
    exact ⟨key, by rw [key]; exact hp⟩
  · intro hro
    constructor
    · intro x
      simp only [GMPy_Context_Abs, hp, hro, ne_eq, not_false_eq_true, if_true]
      exact number_abs_result E _ _ x _ _ (by simp)
    · intro args hlen
      match args, hlen with
      | [], _ => rfl
      | _ :: _ :: _, _ => rfl
      | [x], hlen => exact absurd rfl hlen
  · intro hrw x
    simp [GMPy_Context_Abs, hp, hrw]

theorem context_abs_readonly_witness :
    (∀ args, (GMPy_Context_Abs sampleAbsCallees sampleContexts (some 0) args).1 =
        sampleContexts ∧
      (GMPy_Context_Abs sampleAbsCallees sampleContexts (some 0) args).1.heap[0]? =
        some { complexContext with readonly := 1 }) ∧
    (GMPy_Context_Abs sampleAbsCallees sampleContexts (some 0)
        [Number.real (MpfrVal.num (-3) 0)]).2 =
      Outcome.ok (AbsValue.mpfr (MpfrVal.num 3 0)) ∧
    (GMPy_Context_Abs sampleAbsCallees sampleContexts (some 0)
        [Number.integer (-3)]).2 = Outcome.ok (AbsValue.mpz 3) ∧
    (GMPy_Context_Abs sampleAbsCallees sampleContexts (some 0) []).2 =
      Outcome.raise PyExc.TypeError ∧
    (GMPy_Context_Abs sampleAbsCallees sampleContexts (some 1)
        [Number.real (MpfrVal.num (-3) 0)]).1.heap =
      [{ complexContext with readonly := 1 }, { complexContext with inexact := 1 }] :=
  have h := context_abs_readonly sampleAbsCallees sampleContexts 0
    { complexContext with readonly := 1 } rfl
  ⟨h.1 (by decide),
    ((h.2.1 (by decide)).1 (Number.real (MpfrVal.num (-3) 0))).trans (by decide),
    ((h.2.1 (by decide)).1 (Number.integer (-3))).trans (by decide),
    (h.2.1 (by decide)).2 [] (by decide), by decide⟩

/-! ## abs() by operand kind (C22) -/

theorem abs_canonical (q : Mpq) (h : q.canonical) :
    (⟨|q.num|, q.den⟩ : Mpq).canonical ∧ (⟨|q.num|, q.den⟩ : Mpq).toRat = |q.toRat| := by
  obtain ⟨hd, hg⟩ := h
  constructor
  · refine ⟨hd, ?_⟩
    show Int.gcd |q.num| q.den = 1
    rw [Int.gcd, Int.natAbs_abs]
    exact hg
  · have hdq : (0 : ℚ) < (q.den : ℚ) := by exact_mod_cast hd
    show ((|q.num| : Int) : ℚ) / (q.den : ℚ) = |(q.num : ℚ) / (q.den : ℚ)|
    rw [abs_div, abs_of_pos hdq, Int.cast_abs]

/-- C22. Under a context c, `GMPy_Number_Abs` returns the mpz |z| for an integer z; for a
rational q the mpq with numerator |num q| and the denominator of q, which is
canonical and equals |q| when q is canonical; for a real the result of the `mpfr_abs`
run on the converted operand, an mpfr when that run returns one; for a complex the
result of the `mpfr_hypot` run on the real and the imaginary part of the converted
operand, again an mpfr; and raises `TypeError` for an operand of no numeric kind. -/
theorem number_abs_kinds (E : AbsCallees) (S : Contexts) (k : Nat) (c : gmpy_context)
    (hk : S.heap[k]? = some c) :
    (∀ z, GMPy_Number_Abs E S (Number.integer z) (some k) =
      (S, Outcome.ok (AbsValue.mpz |z|))) ∧
    (∀ q, GMPy_Number_Abs E S (Number.rational q) (some k) =
        (S, Outcome.ok (AbsValue.mpq ⟨|q.num|, q.den⟩)) ∧
      (q.canonical → (⟨|q.num|, q.den⟩ : Mpq).canonical ∧
        (⟨|q.num|, q.den⟩ : Mpq).toRat = |q.toRat|)) ∧
    (∀ v t, E.GMPy_MPFR_From_Real_Temp (Number.real v) c = Outcome.ok t →
      GMPy_Number_Abs E S (Number.real v) (some k) = finishRun S k (E.mpfr_abs t c) ∧
      ∀ r, (E.mpfr_abs t c).result = Outcome.ok r →
        (GMPy_Number_Abs E S (Number.real v) (some k)).2 = Outcome.ok (AbsValue.mpfr r)) ∧
    (∀ re im t, E.GMPy_MPC_From_Complex_Temp (Number.complex re im) c = Outcome.ok t →
      GMPy_Number_Abs E S (Number.complex re im) (some k) =
        finishRun S k (E.mpfr_hypot t.1 t.2 c) ∧
      ∀ r, (E.mpfr_hypot t.1 t.2 c).result = Outcome.ok r →
        (GMPy_Number_Abs E S (Number.complex re im) (some k)).2 =
          Outcome.ok (AbsValue.mpfr r)) ∧
    GMPy_Number_Abs E S Number.other (some k) = (S, Outcome.raise PyExc.TypeError) := by
  refine ⟨fun z => rfl, fun q => ⟨rfl, abs_canonical q⟩, ?_, ?_, rfl⟩
  · intro v t ht
    have h : GMPy_Number_Abs E S (Number.real v) (some k) =
        finishRun S k (E.mpfr_abs t c) := by
      simp [GMPy_Number_Abs, IS_INTEGER, IS_RATIONAL_ONLY, IS_REAL_ONLY, GMPy_Real_Abs,
        IS_REAL, hk, ht]
    refine ⟨h, fun r hr => ?_⟩
    rw [h]
    simp [finishRun, hr]
  · intro re im t ht
    have h : GMPy_Number_Abs E S (Number.complex re im) (some k) =
        finishRun S k (E.mpfr_hypot t.1 t.2 c) := by
      simp [GMPy_Number_Abs, IS_INTEGER, IS_RATIONAL_ONLY, IS_REAL_ONLY, IS_COMPLEX_ONLY,
        GMPy_Complex_Abs, IS_COMPLEX, hk, ht]
    refine ⟨h, fun r hr => ?_⟩
    rw [h]
    simp [finishRun, hr]

theorem number_abs_kinds_witness :
    GMPy_Number_Abs sampleAbsCallees sampleContexts (Number.integer (-3)) (some 1) =
      (sampleContexts, Outcome.ok (AbsValue.mpz |(-3)|)) ∧
    GMPy_Number_Abs sampleAbsCallees sampleContexts (Number.rational ⟨-3, 4⟩) (some 1) =
      (sampleContexts, Outcome.ok (AbsValue.mpq ⟨|(-3)|, 4⟩)) ∧
    GMPy_Number_Abs sampleAbsCallees sampleContexts Number.other (some 1) =
      (sampleContexts, Outcome.raise PyExc.TypeError) :=
  have h := number_abs_kinds sampleAbsCallees sampleContexts 1 complexContext rfl
  ⟨h.1 (-3), (h.2.1 ⟨-3, 4⟩).1, h.2.2.2.2⟩

/-! ## Bounds on the caches (C23) -/

theorem wrapInt_big (d : Int) (h0 : 2147483648 ≤ d) (h1 : d < 4294967296) :
    wrapInt d = d - 4294967296 := by
  unfold wrapInt
  omega

/-- The object cache limits are bounded as documented: `set_zcache(n)` and
`set_qcache(n)` are accepted exactly when 0 ≤ n ≤ 1000 and otherwise raise
`ValueError` and leave the module as it was. -/
theorem set_cache_guard (st : Module) (n : Int) :
    ((0 ≤ n ∧ n ≤ 1000) → Pygmpy_set_zcache st n = (set_zcache st n, Outcome.ok ()) ∧
      Pygmpy_set_qcache st n = (set_qcache st n, Outcome.ok ())) ∧
    (¬ (0 ≤ n ∧ n ≤ 1000) →
      Pygmpy_set_zcache st n = (st, Outcome.raise PyExc.ValueError) ∧
      Pygmpy_set_qcache st n = (st, Outcome.raise PyExc.ValueError)) := by
  constructor
  · intro h
    have h1 : ¬ n < 0 := by omega
    have h2 : ¬ n > MAX_CACHE := by unfold MAX_CACHE; omega
    simp [Pygmpy_set_zcache, Pygmpy_set_qcache, h1, h2]
  · intro h
    by_cases h1 : n < 0
    · simp [Pygmpy_set_zcache, Pygmpy_set_qcache, h1]
    · have h2 : n > MAX_CACHE := by unfold MAX_CACHE; omega
      simp [Pygmpy_set_zcache, Pygmpy_set_qcache, h1, h2]

/-- When the difference of the two arguments fits an `int`, `set_zconst(min, max)` is
rejected with `ValueError`, the module left as it was, unless 0 ≤ max - min ≤ 1000. -/
theorem set_zconst_guard_in_range (st : Module) (newmin newmax : Int)
    (hd : newmax - newmin < 2147483648) (hd0 : -2147483648 ≤ newmax - newmin)
    (h : ¬ (0 ≤ newmax - newmin ∧ newmax - newmin ≤ 1000)) :
    Pygmpy_set_zconst st newmin newmax = (st, Outcome.raise PyExc.ValueError) := by
  unfold Pygmpy_set_zconst
  by_cases h1 : newmin > newmax
  · rw [if_pos h1]
  · rw [if_neg h1, wrapInt_id _ (by omega) hd, if_pos (by unfold MAX_CACHE; omega)]

/-- C23. When max - min does not fit an `int` (it is 2 ^ 31 or more), the difference
that `set_zconst(min, max)` tests wraps to a negative number: the request is not
rejected with `ValueError`, although far more than 1000 entries are asked for, and
the table is then filled through an array that was not allocated for it. -/
theorem set_zconst_guard_wraps (st : Module) (newmin newmax : Int) (h1 : isCInt newmin)
    (h2 : isCInt newmax) (hd : 2147483648 ≤ newmax - newmin) :
    (Pygmpy_set_zconst st newmin newmax).2 = Outcome.fault ∧
    (Pygmpy_set_zconst st newmin newmax).2 ≠ Outcome.raise PyExc.ValueError ∧
    ¬ (newmax - newmin ≤ 1000) := by
  unfold isCInt at h1 h2
  have hw := wrapInt_big (newmax - newmin) hd (by omega)
  have hf : (Pygmpy_set_zconst st newmin newmax).2 = Outcome.fault := by
    unfold Pygmpy_set_zconst
    rw [if_neg (by omega), hw, if_neg (by unfold MAX_CACHE; omega)]
    have hs : set_zconst st newmin newmax = Outcome.fault := by
      unfold set_zconst
      simp only []
      rw [if_pos (by omega), hw, if_pos (by omega)]
    rw [hs]
  refine ⟨hf, ?_, by omega⟩
  rw [hf]
  simp

theorem set_zconst_guard_wraps_witness :
    (Pygmpy_set_zconst initModule (-2147483648) 2147483647).2 = Outcome.fault ∧
    (Pygmpy_set_zconst initModule (-2147483648) 2147483647).2 ≠
      Outcome.raise PyExc.ValueError ∧
    ¬ ((2147483647 : Int) - (-2147483648) ≤ 1000) :=
  set_zconst_guard_wraps initModule (-2147483648) 2147483647 (by decide) (by decide)
    (by decide)

/-! ## Unbalanced parentheses around an mpc string (C24) -/

theorem isspace_NUL : isspace NUL = false := by decide

theorem forward_scan (s : List Char) :
    ∃ c rest, (s ++ [NUL]).dropWhile isspace = c :: rest ∧ (c == '(') = leadingParen s := by
  rw [List.dropWhile_append]
  cases h : s.dropWhile isspace with
  | nil =>
    refine ⟨NUL, [], ?_, ?_⟩
    · simp [isspace_NUL]
    · simp [leadingParen, h]
      decide
  | cons c r =>
    refine ⟨c, r ++ [NUL], by simp, ?_⟩
    simp [leadingParen, h]

theorem backward_scan (front s : List Char) (h : nonBlank s = true) :
    ∃ c0 r0, (s.reverse ++ front).dropWhile isspace = c0 :: (r0 ++ front) ∧
      (c0 == ')') = trailingParen s := by
  rw [List.dropWhile_append]
  cases hd : s.reverse.dropWhile isspace with
  | nil =>
    exfalso
    rw [List.dropWhile_eq_nil_iff] at hd
    simp only [nonBlank, List.any_eq_true, Bool.not_eq_true'] at h
    obtain ⟨c, hc, hs⟩ := h
    have := hd c (List.mem_reverse.mpr hc)
    rw [hs] at this
    exact absurd this (by simp)
  | cons c r =>
    refine ⟨c, r, by simp, ?_⟩
    simp [trailingParen, hd]

theorem blank_no_paren (s : List Char) (h : nonBlank s = false) :
    leadingParen s = false ∧ trailingParen s = false := by
  have hall : ∀ c ∈ s, isspace c = true := by
    intro c hc
    by_contra hne
    have : nonBlank s = true := by
      simp only [nonBlank, List.any_eq_true, Bool.not_eq_true']
      exact ⟨c, hc, by simpa using hne⟩
    rw [h] at this
    exact absurd this (by simp)
  have h1 : s.dropWhile isspace = [] := List.dropWhile_eq_nil_iff.mpr hall
  have h2 : s.reverse.dropWhile isspace = [] :=
    List.dropWhile_eq_nil_iff.mpr (fun c hc => hall c (List.mem_reverse.mp hc))
  simp [leadingParen, trailingParen, h1, h2]

/-- The parentheses test of `PyStr2Pympc` on a string with a character that is no
whitespace: it raises `ValueError` exactly when one of the leading `(` and the
trailing `)` is there without the other. -/
theorem parens_spec (front s : List Char) (hf : front ≠ []) (h : nonBlank s = true) :
    (leadingParen s ≠ trailingParen s →
      PyStr2Pympc_parens front s = Outcome.raise PyExc.ValueError) ∧
    (leadingParen s = trailingParen s → ∃ p, PyStr2Pympc_parens front s = Outcome.ok p) := by
  obtain ⟨c0, r0, hb, hlast⟩ := backward_scan front s h
  obtain ⟨c, rest, hfw, hfirst⟩ := forward_scan s
  obtain ⟨f0, fr, hfront⟩ : ∃ f0 fr, front = f0 :: fr := by
    cases front with
    | nil => exact absurd rfl hf
    | cons a b => exact ⟨a, b, rfl⟩
  have hr1 : ∃ c1 r2, (if (c0 == ')') = true then r0 ++ front else c0 :: (r0 ++ front)) =
      c1 :: r2 := by
    by_cases hc : (c0 == ')') = true
    · rw [if_pos hc]
      cases r0 with
      | nil => exact ⟨f0, fr, by simp [hfront]⟩
      | cons a b => exact ⟨a, b ++ front, by simp⟩
    · rw [if_neg hc]
      exact ⟨c0, r0 ++ front, rfl⟩
  obtain ⟨c1, r2, hr1⟩ := hr1
  unfold PyStr2Pympc_parens
  rw [hb]
  simp only []
  rw [hr1]
  simp only []
  rw [hfw]
  simp only []
  rw [hfirst, hlast]
  constructor
  · intro hne
    have : (if leadingParen s = true then 1 else 0) ≠
        (if trailingParen s = true then (1 : Nat) else 0) := by
      cases hl : leadingParen s <;> cases ht : trailingParen s <;> simp_all
    rw [if_pos this]
  · intro heq
    have : ¬ ((if leadingParen s = true then 1 else 0) ≠
        (if trailingParen s = true then (1 : Nat) else 0)) := by
      rw [heq]
      simp
    rw [if_neg this]
    exact ⟨_, rfl⟩

/-- C24. `PyStr2Pympc` raises `ValueError` for every string in which one of the leading
`(` and the trailing `)` (whitespace around them skipped) is there without the
other, whatever the reader of the components would do; and for a string with both or
neither, and some character that is no whitespace, the parentheses test passes and
the outcome is that of reading the components. -/
theorem mpc_string_parens (front s : List Char) (hf : front ≠ []) :
    (leadingParen s ≠ trailingParen s →
      ∀ mpfr_strtofr, PyStr2Pympc mpfr_strtofr front s = Outcome.raise PyExc.ValueError) ∧
    (nonBlank s = true → leadingParen s = trailingParen s →
      ∃ p, PyStr2Pympc_parens front s = Outcome.ok p ∧
        ∀ mpfr_strtofr, s.any (fun c => c == NUL) = false →
          PyStr2Pympc mpfr_strtofr front s = PyStr2Pympc_components mpfr_strtofr p) := by
  constructor
  · intro hne K
    have hnb : nonBlank s = true := by
      cases hb : nonBlank s with
      | true => rfl
      | false =>
        obtain ⟨h1, h2⟩ := blank_no_paren s hb
        rw [h1, h2] at hne
        exact absurd rfl hne
    unfold PyStr2Pympc
    split_ifs
    · rfl
    · rw [(parens_spec front s hf hnb).1 hne]
  · intro hnb heq
    obtain ⟨p, hp⟩ := (parens_spec front s hf hnb).2 heq
    refine ⟨p, hp, fun K hn => ?_⟩
    unfold PyStr2Pympc
    rw [hn, hp]
    simp

theorem mpc_string_parens_witness :
    PyStr2Pympc sampleStrtofr [Char.ofNat 255] ['(', '1', ' ', '2'] =
      Outcome.raise PyExc.ValueError ∧
    PyStr2Pympc sampleStrtofr [Char.ofNat 255] [')'] = Outcome.raise PyExc.ValueError ∧
    (∃ p, PyStr2Pympc_parens [Char.ofNat 255] ['(', '1', ' ', '2', ')'] = Outcome.ok p ∧
      ∀ mpfr_strtofr, ['(', '1', ' ', '2', ')'].any (fun c => c == NUL) = false →
        PyStr2Pympc mpfr_strtofr [Char.ofNat 255] ['(', '1', ' ', '2', ')'] =
          PyStr2Pympc_components mpfr_strtofr p) :=
  ⟨(mpc_string_parens [Char.ofNat 255] ['(', '1', ' ', '2'] (by decide)).1 (by decide)
      sampleStrtofr,
    (mpc_string_parens [Char.ofNat 255] [')'] (by decide)).1 (by decide) sampleStrtofr,
    (mpc_string_parens [Char.ofNat 255] ['(', '1', ' ', '2', ')'] (by decide)).2
      (by decide) (by decide)⟩

/-- On a string of whitespace only (the empty string among them) the backward scan
leaves the string: whether the parentheses test passes then depends on the bytes in
front of the character data. -/
theorem parens_blank_reads_front :
    PyStr2Pympc_parens [')', Char.ofNat 255] [] = Outcome.raise PyExc.ValueError ∧
    PyStr2Pympc_parens [Char.ofNat 255] [] = Outcome.ok ⟨[], 0, -1⟩ ∧
    PyStr2Pympc_parens [] [' ', ' '] = Outcome.fault := by
  decide

/-! ## The sign code `+` in Python style (C25) -/

/-- C25. With the documented sign code `+` and the default Python style (or an explicit
`P`), `Pympc_format` raises `ValueError` ("Invalid conversion specification for
imag") as soon as the real part has been printed: the test before the imaginary
part lets only the codes space and `-` through. The same sign code passes in MPC
style, and the codes `-` and space pass in Python style. -/
theorem format_plus_rejected (K : FormatCallees) (re im : MpfrVal) :
    Pympc_format K re im ['+'] =
      (if (K.mpfr_asprintf ['%', '+', 'R', 'f'] re).isSome then
        Outcome.raise PyExc.ValueError else Outcome.raise PyExc.SystemError) ∧
    Pympc_format K re im ['+', 'P'] =
      (if (K.mpfr_asprintf ['%', '+', 'R', 'f'] re).isSome then
        Outcome.raise PyExc.ValueError else Outcome.raise PyExc.SystemError) ∧
    Pympc_format sampleFormat (MpfrVal.num 1 0) (MpfrVal.num 1 0) ['+'] =
      Outcome.raise PyExc.ValueError ∧
    Pympc_format sampleFormat (MpfrVal.num 1 0) (MpfrVal.num 1 0)
        ['<', '+', '1', '0', '.', '3', 'N', 'P', 'f'] = Outcome.raise PyExc.ValueError ∧
    Pympc_format sampleFormat (MpfrVal.num 1 0) (MpfrVal.num 1 0) ['+', 'M'] =
      Outcome.ok ['(', '+', '1', '.', '0', ' ', '+', '1', '.', '0', ')'] ∧
    Pympc_format sampleFormat (MpfrVal.num 1 0) (MpfrVal.num 1 0) ['-'] =
      Outcome.ok ['(', '1', '.', '0', '+', '1', '.', '0', 'j', ')'] ∧
    Pympc_format sampleFormat (MpfrVal.num 1 0) (MpfrVal.num 1 0) [' '] =
      Outcome.ok ['(', ' ', '1', '.', '0', '+', '1', '.', '0', 'j', ')'] := by
  have h1 : formatLoop formatStart ['+'] = some { formatStart with
      rfmt := ['%', '+'], ifmt := ['%', '+'], seensign := 1 } := by decide
  have h2 : formatLoop formatStart ['+', 'P'] = some { formatStart with
      rfmt := ['%', '+', 'R'], ifmt := ['%', '+', 'R'], seensign := 1, seendigits := 1,
      seenstyle := 1 } := by decide
  refine ⟨?_, ?_, by decide, by decide, by decide, by decide, by decide⟩
  · unfold Pympc_format
    rw [h1]
    cases h : K.mpfr_asprintf ['%', '+', 'R', 'f'] re <;>
      simp [formatDefaults, FormatState.pushBoth, formatStart, h]
  · unfold Pympc_format
    rw [h2]
    cases h : K.mpfr_asprintf ['%', '+', 'R', 'f'] re <;>
      simp [formatDefaults, FormatState.pushBoth, formatStart, h]

/-! ## Normalising twice (C26) -/

theorem mpn_add_1_length : ∀ (d : List Nat) (off n c : Nat),
    (mpn_add_1 d off n c).1.length = d.length := by
  intro d
  induction d with
  | nil => intro off n c; rfl
  | cons x xs ih =>
    intro off n c
    cases off with
    | zero =>
      cases n with
      | zero => rfl
      | succ n => simp [mpn_add_1, ih]
    | succ off => simp [mpn_add_1, ih]

theorem mpn_add_1_below : ∀ (d : List Nat) (off n c j : Nat), j < off →
    (mpn_add_1 d off n c).1[j]? = d[j]? := by
  intro d
  induction d with
  | nil => intro off n c j _; rfl
  | cons x xs ih =>
    intro off n c j hj
    cases off with
    | zero => omega
    | succ off =>
      cases j with
      | zero => simp [mpn_add_1]
      | succ j => simpa [mpn_add_1] using ih off n c j (by omega)

theorem set_same {α : Type} : ∀ (l : List α) (j : Nat) (a : α), l[j]? = some a →
    l.set j a = l := by
  intro l
  induction l with
  | nil => intro j a h; simp at h
  | cons x xs ih =>
    intro j a h
    cases j with
    | zero =>
      simp at h
      simp [h]
    | succ j =>
      simp at h
      simp [ih j a h]

theorem getElem?_set_other {α : Type} (l : List α) (i j : Nat) (a : α) (h : i ≠ j) :
    (l.set i a)[j]? = l[j]? := by
  rw [List.getElem?_set]
  simp [h]

theorem getElem?_set_here {α : Type} (l : List α) (i : Nat) (a : α) (h : i < l.length) :
    (l.set i a)[i]? = some a := by
  rw [List.getElem?_set]
  simp [h]

/-- What the store of `mpf_normalize` leaves: precision and limb count as before, as many
limbs as before, and a zero in the limb that was dropped. -/
theorem storeRounded_spec (f : mpf_struct) (t carry : Nat) (h0 : 0 < t)
    (ht : t < f._mp_d.length) (hts : t < mpf_size f) :
    (storeRounded f t carry)._mp_prec = f._mp_prec ∧
    (storeRounded f t carry)._mp_size = f._mp_size ∧
    (storeRounded f t carry)._mp_d.length = f._mp_d.length ∧
    (storeRounded f t carry)._mp_d[t - 1]? = some 0 := by
  have hd0 : (f._mp_d.set (t - 1) 0)[t - 1]? = some 0 :=
    getElem?_set_here _ _ _ (by omega)
  unfold storeRounded
  simp only []
  split_ifs
  · refine ⟨rfl, rfl, ?_, ?_⟩
    · simp only [List.length_set, mpn_add_1_length]
    · show ((mpn_add_1 (f._mp_d.set (t - 1) 0) t (mpf_size f - t) carry).1.set
        (mpf_size f - 1) 1)[t - 1]? = some 0
      rw [getElem?_set_other _ _ _ _ (by omega), mpn_add_1_below _ _ _ _ _ (by omega)]
      exact hd0
  · refine ⟨rfl, rfl, ?_, ?_⟩
    · simp only [List.length_set, mpn_add_1_length]
    · show (mpn_add_1 (f._mp_d.set (t - 1) 0) t (mpf_size f - t) carry).1[t - 1]? = some 0
      rw [mpn_add_1_below _ _ _ _ _ (by omega)]
      exact hd0
  · exact ⟨rfl, rfl, by simp only [List.length_set], hd0⟩

/-- A representation whose limb below the kept ones is already zero is returned as it
is. -/
theorem mpf_normalize_fixed (g : mpf_struct) (t : Int) (hi : Nat)
    (hT : (mpf_size g : Int) - (Int.tdiv (mpf_get_prec g) GMP_NUMB_BITS + 1) = t)
    (hlen : (mpf_size g : Int) ≤ (g._mp_d.length : Int))
    (hlo : g._mp_d[t.toNat - 1]? = some 0) (hhi : g._mp_d[t.toNat]? = some hi) :
    mpf_normalize g = Outcome.ok g := by
  have hc : roundCarry 0 hi = 0 := by simp [roundCarry]
  unfold mpf_normalize
  simp only []
  rw [hT]
  by_cases ht : t > 0
  · rw [if_pos ht, if_neg (by omega), hlo, hhi]
    simp only [hc, storeRounded, ne_eq, not_true_eq_false, if_false]
    rw [set_same _ _ _ hlo]
  · rw [if_neg ht]

/-- C26. For a limb representation f whose precision field is at least 1 and whose limb
count does not exceed its limb array (GMP keeps the count within precision + 1
limbs, the length of the array), `mpf_normalize` returns a representation g, and
normalising g returns g itself: no limb and no field changes the second time. -/
theorem mpf_normalize_idempotent (f : mpf_struct) (hprec : 1 ≤ f._mp_prec)
    (hsize : mpf_size f ≤ f._mp_d.length) :
    ∃ g, mpf_normalize f = Outcome.ok g ∧ mpf_normalize g = Outcome.ok g := by
  have hq : 0 ≤ Int.tdiv (mpf_get_prec f) GMP_NUMB_BITS := by
    apply Int.tdiv_nonneg
    · unfold mpf_get_prec GMP_NUMB_BITS; omega
    · unfold GMP_NUMB_BITS; omega
  obtain ⟨t, hT⟩ : ∃ t, t =
      (mpf_size f : Int) - (Int.tdiv (mpf_get_prec f) GMP_NUMB_BITS + 1) := ⟨_, rfl⟩
  have hlen : (mpf_size f : Int) ≤ (f._mp_d.length : Int) := by exact_mod_cast hsize
  by_cases ht : t > 0
  · have h1 : t.toNat - 1 < f._mp_d.length := by omega
    have h2 : t.toNat < f._mp_d.length := by omega
    obtain ⟨lo, hlo⟩ : ∃ lo, f._mp_d[t.toNat - 1]? = some lo :=
      ⟨_, List.getElem?_eq_getElem h1⟩
    obtain ⟨hi, hhi⟩ : ∃ hi, f._mp_d[t.toNat]? = some hi :=
      ⟨_, List.getElem?_eq_getElem h2⟩
    obtain ⟨hp, hs, hl, hz⟩ :=
      storeRounded_spec f t.toNat (roundCarry lo hi) (by omega) h2 (by omega)
    have hfirst : mpf_normalize f =
        Outcome.ok (storeRounded f t.toNat (roundCarry lo hi)) := by
      unfold mpf_normalize
      simp only []
      rw [← hT, if_pos ht, if_neg (by omega), hlo, hhi]
    refine ⟨_, hfirst, ?_⟩
    obtain ⟨v, hv⟩ : ∃ v, (storeRounded f t.toNat (roundCarry lo hi))._mp_d[t.toNat]? =
        some v := ⟨_, List.getElem?_eq_getElem (by rw [hl]; exact h2)⟩
    refine mpf_normalize_fixed _ t v ?_ ?_ hz hv
    · unfold mpf_size mpf_get_prec at hT ⊢
      rw [hp, hs]
      exact hT.symm
    · unfold mpf_size at hlen ⊢
      rw [hs, hl]
      exact hlen
  · refine ⟨f, ?_, ?_⟩ <;>
    · unfold mpf_normalize
      simp only []
      rw [← hT, if_neg ht]

theorem mpf_normalize_idempotent_witness :
    ∃ g, mpf_normalize ⟨2, -3, 5, [9223372036854775809, 18446744073709551615,
        18446744073709551615]⟩ = Outcome.ok g ∧
      mpf_normalize g = Outcome.ok g :=
  mpf_normalize_idempotent _ (by decide) (by decide)

/-! ## The table of small constants holds the right values (C27) -/

theorem from_c_long_empty_range (st : Module) (h0 : st.options.minzco = 0)
    (h1 : st.options.maxzco = 0) (i : Int) : mpz_from_c_long st i = Outcome.ok i := by
  unfold mpz_from_c_long get_zconst
  rw [h0, h1]
  by_cases hi : i ≥ 0
  · rw [if_pos hi, if_neg (by omega)]
    rfl
  · rw [if_neg hi]
    rfl

theorem fillZconst_empty_range (st : Module) (h0 : st.options.minzco = 0)
    (h1 : st.options.maxzco = 0) : ∀ (n : Nat) (i : Int),
    fillZconst st i n = Outcome.ok ((List.range n).map (fun (k : Nat) => i + (k : Int))) := by
  intro n
  induction n with
  | zero => intro i; rfl
  | succ n ih =>
    intro i
    simp only [fillZconst, from_c_long_empty_range st h0 h1 i, ih (i + 1)]
    rw [List.range_succ_eq_map]
    simp only [List.map_cons, List.map_map]
    congr 2
    · simp
    · apply List.map_congr_left
      intro k _
      simp only [Function.comp, Nat.succ_eq_add_one]
      push_cast
      ring

theorem set_zconst_tableOk (st st' : Module) (newmin newmax : Int)
    (h : set_zconst st newmin newmax = Outcome.ok st') : tableOk st' := by
  unfold set_zconst at h
  by_cases hgt : newmax > newmin
  · rw [if_pos hgt] at h
    by_cases hw : wrapInt (newmax - newmin) ≠ newmax - newmin
    · rw [if_pos hw] at h
      exact absurd h (by simp)
    · rw [if_neg hw, fillZconst_empty_range _ rfl rfl] at h
      simp only [Outcome.ok.injEq] at h
      subst h
      intro _
      rfl
  · rw [if_neg hgt] at h
    simp only [Outcome.ok.injEq] at h
    subst h
    intro hlt
    exact absurd hlt (by simpa using hgt)

theorem reachable_tableOk (st : Module) (h : Reachable st) : tableOk st := by
  induction h with
  | init => intro _; rfl
  | zcache st n _ _ ih =>
    unfold Pygmpy_set_zcache
    split_ifs
    · exact ih
    · exact ih
    · exact ih
  | qcache st n _ _ ih =>
    unfold Pygmpy_set_qcache
    split_ifs
    · exact ih
    · exact ih
    · exact ih
  | zconst st newmin newmax _ _ _ hnf ih =>
    unfold Pygmpy_set_zconst at hnf ⊢
    by_cases h1 : newmin > newmax
    · rw [if_pos h1]; exact ih
    · rw [if_neg h1] at hnf ⊢
      by_cases h2 : wrapInt (newmax - newmin) > MAX_CACHE
      · rw [if_pos h2]; exact ih
      · rw [if_neg h2] at hnf ⊢
        cases hs : set_zconst st newmin newmax with
        | ok st' => exact set_zconst_tableOk st st' newmin newmax hs
        | raise e => exact ih
        | fault => exact ih

theorem from_c_long_tableOk (st : Module) (h : tableOk st) (i : Int) :
    mpz_from_c_long st i = Outcome.ok i := by
  unfold mpz_from_c_long get_zconst
  by_cases h0 : i ≥ st.options.minzco
  · rw [if_pos h0]
    by_cases h1 : i < st.options.maxzco
    · rw [if_pos h1, h (by omega)]
      have hlt : (i - st.options.minzco).toNat <
          (st.options.maxzco - st.options.minzco).toNat := by omega
      simp only [List.getElem?_map, List.getElem?_range hlt, Option.map_some']
      have : st.options.minzco + ((i - st.options.minzco).toNat : Int) = i := by omega
      rw [this]
    · rw [if_neg h1]
      rfl
  · rw [if_neg h0]
    rfl

/-- C27. In every module state reachable from initialisation by calls of `set_zconst`
(and of `set_zcache`, `set_qcache`), `mpz_from_c_long(i)` returns an integer of value
i, for every i, from the table or freshly built. -/
theorem from_c_long_value (st : Module) (h : Reachable st) (i : Int) :
    mpz_from_c_long st i = Outcome.ok i :=
  from_c_long_tableOk st (reachable_tableOk st h) i

theorem from_c_long_value_witness :
    mpz_from_c_long (Pygmpy_set_zconst initModule 3 6).1 4 = Outcome.ok 4 ∧
    mpz_from_c_long (Pygmpy_set_zconst initModule 3 6).1 7 = Outcome.ok 7 :=
  ⟨from_c_long_value _ (Reachable.zconst initModule 3 6 Reachable.init (by decide)
      (by decide) (by decide)) 4,
    from_c_long_value _ (Reachable.zconst initModule 3 6 Reachable.init (by decide)
      (by decide) (by decide)) 7⟩

/-! ## Bit length and lowest set bit -/

theorem two_pow_pos_int (k : Nat) : (0 : Int) < 2 ^ k := by positivity

theorem size_spec (u : Int) (hu : 0 < u) :
    1 ≤ mpz_sizeinbase2 u.natAbs ∧ (2 : Int) ^ (mpz_sizeinbase2 u.natAbs - 1) ≤ u ∧
      u < 2 ^ mpz_sizeinbase2 u.natAbs := by
  have hn : u.natAbs ≠ 0 := by omega
  obtain ⟨a, b, c⟩ := bitsAux_spec u.natAbs u.natAbs (le_refl _) hn
  have hu' : ((u.natAbs : Nat) : Int) = u := by omega
  simp only [mpz_sizeinbase2, if_neg hn]
  refine ⟨c, ?_, ?_⟩
  · have : ((2 ^ (bitsAux u.natAbs u.natAbs - 1) : Nat) : Int) ≤ (u.natAbs : Int) := by
      exact_mod_cast a
    rw [hu'] at this
    exact_mod_cast this
  · have : ((u.natAbs : Nat) : Int) < ((2 ^ bitsAux u.natAbs u.natAbs : Nat) : Int) := by
      exact_mod_cast b
    rw [hu'] at this
    exact_mod_cast this

theorem pow_lt_pow_imp (a b : Nat) (h : (2 : Int) ^ a < 2 ^ b) : a < b := by
  by_contra hge
  have : (2 : Int) ^ b ≤ 2 ^ a := pow_le_pow_right₀ (by norm_num) (by omega)
  omega

theorem size_unique (u : Int) (b : Nat) (hb : 1 ≤ b) (h1 : (2 : Int) ^ (b - 1) ≤ u)
    (h2 : u < 2 ^ b) : mpz_sizeinbase2 u.natAbs = b := by
  have hu : 0 < u := lt_of_lt_of_le (two_pow_pos_int _) h1
  obtain ⟨c, l, r⟩ := size_spec u hu
  have e1 : b - 1 < mpz_sizeinbase2 u.natAbs := pow_lt_pow_imp _ _ (lt_of_le_of_lt h1 r)
  have e2 : mpz_sizeinbase2 u.natAbs - 1 < b := pow_lt_pow_imp _ _ (lt_of_le_of_lt l h2)
  omega

theorem find_range' (p : Nat → Bool) : ∀ (n s : Nat),
    (∀ k, (List.range' s n).find? p = some k →
      p k = true ∧ s ≤ k ∧ k < s + n ∧ ∀ j, s ≤ j → j < k → p j = false) ∧
    ((∃ j, s ≤ j ∧ j < s + n ∧ p j = true) → ∃ k, (List.range' s n).find? p = some k) := by
  intro n
  induction n with
  | zero =>
    intro s
    refine ⟨fun k h => by simp at h, fun ⟨j, h1, h2, _⟩ => by omega⟩
  | succ n ih =>
    intro s
    rw [List.range'_succ]
    by_cases hs : p s = true
    · refine ⟨fun k h => ?_, fun _ => ⟨s, by simp [hs]⟩⟩
      simp [hs] at h
      subst h
      exact ⟨hs, le_refl _, by omega, fun j h1 h2 => by omega⟩
    · have hs' : p s = false := by simpa using hs
      obtain ⟨i1, i2⟩ := ih (s + 1)
      refine ⟨fun k h => ?_, fun ⟨j, h1, h2, h3⟩ => ?_⟩
      · simp only [List.find?_cons, hs'] at h
        obtain ⟨a, b, c, d⟩ := i1 k h
        refine ⟨a, by omega, by omega, fun j h1 h2 => ?_⟩
        by_cases hj : j = s
        · rw [hj]; exact hs'
        · exact d j (by omega) h2
      · simp only [List.find?_cons, hs']
        apply i2
        refine ⟨j, ?_, by omega, h3⟩
        by_contra hlt
        have : j = s := by omega
        rw [this, hs'] at h3
        exact absurd h3 (by simp)

theorem low_bits_zero (u : Int) : ∀ k : Nat,
    (∀ j, j < k → mpz_tstbit u j = false) → (2 : Int) ^ k ∣ u := by
  intro k
  induction k with
  | zero => intro _; simp
  | succ k ih =>
    intro h
    obtain ⟨m, hm⟩ := ih (fun j hj => h j (by omega))
    have hk := h k (by omega)
    simp only [mpz_tstbit, decide_eq_false_iff_not] at hk
    have hp := two_pow_pos_int k
    have hdiv : u / 2 ^ k = m := by
      rw [hm, Int.mul_ediv_cancel_left _ (ne_of_gt hp)]
    rw [hdiv] at hk
    have hm2 : m % 2 = 0 := by omega
    obtain ⟨m', hm'⟩ : (2 : Int) ∣ m := Int.dvd_of_emod_eq_zero hm2
    exact ⟨m', by rw [hm, hm', pow_succ]; ring⟩

theorem ediv_eq_of_bounds (u P q : Int) (hP : 0 < P) (h1 : q * P ≤ u)
    (h2 : u < (q + 1) * P) : u / P = q ∧ u % P = u - q * P :=
  (Int.ediv_emod_unique hP).mpr ⟨by ring, by omega, by linarith [add_mul q 1 P]⟩

theorem two_pow_pred (b : Nat) (hb : 1 ≤ b) : (2 : Int) ^ b = 2 * 2 ^ (b - 1) := by
  obtain ⟨c, rfl⟩ : ∃ c, b = c + 1 := ⟨b - 1, by omega⟩
  rw [pow_succ]
  simp
  ring

/-- The lowest set bit of a positive integer, as `mpz_scan1(u, 0)` reports it: it lies
below the bit length, `2 ^ z` divides `u` and the quotient is odd. -/
theorem scan1_spec (u : Int) (hu : 0 < u) :
    mpz_scan1 u 0 < mpz_sizeinbase2 u.natAbs ∧ (2 : Int) ^ mpz_scan1 u 0 ∣ u ∧
      (u / 2 ^ mpz_scan1 u 0) % 2 = 1 := by
  obtain ⟨c, l, r⟩ := size_spec u hu
  have htop : mpz_tstbit u (mpz_sizeinbase2 u.natAbs - 1) = true := by
    simp only [mpz_tstbit, decide_eq_true_eq]
    have hp := two_pow_pos_int (mpz_sizeinbase2 u.natAbs - 1)
    have h2 := two_pow_pred _ c
    have hq := (ediv_eq_of_bounds u (2 ^ (mpz_sizeinbase2 u.natAbs - 1)) 1 hp (by omega)
      (by omega)).1
    rw [hq]
    rfl
  obtain ⟨f1, f2⟩ := find_range' (fun k => mpz_tstbit u (0 + k))
    (mpz_sizeinbase2 u.natAbs + 1) 0
  obtain ⟨k, hk⟩ := f2 ⟨mpz_sizeinbase2 u.natAbs - 1, by omega, by omega, by
    simpa using htop⟩
  obtain ⟨a, _, _, d⟩ := f1 k hk
  have hscan : mpz_scan1 u 0 = k := by
    unfold mpz_scan1
    simp only [Nat.zero_le, max_eq_right, Nat.sub_zero, List.range_eq_range', hk]
    omega
  rw [hscan]
  simp only [Nat.zero_add] at a d
  refine ⟨?_, low_bits_zero u k (fun j hj => d j (by omega) hj), ?_⟩
  · by_contra hge
    have := d (mpz_sizeinbase2 u.natAbs - 1) (by omega) (by omega)
    rw [htop] at this
    exact absurd this (by simp)
  · simpa [mpz_tstbit] using a
theorem toLong_small (z : Nat) (h : z < 9223372036854775808) :
    toLong z = (z : Int) ∧ toULong (z : Int) = z := by
  unfold toLong toULong
  constructor
  · omega
  · rw [Int.emod_eq_of_lt (by omega) (by omega)]
    simp

theorem pow_odd_zero (a : Nat) (h : ((2 : Int) ^ a) % 2 = 1) : a = 0 := by
  cases a with
  | zero => rfl
  | succ a =>
    rw [pow_succ, Int.mul_emod_left] at h
    omega

/-- The end of the function: from a positive `upper` whose bit length is B, or which is
2 ^ B itself, with `bc = B`, the trailing zero bits go to the exponent, the mantissa
left is odd and `bc` becomes its bit length, which is B at most. -/
theorem stripZeros_spec (sign upper newexp bc : Int) (B : Nat) (hB : 1 ≤ B)
    (hlong : B < 9223372036854775808) (hu : 0 < upper) (hbc : bc = B)
    (hcase : mpz_sizeinbase2 upper.natAbs = B ∨ upper = 2 ^ B) :
    ∃ (z : Nat) (m : Int), stripZeros sign upper newexp bc =
        (sign, m, newexp + z, ((mpz_sizeinbase2 m.natAbs : Nat) : Int)) ∧
      m * 2 ^ z = upper ∧ m % 2 = 1 ∧ 0 < m ∧ mpz_sizeinbase2 m.natAbs ≤ B := by
  obtain ⟨hz, hdvd, hodd⟩ := scan1_spec upper hu
  obtain ⟨c, l, r⟩ := size_spec upper hu
  generalize hzdef : mpz_scan1 upper 0 = z at hz hdvd hodd
  have hP := two_pow_pos_int z
  have hmul : upper / 2 ^ z * 2 ^ z = upper := Int.ediv_mul_cancel hdvd
  have hmpos : 0 < upper / 2 ^ z := by
    by_contra hle
    have : upper / 2 ^ z * 2 ^ z ≤ 0 := by
      apply mul_nonpos_of_nonpos_of_nonneg <;> omega
    omega
  -- the bit length of the mantissa that is left, and the value `bc` ends with
  have hsize : mpz_sizeinbase2 (upper / 2 ^ z).natAbs ≤ B ∧
      (if upper / 2 ^ z = 1 then (1 : Int) else bc - z) =
        ((mpz_sizeinbase2 (upper / 2 ^ z).natAbs : Nat) : Int) ∧ z ≤ B := by
    rcases hcase with hA | hB2
    · rw [hA] at hz l r
      have e1 : (2 : Int) ^ (B - 1) = 2 ^ (B - 1 - z) * 2 ^ z := by
        rw [← pow_add]; congr 1; omega
      have e2 : (2 : Int) ^ B = 2 ^ (B - z) * 2 ^ z := by
        rw [← pow_add]; congr 1; omega
      have b1 : (2 : Int) ^ (B - z - 1) ≤ upper / 2 ^ z := by
        have : (2 : Int) ^ (B - 1 - z) * 2 ^ z ≤ upper / 2 ^ z * 2 ^ z := by
          rw [hmul, ← e1]; exact l
        have h3 := le_of_mul_le_mul_right this hP
        have : B - z - 1 = B - 1 - z := by omega
        rw [this]; exact h3
      have b2 : upper / 2 ^ z < (2 : Int) ^ (B - z) := by
        have : upper / 2 ^ z * 2 ^ z < (2 : Int) ^ (B - z) * 2 ^ z := by
          rw [hmul, ← e2]; exact r
        exact lt_of_mul_lt_mul_right this (le_of_lt hP)
      have hs := size_unique (upper / 2 ^ z) (B - z) (by omega) b1 b2
      rw [hs]
      refine ⟨Nat.sub_le _ _, ?_, le_of_lt hz⟩
      by_cases h1 : upper / 2 ^ z = 1
      · rw [if_pos h1]
        rw [h1] at hs
        have : mpz_sizeinbase2 (1 : Int).natAbs = 1 := by decide
        omega
      · rw [if_neg h1]
        omega
    · have hsz : mpz_sizeinbase2 upper.natAbs = B + 1 := by
        apply size_unique
        · omega
        · rw [hB2]; simp
        · rw [hB2, pow_succ]
          have := two_pow_pos_int B
          omega
      rw [hsz] at hz
      have e : (2 : Int) ^ B = 2 ^ (B - z) * 2 ^ z := by
        rw [← pow_add]; congr 1; omega
      have hq : upper / 2 ^ z = 2 ^ (B - z) := by
        rw [hB2, e, Int.mul_ediv_cancel _ (ne_of_gt hP)]
      rw [hq] at hodd
      have h0 := pow_odd_zero _ hodd
      have h1 : upper / 2 ^ z = 1 := by rw [hq, h0]; simp
      rw [h1, if_pos rfl]
      exact ⟨hB, by decide, Nat.lt_succ_iff.mp hz⟩
  have hzl := toLong_small z (Nat.lt_of_le_of_lt hsize.2.2 hlong)
  refine ⟨z, upper / 2 ^ z, ?_, hmul, hodd, hmpos, hsize.1⟩
  have hstrip : (if toLong z ≠ 0 then mpz_tdiv_q_2exp upper (toULong (toLong z))
      else upper) = upper / 2 ^ z := by
    rw [hzl.1, hzl.2]
    by_cases h0 : (z : Int) ≠ 0
    · rw [if_pos h0]
      unfold mpz_tdiv_q_2exp
      exact Int.tdiv_eq_ediv (le_of_lt hu) (le_of_lt hP)
    · rw [if_neg h0]
      have h00 : (z : Int) = 0 := not_not.mp h0
      have : z = 0 := by exact_mod_cast h00
      rw [this]
      simp
  have hcmp : (mpz_cmp_ui (upper / 2 ^ z) 1 = 0) ↔ upper / 2 ^ z = 1 := by
    unfold mpz_cmp_ui
    rw [Int.sign_eq_zero_iff_zero]
    exact sub_eq_zero
  unfold stripZeros
  simp only []
  rw [hzdef, hstrip, hzl.1]
  unfold mpmath_build_mpf
  simp only []
  by_cases h1 : upper / 2 ^ z = 1
  · rw [if_pos (hcmp.mpr h1)]
    have := hsize.2.1
    rw [if_pos h1] at this
    rw [this]
  · rw [if_neg (fun h => h1 (hcmp.mp h))]
    have := hsize.2.1
    rw [if_neg h1] at this
    rw [this]

/-! ## The rounding switch -/

theorem floor_facts (man : Int) (s : Nat) :
    mpz_fdiv_q_2exp man s = man / 2 ^ s ∧ mpz_fdiv_q_2exp man s * 2 ^ s ≤ man ∧
      man < mpz_fdiv_q_2exp man s * 2 ^ s + 2 ^ s := by
  have hP := two_pow_pos_int s
  have e : mpz_fdiv_q_2exp man s = man / 2 ^ s := by
    unfold mpz_fdiv_q_2exp
    exact Int.fdiv_eq_ediv _ (le_of_lt hP)
  rw [e]
  have h1 := Int.emod_add_ediv man (2 ^ s)
  have h2 := Int.emod_nonneg man (ne_of_gt hP)
  have h3 := Int.emod_lt_of_pos man hP
  generalize man / 2 ^ s = q at *
  generalize man % 2 ^ s = r at *
  generalize (2 : Int) ^ s = P at *
  refine ⟨rfl, ?_, ?_⟩ <;> linarith [mul_comm P q]

theorem ceil_facts (man : Int) (s : Nat) :
    man ≤ mpz_cdiv_q_2exp man s * 2 ^ s ∧ mpz_cdiv_q_2exp man s * 2 ^ s < man + 2 ^ s := by
  have hP := two_pow_pos_int s
  have e : mpz_cdiv_q_2exp man s = -((-man) / 2 ^ s) := by
    unfold mpz_cdiv_q_2exp
    rw [Int.fdiv_eq_ediv _ (le_of_lt hP)]
  rw [e]
  have h1 := Int.emod_add_ediv (-man) (2 ^ s)
  have h2 := Int.emod_nonneg (-man) (ne_of_gt hP)
  have h3 := Int.emod_lt_of_pos (-man) hP
  generalize (-man) / 2 ^ s = q at *
  generalize (-man) % 2 ^ s = r at *
  generalize (2 : Int) ^ s = P at *
  constructor <;> linarith [mul_comm P q, neg_mul q P]

theorem round_bounds (U man P L : Int) (hP : 0 < P) (h1 : U * P - man < P)
    (h2 : man - U * P < P) (hl : L * P ≤ man) (hr : man < 2 * L * P) :
    L ≤ U ∧ U ≤ 2 * L := by
  constructor
  · have : L * P < (U + 1) * P := by linarith [add_mul U 1 P]
    have := lt_of_mul_lt_mul_right this (le_of_lt hP)
    omega
  · have : U * P < (2 * L + 1) * P := by linarith [add_mul (2 * L) 1 P]
    have := lt_of_mul_lt_mul_right this (le_of_lt hP)
    omega

/-- The half-even test of the `'n'` branch on the remainder r of a positive mantissa:
with P = 2 ^ s = 2 * H, the code's tests (bit length of r is s; lowest set bit of r
is s - 1) say r ≥ H and r = H. -/
theorem half_tests (r : Int) (s : Nat) (hs : 1 ≤ s) (hr0 : 0 < r)
    (hr : r < 2 ^ s) :
    (mpz_sizeinbase2 r.natAbs = s ↔ (2 : Int) ^ (s - 1) ≤ r) ∧
    (mpz_sizeinbase2 r.natAbs = s → (mpz_scan1 r 0 = s - 1 ↔ r = 2 ^ (s - 1))) := by
  obtain ⟨c, l, u⟩ := size_spec r hr0
  obtain ⟨hz, hdvd, hodd⟩ := scan1_spec r hr0
  have h2 := two_pow_pred s hs
  have hH := two_pow_pos_int (s - 1)
  constructor
  · constructor
    · intro h
      rw [h] at l
      exact l
    · intro h
      exact size_unique r s hs h hr
  · intro hsz
    rw [hsz] at hz l u
    constructor
    · intro h
      rw [h] at hdvd
      obtain ⟨m, hm⟩ := hdvd
      generalize (2 : Int) ^ (s - 1) = H at *
      generalize (2 : Int) ^ s = P at *
      have hm1 : m = 1 := by
        have a1 : 0 < m := by
          by_contra hle
          have : H * m ≤ 0 := mul_nonpos_of_nonneg_of_nonpos (le_of_lt hH) (by omega)
          omega
        have a2 : m < 2 := by
          by_contra hge
          have : H * 2 ≤ H * m := mul_le_mul_of_nonneg_left (by omega) (le_of_lt hH)
          omega
        omega
      rw [hm, hm1]
      ring
    · intro h
      generalize hzd : mpz_scan1 r 0 = z at *
      have e : (2 : Int) ^ (s - 1) = 2 ^ (s - 1 - z) * 2 ^ z := by
        rw [← pow_add]; congr 1; omega
      have hq : r / 2 ^ z = 2 ^ (s - 1 - z) := by
        rw [h, e, Int.mul_ediv_cancel _ (ne_of_gt (two_pow_pos_int z))]
      rw [hq] at hodd
      have := pow_odd_zero _ hodd
      omega

theorem carry_decision_core (r F P H : Int) (s : Nat) (hs : 1 ≤ s)
    (h63 : s < 9223372036854775808) (hr0 : 0 ≤ r) (hr : r < P) (hPH : P = 2 * H)
    (t1 : 0 < r → (mpz_sizeinbase2 r.natAbs = s ↔ H ≤ r))
    (t2 : 0 < r → mpz_sizeinbase2 r.natAbs = s → (mpz_scan1 r 0 = s - 1 ↔ r = H))
    (hzlt : 0 < r → mpz_scan1 r 0 < mpz_sizeinbase2 r.natAbs) :
    (if Int.sign r ≠ 0 then
      if ((mpz_sizeinbase2 r.natAbs : Nat) : Int) = (s : Int) then
        if toLong (mpz_scan1 r 0) = (s : Int) - 1 then
          if mpz_odd_p F = true then (1 : Int) else 0
        else 1
      else 0
    else 0) =
    (if 2 * r > P ∨ (2 * r = P ∧ F % 2 = 1) then (1 : Int) else 0) := by
  by_cases hz : r = 0
  · subst hz
    have : ¬ ((2 : Int) * 0 > P ∨ ((2 : Int) * 0 = P ∧ F % 2 = 1)) := by omega
    rw [if_neg this]
    simp
  · have hpos : 0 < r := by omega
    have hsg : Int.sign r ≠ 0 := by
      rw [Int.sign_eq_one_of_pos hpos]; decide
    rw [if_pos hsg]
    have t1 := t1 hpos
    have t2 := t2 hpos
    have hzlt := hzlt hpos
    generalize mpz_sizeinbase2 r.natAbs = sz at *
    generalize mpz_scan1 r 0 = sc at *
    by_cases hsz : sz = s
    · have hge := t1.mp hsz
      have t3 := t2 hsz
      rw [if_pos (by rw [hsz])]
      have hl := (toLong_small sc (by omega)).1
      rw [hl]
      by_cases hsc : sc = s - 1
      · have hrH := t3.mp hsc
        have hc : ((sc : Nat) : Int) = (s : Int) - 1 := by omega
        rw [if_pos hc]
        have hodd : (mpz_odd_p F = true) ↔ F % 2 = 1 := by simp [mpz_odd_p]
        by_cases ho : F % 2 = 1
        · rw [if_pos (hodd.mpr ho), if_pos (Or.inr ⟨by omega, ho⟩)]
        · rw [if_neg (fun h => ho (hodd.mp h))]
          have : ¬ (2 * r > P ∨ (2 * r = P ∧ F % 2 = 1)) := by
            rintro (h | ⟨_, h⟩)
            · omega
            · exact ho h
          rw [if_neg this]
      · have hc : ¬ ((sc : Nat) : Int) = (s : Int) - 1 := by omega
        rw [if_neg hc]
        have hne : r ≠ H := fun h => hsc (t3.mpr h)
        have : 2 * r > P := by omega
        rw [if_pos (Or.inl this)]
    · have hc : ¬ ((sz : Nat) : Int) = (s : Int) := by omega
      rw [if_neg hc]
      have hlt : r < H := by
        by_contra hge
        exact hsz (t1.mpr (not_lt.mp hge))
      have : ¬ (2 * r > P ∨ (2 * r = P ∧ F % 2 = 1)) := by omega
      rw [if_neg this]

theorem carry_decision (r F : Int) (s : Nat) (hs : 1 ≤ s) (h63 : s < 9223372036854775808)
    (hr0 : 0 ≤ r) (hr : r < 2 ^ s) :
    (if Int.sign r ≠ 0 then
      if ((mpz_sizeinbase2 r.natAbs : Nat) : Int) = (s : Int) then
        if toLong (mpz_scan1 r 0) = (s : Int) - 1 then
          if mpz_odd_p F = true then (1 : Int) else 0
        else 1
      else 0
    else 0) =
    (if 2 * r > 2 ^ s ∨ (2 * r = 2 ^ s ∧ F % 2 = 1) then (1 : Int) else 0) :=
  carry_decision_core r F (2 ^ s) (2 ^ (s - 1)) s hs h63 hr0 hr (two_pow_pred s hs)
    (fun hp => (half_tests r s hs hp hr).1) (fun hp => (half_tests r s hs hp hr).2)
    (fun hp => (scan1_spec r hp).1)
theorem nearest_numeric (man F r P N : Int) (hdiv : r + P * F = man)
    (hr0 : 0 ≤ r) (hr : r < P)
    (hN : N = F + (if 2 * r > P ∨ (2 * r = P ∧ F % 2 = 1) then (1 : Int) else 0)) :
    2 * |N * P - man| ≤ P ∧ (2 * |N * P - man| = P → N % 2 = 0) := by
  by_cases hc : 2 * r > P ∨ (2 * r = P ∧ F % 2 = 1)
  · rw [if_pos hc] at hN
    have hd : N * P - man = P - r := by
      rw [hN, ← hdiv]; ring
    rw [hd, abs_of_pos (by omega)]
    refine ⟨by omega, fun h => ?_⟩
    rcases hc with h1 | ⟨_, h2⟩
    · omega
    · omega
  · rw [if_neg hc] at hN
    have hd : N * P - man = -r := by
      rw [hN, ← hdiv]; ring
    rw [hd, abs_neg, abs_of_nonneg hr0]
    have h1 : ¬ 2 * r > P := fun h => hc (Or.inl h)
    refine ⟨by omega, fun h => ?_⟩
    have h2 : ¬ F % 2 = 1 := fun ho => hc (Or.inr ⟨h, ho⟩)
    omega

/-- The `'n'` branch rounds to nearest, a tie going to the even quotient. -/
theorem roundNearest_spec (man : Int) (s : Nat) (hs : 1 ≤ s)
    (h63 : s < 9223372036854775808) (hman : 0 < man) :
    2 * |roundNearest man (s : Int) * 2 ^ s - man| ≤ 2 ^ s ∧
    (2 * |roundNearest man (s : Int) * 2 ^ s - man| = 2 ^ s →
      roundNearest man (s : Int) % 2 = 0) := by
  have hP := two_pow_pos_int s
  have e1 : mpz_tdiv_r_2exp man s = man % 2 ^ s := by
    unfold mpz_tdiv_r_2exp
    exact Int.tmod_eq_emod (le_of_lt hman) (le_of_lt hP)
  have e2 : mpz_tdiv_q_2exp man s = man / 2 ^ s := by
    unfold mpz_tdiv_q_2exp
    exact Int.tdiv_eq_ediv (le_of_lt hman) (le_of_lt hP)
  have h1 := Int.emod_add_ediv man (2 ^ s)
  have h2 := Int.emod_nonneg man (ne_of_gt hP)
  have h3 := Int.emod_lt_of_pos man hP
  have hc := carry_decision (man % 2 ^ s) (man / 2 ^ s) s hs h63 h2 h3
  have hN : roundNearest man (s : Int) = man / 2 ^ s +
      (if 2 * (man % 2 ^ s) > 2 ^ s ∨ (2 * (man % 2 ^ s) = 2 ^ s ∧ (man / 2 ^ s) % 2 = 1)
        then (1 : Int) else 0) := by
    unfold roundNearest
    simp only [Int.toNat_ofNat, e1, e2]
    rw [hc]
    unfold mpz_add_ui
    split_ifs <;> simp_all
  exact nearest_numeric man (man / 2 ^ s) (man % 2 ^ s) (2 ^ s) _ h1 h2 h3 hN

theorem roundSwitch_cases (sign man : Int) (s : Nat) (rnd : Char) :
    roundSwitch sign man (s : Int) rnd = mpz_fdiv_q_2exp man s ∨
    roundSwitch sign man (s : Int) rnd = mpz_cdiv_q_2exp man s ∨
    roundSwitch sign man (s : Int) rnd = roundNearest man (s : Int) := by
  unfold roundSwitch
  simp only [Int.toNat_ofNat]
  split_ifs <;> simp

/-- Whatever the rounding code, the rounded quotient U is less than one unit away from
the exact quotient: |U * 2 ^ s - man| < 2 ^ s. -/
theorem roundSwitch_close (sign man : Int) (s : Nat) (rnd : Char) (hs : 1 ≤ s)
    (h63 : s < 9223372036854775808) (hman : 0 < man) :
    roundSwitch sign man (s : Int) rnd * 2 ^ s - man < 2 ^ s ∧
      man - roundSwitch sign man (s : Int) rnd * 2 ^ s < 2 ^ s := by
  have hP := two_pow_pos_int s
  rcases roundSwitch_cases sign man s rnd with h | h | h
  · rw [h]
    obtain ⟨_, a, b⟩ := floor_facts man s
    generalize mpz_fdiv_q_2exp man s * 2 ^ s = M at *
    generalize (2 : Int) ^ s = P at *
    omega
  · rw [h]
    obtain ⟨a, b⟩ := ceil_facts man s
    generalize mpz_cdiv_q_2exp man s * 2 ^ s = M at *
    generalize (2 : Int) ^ s = P at *
    omega
  · rw [h]
    obtain ⟨a, _⟩ := roundNearest_spec man s hs h63 hman
    generalize roundNearest man (s : Int) * 2 ^ s = M at *
    generalize (2 : Int) ^ s = P at *
    have h0 := abs_nonneg (M - man)
    have h1 := le_abs_self (M - man)
    have h2 := neg_abs_le (M - man)
    constructor <;> omega

theorem rounded_shape (U man : Int) (p s b : Nat) (hp : 1 ≤ p) (hb : b = p + s)
    (h1 : U * 2 ^ s - man < 2 ^ s) (h2 : man - U * 2 ^ s < 2 ^ s)
    (hl : (2 : Int) ^ (b - 1) ≤ man) (hr : man < 2 ^ b) :
    0 < U ∧ (mpz_sizeinbase2 U.natAbs = p ∨ U = 2 ^ p) := by
  have hP := two_pow_pos_int s
  have hL := two_pow_pos_int (p - 1)
  have e1 : (2 : Int) ^ (b - 1) = 2 ^ (p - 1) * 2 ^ s := by
    rw [← pow_add]; congr 1; omega
  have e2 : (2 : Int) ^ b = 2 * 2 ^ (p - 1) * 2 ^ s := by
    rw [← two_pow_pred p hp, ← pow_add, hb]
  rw [e1] at hl
  rw [e2] at hr
  obtain ⟨a, c⟩ := round_bounds U man (2 ^ s) (2 ^ (p - 1)) hP h1 h2 hl hr
  have e3 := two_pow_pred p hp
  refine ⟨lt_of_lt_of_le hL a, ?_⟩
  by_cases hlt : U < 2 ^ p
  · exact Or.inl (size_unique U p hp a hlt)
  · right
    rw [e3] at hlt ⊢
    exact le_antisymm c (not_lt.mp hlt)

theorem normalize_core (sign man exp prec : Int) (rnd : Char) (hman : 0 < man)
    (hprec : 1 ≤ prec) (hp63 : prec < 9223372036854775808)
    (hb63 : mpz_sizeinbase2 man.natAbs < 9223372036854775808) :
    ∃ (k : Nat) (m : Int),
      Pympz_mpmath_normalize sign man exp (mpz_sizeinbase2 man.natAbs : Nat) prec rnd =
        (sign, m, exp + k, ((mpz_sizeinbase2 m.natAbs : Nat) : Int)) ∧
      m % 2 = 1 ∧ 0 < m ∧ ((mpz_sizeinbase2 m.natAbs : Nat) : Int) ≤ prec ∧
      (((mpz_sizeinbase2 man.natAbs : Nat) : Int) ≤ prec → m * 2 ^ k = man) ∧
      (prec < ((mpz_sizeinbase2 man.natAbs : Nat) : Int) →
        ∃ s : Nat, (s : Int) = ((mpz_sizeinbase2 man.natAbs : Nat) : Int) - prec ∧ 1 ≤ s ∧
          s ≤ k ∧ m * 2 ^ k = roundSwitch sign man (s : Int) rnd * 2 ^ s) := by
  obtain ⟨c, l, r⟩ := size_spec man hman
  generalize hbdef : mpz_sizeinbase2 man.natAbs = b at *
  have hsg : ¬ Int.sign man = 0 := by
    rw [Int.sign_eq_one_of_pos hman]; decide
  obtain ⟨p, hpdef⟩ : ∃ p : Nat, (p : Int) = prec := ⟨prec.toNat, by omega⟩
  have hp1 : 1 ≤ p := by omega
  have hp63' : p < 9223372036854775808 := by omega
  unfold Pympz_mpmath_normalize
  rw [if_neg hsg]
  by_cases hle : (b : Int) ≤ prec
  · by_cases hodd : mpz_odd_p man = true
    · rw [if_pos ⟨hle, hodd⟩]
      refine ⟨0, man, ?_, by simpa [mpz_odd_p] using hodd, hman, ?_, fun _ => by simp,
        fun h => absurd hle (not_le.mpr h)⟩
      · simp [mpmath_build_mpf, hbdef]
      · rw [hbdef]; exact hle
    · rw [if_neg (fun h => hodd h.2)]
      simp only []
      rw [if_neg (by omega)]
      obtain ⟨z, m, hs, hmul, ho, hpos, hsz⟩ :=
        stripZeros_spec sign man exp (b : Int) b c hb63 hman rfl (Or.inl hbdef)
      refine ⟨z, m, hs, ho, hpos, ?_, fun _ => hmul, fun h => absurd hle (not_le.mpr h)⟩
      have : ((mpz_sizeinbase2 m.natAbs : Nat) : Int) ≤ (b : Int) := by exact_mod_cast hsz
      exact le_trans this hle
  · rw [if_neg (fun h => hle h.1)]
    simp only []
    rw [if_pos (by omega)]
    obtain ⟨s, hsdef⟩ : ∃ s : Nat, (s : Int) = (b : Int) - prec :=
      ⟨((b : Int) - prec).toNat, by omega⟩
    have hs1 : 1 ≤ s := by omega
    have hs63 : s < 9223372036854775808 := by omega
    have hbps : b = p + s := by omega
    rw [← hsdef]
    obtain ⟨h1, h2⟩ := roundSwitch_close sign man s rnd hs1 hs63 hman
    obtain ⟨hUpos, hcase⟩ :=
      rounded_shape (roundSwitch sign man (s : Int) rnd) man p s b hp1 hbps h1 h2 l r
    obtain ⟨z, m, hs, hmul, ho, hpos, hsz⟩ :=
      stripZeros_spec sign (roundSwitch sign man (s : Int) rnd) (exp + s) prec p hp1 hp63'
        hUpos hpdef.symm hcase
    refine ⟨s + z, m, ?_, ho, hpos, ?_, fun h => absurd h hle, fun _ =>
      ⟨s, rfl, hs1, Nat.le_add_right _ _, ?_⟩⟩
    · rw [hs]
      push_cast
      rw [add_assoc]
    · rw [← hpdef]
      exact_mod_cast hsz
    · rw [← hmul, pow_add]
      ring

theorem roundSwitch_codes (sign man : Int) (s : Nat) :
    roundSwitch sign man (s : Int) 'd' = mpz_fdiv_q_2exp man s ∧
    roundSwitch sign man (s : Int) 'u' = mpz_cdiv_q_2exp man s ∧
    roundSwitch sign man (s : Int) 'n' = roundNearest man (s : Int) ∧
    (sign = 0 → roundSwitch sign man (s : Int) 'f' = mpz_fdiv_q_2exp man s ∧
      roundSwitch sign man (s : Int) 'c' = mpz_cdiv_q_2exp man s) ∧
    (sign ≠ 0 → roundSwitch sign man (s : Int) 'f' = mpz_cdiv_q_2exp man s ∧
      roundSwitch sign man (s : Int) 'c' = mpz_fdiv_q_2exp man s) := by
  have hd : roundSwitch sign man (s : Int) 'd' = mpz_fdiv_q_2exp man s := by
    unfold roundSwitch
    rw [if_neg (by decide), if_neg (by decide), if_pos (by decide), Int.toNat_ofNat]
  have hu : roundSwitch sign man (s : Int) 'u' = mpz_cdiv_q_2exp man s := by
    unfold roundSwitch
    rw [if_neg (by decide), if_neg (by decide), if_neg (by decide), if_pos (by decide),
      Int.toNat_ofNat]
  have hn : roundSwitch sign man (s : Int) 'n' = roundNearest man (s : Int) := by
    unfold roundSwitch
    rw [if_neg (by decide), if_neg (by decide), if_neg (by decide), if_neg (by decide)]
  refine ⟨hd, hu, hn, fun h0 => ⟨?_, ?_⟩, fun h1 => ⟨?_, ?_⟩⟩
  · unfold roundSwitch
    rw [if_pos (by decide), if_neg (not_not.mpr h0), Int.toNat_ofNat]
  · unfold roundSwitch
    rw [if_neg (by decide), if_pos (by decide), if_neg (not_not.mpr h0), Int.toNat_ofNat]
  · unfold roundSwitch
    rw [if_pos (by decide), if_pos h1, Int.toNat_ofNat]
  · unfold roundSwitch
    rw [if_neg (by decide), if_pos (by decide), if_pos h1, Int.toNat_ofNat]

/-! ## The result of `_mpmath_normalize` (C28, C29) -/

/-- C28. For a positive mantissa man with bc = bitlength(man), a precision prec ≥ 1 (both
fitting a C long) and any exponent, `_mpmath_normalize` returns (sign, m, exp + k, bc')
with k ≥ 0, so that M = m * 2 ^ k is the returned value on the scale of the input
exponent. If bc ≤ prec, M = man. Otherwise M is a multiple of G = 2 ^ (bc - prec), the
spacing of the numbers of prec significant bits around man, and: for `d` M ≤ man <
M + G; for `u` M - G < man ≤ M; for `f` as `d` with sign 0 and as `u` with a set
sign; for `c` the other way round; for `n` M is nearest, |M - man| ≤ G / 2, and on a
tie M / G is even. -/
theorem mpmath_normalize_rounds (sign man exp prec : Int) (rnd : Char) (hman : 0 < man)
    (hprec : 1 ≤ prec) (hp63 : prec < 9223372036854775808)
    (hb63 : mpz_sizeinbase2 man.natAbs < 9223372036854775808) :
    ∃ (k : Nat) (m : Int),
      Pympz_mpmath_normalize sign man exp (mpz_sizeinbase2 man.natAbs : Nat) prec rnd =
        (sign, m, exp + k, ((mpz_sizeinbase2 m.natAbs : Nat) : Int)) ∧
      (((mpz_sizeinbase2 man.natAbs : Nat) : Int) ≤ prec → m * 2 ^ k = man) ∧
      (prec < ((mpz_sizeinbase2 man.natAbs : Nat) : Int) →
        ∃ s : Nat, (s : Int) = ((mpz_sizeinbase2 man.natAbs : Nat) : Int) - prec ∧
          (2 : Int) ^ s ∣ m * 2 ^ k ∧
          (rnd = 'd' → m * 2 ^ k ≤ man ∧ man < m * 2 ^ k + 2 ^ s) ∧
          (rnd = 'u' → man ≤ m * 2 ^ k ∧ m * 2 ^ k < man + 2 ^ s) ∧
          (rnd = 'f' → (sign = 0 → m * 2 ^ k ≤ man ∧ man < m * 2 ^ k + 2 ^ s) ∧
            (sign ≠ 0 → man ≤ m * 2 ^ k ∧ m * 2 ^ k < man + 2 ^ s)) ∧
          (rnd = 'c' → (sign = 0 → man ≤ m * 2 ^ k ∧ m * 2 ^ k < man + 2 ^ s) ∧
            (sign ≠ 0 → m * 2 ^ k ≤ man ∧ man < m * 2 ^ k + 2 ^ s)) ∧
          (rnd = 'n' → 2 * |m * 2 ^ k - man| ≤ 2 ^ s ∧
            (2 * |m * 2 ^ k - man| = 2 ^ s → (m * 2 ^ k / 2 ^ s) % 2 = 0))) := by
  obtain ⟨k, m, hres, _, _, _, hexact, hround⟩ :=
    normalize_core sign man exp prec rnd hman hprec hp63 hb63
  refine ⟨k, m, hres, hexact, fun hlt => ?_⟩
  obtain ⟨s, hsdef, hs1, _, hM⟩ := hround hlt
  have hs63 : s < 9223372036854775808 := by omega
  have hP := two_pow_pos_int s
  obtain ⟨cd, cu, cn, cf0, cf1⟩ := roundSwitch_codes sign man s
  obtain ⟨_, fl1, fl2⟩ := floor_facts man s
  obtain ⟨ce1, ce2⟩ := ceil_facts man s
  obtain ⟨ne1, ne2⟩ := roundNearest_spec man s hs1 hs63 hman
  refine ⟨s, hsdef, ⟨_, by rw [hM]; ring⟩, ?_, ?_, ?_, ?_, ?_⟩
  · intro h
    rw [hM, h, cd]
    exact ⟨fl1, fl2⟩
  · intro h
    rw [hM, h, cu]
    exact ⟨ce1, ce2⟩
  · intro h
    rw [hM, h]
    refine ⟨fun h0 => ?_, fun h1 => ?_⟩
    · rw [(cf0 h0).1]; exact ⟨fl1, fl2⟩
    · rw [(cf1 h1).1]; exact ⟨ce1, ce2⟩
  · intro h
    rw [hM, h]
    refine ⟨fun h0 => ?_, fun h1 => ?_⟩
    · rw [(cf0 h0).2]; exact ⟨ce1, ce2⟩
    · rw [(cf1 h1).2]; exact ⟨fl1, fl2⟩
  · intro h
    rw [hM, h, cn, Int.mul_ediv_cancel _ (ne_of_gt hP)]
    exact ⟨ne1, ne2⟩

theorem mpmath_normalize_rounds_witness :
    ∃ (k : Nat) (m : Int),
      Pympz_mpmath_normalize 0 22 (-7) (mpz_sizeinbase2 (22 : Int).natAbs : Nat) 3 'n' =
        (0, m, (-7 : Int) + k, ((mpz_sizeinbase2 m.natAbs : Nat) : Int)) ∧
      (((mpz_sizeinbase2 (22 : Int).natAbs : Nat) : Int) ≤ 3 → m * 2 ^ k = 22) ∧
      ((3 : Int) < ((mpz_sizeinbase2 (22 : Int).natAbs : Nat) : Int) →
        ∃ s : Nat, (s : Int) = ((mpz_sizeinbase2 (22 : Int).natAbs : Nat) : Int) - 3 ∧
          (2 : Int) ^ s ∣ m * 2 ^ k ∧
          ('n' = 'd' → m * 2 ^ k ≤ 22 ∧ 22 < m * 2 ^ k + 2 ^ s) ∧
          ('n' = 'u' → 22 ≤ m * 2 ^ k ∧ m * 2 ^ k < 22 + 2 ^ s) ∧
          ('n' = 'f' → ((0 : Int) = 0 → m * 2 ^ k ≤ 22 ∧ 22 < m * 2 ^ k + 2 ^ s) ∧
            ((0 : Int) ≠ 0 → 22 ≤ m * 2 ^ k ∧ m * 2 ^ k < 22 + 2 ^ s)) ∧
          ('n' = 'c' → ((0 : Int) = 0 → 22 ≤ m * 2 ^ k ∧ m * 2 ^ k < 22 + 2 ^ s) ∧
            ((0 : Int) ≠ 0 → m * 2 ^ k ≤ 22 ∧ 22 < m * 2 ^ k + 2 ^ s)) ∧
          ('n' = 'n' → 2 * |m * 2 ^ k - 22| ≤ 2 ^ s ∧
            (2 * |m * 2 ^ k - 22| = 2 ^ s → (m * 2 ^ k / 2 ^ s) % 2 = 0))) :=
  mpmath_normalize_rounds 0 22 (-7) 3 'n' (by decide) (by decide) (by decide) (by decide)

/-- C29. For a positive mantissa man with bc = bitlength(man) and a precision prec ≥ 1
(both fitting a C long), whatever the rounding code, the tuple `_mpmath_normalize`
returns is (sign, m, e, bc') with m odd and positive, bitlength(m) ≤ prec and
bc' = bitlength(m), a carry up to a power of two included; a zero mantissa gives
(0, 0, 0, 0). -/
theorem mpmath_normalize_invariants (sign man exp prec : Int) (rnd : Char) (hman : 0 < man)
    (hprec : 1 ≤ prec) (hp63 : prec < 9223372036854775808)
    (hb63 : mpz_sizeinbase2 man.natAbs < 9223372036854775808) :
    (∃ (m e : Int),
      Pympz_mpmath_normalize sign man exp (mpz_sizeinbase2 man.natAbs : Nat) prec rnd =
        (sign, m, e, ((mpz_sizeinbase2 m.natAbs : Nat) : Int)) ∧
      m % 2 = 1 ∧ 0 < m ∧ ((mpz_sizeinbase2 m.natAbs : Nat) : Int) ≤ prec) ∧
    (∀ bc, Pympz_mpmath_normalize sign 0 exp bc prec rnd = (0, 0, 0, 0)) ∧
    Pympz_mpmath_normalize 0 15 0 4 2 'n' = (0, 1, 4, 1) := by
  obtain ⟨k, m, hres, ho, hpos, hsz, _, _⟩ :=
    normalize_core sign man exp prec rnd hman hprec hp63 hb63
  exact ⟨⟨m, exp + k, hres, ho, hpos, hsz⟩, fun bc => rfl, by decide⟩

theorem mpmath_normalize_invariants_witness :
    (∃ (m e : Int),
      Pympz_mpmath_normalize 1 13 5 (mpz_sizeinbase2 (13 : Int).natAbs : Nat) 2 'u' =
        (1, m, e, ((mpz_sizeinbase2 m.natAbs : Nat) : Int)) ∧
      m % 2 = 1 ∧ 0 < m ∧ ((mpz_sizeinbase2 m.natAbs : Nat) : Int) ≤ 2) ∧
    (∀ bc, Pympz_mpmath_normalize 1 0 5 bc 2 'u' = (0, 0, 0, 0)) ∧
    Pympz_mpmath_normalize 0 15 0 4 2 'n' = (0, 1, 4, 1) :=
  mpmath_normalize_invariants 1 13 5 2 'u' (by decide) (by decide) (by decide) (by decide)

/-! ## Native-integer fast paths of in-place division (C30) -/

theorem fdiv_unique (a b q r : Int) (h : q * b + r = a)
    (hpos : 0 < b → 0 ≤ r ∧ r < b) (hneg : b < 0 → b < r ∧ r ≤ 0) (hb : b ≠ 0) :
    q = Int.fdiv a b ∧ r = Int.fmod a b := by
  have hdiv := Int.fmod_add_fdiv a b
  obtain ⟨h1, h2⟩ := fmod_bounds a b
  have hx : |b| ∣ (Int.fmod a b - r) := by
    rw [abs_dvd]
    exact ⟨q - Int.fdiv a b, by linarith [mul_comm q b, mul_sub b q (Int.fdiv a b)]⟩
  have hlt : |Int.fmod a b - r| < |b| := by
    rcases lt_or_gt_of_ne hb with hb0 | hb0
    · have := h2 hb0
      have := hneg hb0
      rw [abs_lt, abs_of_neg hb0]
      omega
    · have := h1 hb0
      have := hpos hb0
      rw [abs_lt, abs_of_pos hb0]
      omega
  have hz := Int.eq_zero_of_abs_lt_dvd hx hlt
  have hr : r = Int.fmod a b := by omega
  refine ⟨?_, hr⟩
  have hm : (q - Int.fdiv a b) * b = 0 := by
    have : q * b - Int.fdiv a b * b = 0 := by linarith [mul_comm b (Int.fdiv a b)]
    linarith [sub_mul q (Int.fdiv a b) b]
  rcases mul_eq_zero.mp hm with h0 | h0
  · omega
  · exact absurd h0 hb

theorem fdiv_neg_neg (a b : Int) (hb : b ≠ 0) :
    Int.fdiv (-a) (-b) = Int.fdiv a b ∧ -Int.fmod (-a) (-b) = Int.fmod a b := by
  have hdiv := Int.fmod_add_fdiv (-a) (-b)
  obtain ⟨h1, h2⟩ := fmod_bounds (-a) (-b)
  have := fdiv_unique a b (Int.fdiv (-a) (-b)) (-Int.fmod (-a) (-b))
    (by linarith [mul_comm b (Int.fdiv (-a) (-b)), neg_mul b (Int.fdiv (-a) (-b))])
    (fun hp => by have := h2 (by omega); omega)
    (fun hn => by have := h1 (by omega); omega) hb
  exact ⟨this.1, this.2⟩

theorem gmp_si_of_long (n : Int) (h0 : -9223372036854775808 ≤ n)
    (h1 : n ≤ 9223372036854775807) : PyLong_AsGmp_siAndOverflow n = (n, 0) := by
  have : mpz_fits_slong_p n = true := (fits_slong_iff n).mpr ⟨h0, h1⟩
  simp [PyLong_AsGmp_siAndOverflow, PyLong_AsLongAndOverflow, this]

theorem toULong_cast (n : Int) (h0 : 0 ≤ n) (h1 : n ≤ 9223372036854775808) :
    ((toULong n : Nat) : Int) = n := by
  unfold toULong
  rw [Int.emod_eq_of_lt h0 (by omega)]
  omega

theorem inplace_floordiv_long (a b : Int) (hb : b ≠ 0) (h0 : -9223372036854775808 ≤ b)
    (h1 : b ≤ 9223372036854775807) :
    Pyxmpz_inplace_floordiv a (PyArg.pylong b) = ⟨Int.fdiv a b, InplaceRet.self⟩ := by
  have hc := gmp_si_of_long b h0 h1
  simp only [Pyxmpz_inplace_floordiv, hc]
  rw [if_neg (by simp), if_neg hb]
  by_cases hp : b > 0
  · rw [if_pos hp, toULong_cast b (by omega) (by omega)]
    simp [mpz_fdiv_q, hb, storeKernel]
  · rw [if_neg hp, toULong_cast (-b) (by omega) (by omega)]
    have hnb : -b ≠ 0 := by omega
    simp [mpz_cdiv_qr, hnb, storeKernel, (fdiv_neg_neg a b hb).1]

theorem inplace_rem_long (a b : Int) (hb : b ≠ 0) (h0 : -9223372036854775808 ≤ b)
    (h1 : b ≤ 9223372036854775807) :
    Pyxmpz_inplace_rem a (PyArg.pylong b) = ⟨Int.fmod a b, InplaceRet.self⟩ := by
  have hc := gmp_si_of_long b h0 h1
  simp only [Pyxmpz_inplace_rem, hc]
  rw [if_neg (by simp)]
  by_cases hp : b > 0
  · rw [if_pos hp, toULong_cast b (by omega) (by omega)]
    simp [mpz_fdiv_r, hb, storeKernel]
  · rw [if_neg hp, if_neg hb, toULong_cast (-b) (by omega) (by omega)]
    have hnb : -b ≠ 0 := by omega
    have hq := (fdiv_neg_neg a b hb).1
    have hdiv := Int.fmod_add_fdiv a b
    simp only [mpz_cdiv_qr, hnb, if_false, Option.map_some', storeKernel, hq, neg_neg]
    congr 1
    linarith [mul_comm b (Int.fdiv a b), mul_neg (Int.fdiv a b) b]

/-- C30. For a nonzero Python integer b that fits a native long, positive or negative, the
fast paths of in-place floor division and remainder leave the xmpz holding q and r
with q * b + r = a, |r| < |b| and r zero or of the sign of b (so q = floor(a / b) and
r = a - b * q), which is what the `mpz_fdiv_q` / `mpz_fdiv_r` path gives for the
same divisor as an mpz; both return the operand. A zero divisor raises
`ZeroDivisionError` on both paths and leaves the operand as it was. -/
theorem inplace_div_fast_path (a b : Int) (hb : b ≠ 0) (h0 : -9223372036854775808 ≤ b)
    (h1 : b ≤ 9223372036854775807) :
    (∃ q r, Pyxmpz_inplace_floordiv a (PyArg.pylong b) = ⟨q, InplaceRet.self⟩ ∧
      Pyxmpz_inplace_rem a (PyArg.pylong b) = ⟨r, InplaceRet.self⟩ ∧
      Pyxmpz_inplace_floordiv a (PyArg.mpzany b) = ⟨q, InplaceRet.self⟩ ∧
      Pyxmpz_inplace_rem a (PyArg.mpzany b) = ⟨r, InplaceRet.self⟩ ∧
      q * b + r = a ∧ r = a - b * q ∧ |r| < |b| ∧ (r = 0 ∨ Int.sign r = Int.sign b)) ∧
    Pyxmpz_inplace_floordiv a (PyArg.pylong 0) =
      ⟨a, InplaceRet.error PyExc.ZeroDivisionError⟩ ∧
    Pyxmpz_inplace_floordiv a (PyArg.mpzany 0) =
      ⟨a, InplaceRet.error PyExc.ZeroDivisionError⟩ ∧
    Pyxmpz_inplace_rem a (PyArg.pylong 0) =
      ⟨a, InplaceRet.error PyExc.ZeroDivisionError⟩ ∧
    Pyxmpz_inplace_rem a (PyArg.mpzany 0) =
      ⟨a, InplaceRet.error PyExc.ZeroDivisionError⟩ := by
  refine ⟨⟨Int.fdiv a b, Int.fmod a b, inplace_floordiv_long a b hb h0 h1,
    inplace_rem_long a b hb h0 h1, ?_, ?_, ?_, ?_, ?_, ?_⟩, rfl, rfl, rfl, rfl⟩
  · have hs : ¬ Int.sign b = 0 := by
      rw [Int.sign_eq_zero_iff_zero]; exact hb
    simp [Pyxmpz_inplace_floordiv, hs, mpz_fdiv_q, hb, storeKernel]
  · have hs : ¬ Int.sign b = 0 := by
      rw [Int.sign_eq_zero_iff_zero]; exact hb
    simp [Pyxmpz_inplace_rem, hs, mpz_fdiv_r, hb, storeKernel]
  · have := Int.fmod_add_fdiv a b
    linarith [mul_comm b (Int.fdiv a b)]
  · have := Int.fmod_add_fdiv a b
    linarith
  · obtain ⟨p1, p2⟩ := fmod_bounds a b
    rcases lt_or_gt_of_ne hb with h | h
    · have := p2 h
      rw [abs_lt, abs_of_neg h]
      omega
    · have := p1 h
      rw [abs_lt, abs_of_pos h]
      omega
  · obtain ⟨p1, p2⟩ := fmod_bounds a b
    by_cases hr : Int.fmod a b = 0
    · exact Or.inl hr
    · right
      rcases lt_or_gt_of_ne hb with h | h
      · exact sign_eq_of_neg (by have := p2 h; omega) h
      · exact sign_eq_of_pos (by have := p1 h; omega) h

theorem inplace_div_fast_path_witness :
    ∃ q r, Pyxmpz_inplace_floordiv 7 (PyArg.pylong (-2)) = ⟨q, InplaceRet.self⟩ ∧
      Pyxmpz_inplace_rem 7 (PyArg.pylong (-2)) = ⟨r, InplaceRet.self⟩ ∧
      Pyxmpz_inplace_floordiv 7 (PyArg.mpzany (-2)) = ⟨q, InplaceRet.self⟩ ∧
      Pyxmpz_inplace_rem 7 (PyArg.mpzany (-2)) = ⟨r, InplaceRet.self⟩ ∧
      q * (-2) + r = 7 ∧ r = 7 - (-2) * q ∧ |r| < |(-2 : Int)| ∧
      (r = 0 ∨ Int.sign r = Int.sign (-2)) :=
  (inplace_div_fast_path 7 (-2) (by decide) (by decide) (by decide)).1

end Gmpy
